import Mathlib

/-!
Shallow embedding of the FabFive SAT-solver suite
(`src/utils/cnf_parser.py`, `src/utils/sudoku_encoder.py`,
`src/solvers/dpll_jw.py`, `src/solvers/cdcl.py`, `src/solvers/walksat.py`,
`src/solvers/probsat.py`), together with theorems that settle the frozen
claims about it.

Modelling conventions:
* Python `dict`s are embedded as insertion-ordered association lists
  (`List (Int × β)`): one entry per key, updates in place, inserts append.
* Python `float` scores (VSIDS activities, Jeroslow-Wang weights) are
  embedded as exact rationals (`Fab.Q`, unnormalized fractions); the only
  inexact float operation in the source is the VSIDS decay by `0.95`,
  modelled as multiplication by `19/20`.
* DIMACS text is embedded at token level: a parsed line is either a
  comment/blank line, a `p` header carrying the two header integers, a
  malformed `p` line, or the list of integer tokens of a clause line.
  The string-to-integer conversion performed by `int(...)`/`str(...)` in
  the source is taken as given.
* Unbounded Python loops (`while True` in unit propagation, the CDCL main
  loop, conflict analysis) are embedded with an explicit fuel parameter
  returning `Option`; `none` means the fuel ran out, and every theorem
  about such a loop is conditioned on the run having returned.
-/

set_option maxRecDepth 10000

namespace Fab

/-- `abs` on `Int`, as Python's `abs`. -/
def iabs (l : Int) : Int := if l < 0 then -l else l

/-! ### Insertion-ordered association lists (Python `dict`) -/

/-- Python `d.get(k)`: first (unique) binding of `k`. -/
def alGet {α β : Type} [DecidableEq α] (m : List (α × β)) (k : α) : Option β :=
  match m with
  | [] => none
  | (k2, v) :: rest => if k2 = k then some v else alGet rest k

/-- Python `d[k] = v`: update in place, else append. -/
def alSet {α β : Type} [DecidableEq α] (m : List (α × β)) (k : α) (v : β) : List (α × β) :=
  match m with
  | [] => [(k, v)]
  | (k2, v2) :: rest => if k2 = k then (k2, v) :: rest else (k2, v2) :: alSet rest k v

/-- Python `d.pop(k, None)`: drop the binding of `k` if present. -/
def alPop {α β : Type} [DecidableEq α] (m : List (α × β)) (k : α) : List (α × β) :=
  match m with
  | [] => []
  | (k2, v2) :: rest => if k2 = k then rest else (k2, v2) :: alPop rest k

/-- Python `k in d`. -/
def alHas {α β : Type} [DecidableEq α] (m : List (α × β)) (k : α) : Bool :=
  (alGet m k).isSome

/-! ### Exact rationals standing in for Python floats

Python `float` values (VSIDS scores, Jeroslow-Wang weights, `random.random`
draws) are modelled as exact unnormalized fractions with a positive
denominator; comparisons and equality are numeric (cross
multiplication), matching Python's numeric `==`/`<` on floats. The type is
kept free of GCD normalization so that the kernel can evaluate runs. -/

structure Q where
  num : Int
  den : Int
  deriving Repr

def Q.ofInt (n : Int) : Q := ⟨n, 1⟩

def Q.add (a b : Q) : Q := ⟨a.num * b.den + b.num * a.den, a.den * b.den⟩

def Q.mul (a b : Q) : Q := ⟨a.num * b.num, a.den * b.den⟩

def Q.neg (a : Q) : Q := ⟨-a.num, a.den⟩

/-- Numeric `<`. -/
def Q.blt (a b : Q) : Bool := decide (a.num * b.den < b.num * a.den)

/-- Numeric `≤`. -/
def Q.ble (a b : Q) : Bool := decide (a.num * b.den ≤ b.num * a.den)

/-- Numeric `==`. -/
def Q.beq (a b : Q) : Bool := decide (a.num * b.den = b.num * a.den)

/-- `x ** n` for a natural exponent. -/
def Q.pow (a : Q) : Nat → Q
  | 0 => ⟨1, 1⟩
  | n + 1 => (Q.pow a n).mul a

/-! ### Data model (`src/utils/cnf_parser.py`) -/

abbrev Clause := List Int
abbrev Formula := List Clause
abbrev Assignment := List (Int × Bool)

/-- `CNFFormula` dataclass from `src/utils/cnf_parser.py`. -/
structure CNFFormula where
  num_vars : Int
  num_clauses : Int
  clauses : Formula
  deriving Repr, DecidableEq

/-- One physical line of a DIMACS file after `strip`/`split`, at token
level: blank lines and `c` lines, a `p` line with at least 4 tokens
(carrying its third and fourth integer tokens), a `p` line with fewer
tokens, or a clause line carrying its integer tokens. -/
inductive PLine where
  | comment : PLine
  | header (nv nc : Int) : PLine
  | headerBad : PLine
  | lits (toks : List Int) : PLine
  deriving Repr, DecidableEq

/-- Loop body of `parse_dimacs` / `parse_from_string`: accumulated
`(clauses, num_vars, num_clauses)` updated by one line. -/
def parseStep (acc : Formula × Int × Int) (l : PLine) : Formula × Int × Int :=
  match l with
  | .comment => acc
  | .headerBad => acc
  | .header nv nc => (acc.1, nv, nc)
  | .lits toks =>
      let ls := toks.filter (fun t => t ≠ 0)
      if ls.isEmpty then acc else (acc.1 ++ [ls], acc.2.1, acc.2.2)

/-- `parse_dimacs` (equivalently `parse_from_string`) from
`src/utils/cnf_parser.py`, over the token-level lines of the file. -/
def parseDimacs (lines : List PLine) : CNFFormula :=
  let st := lines.foldl parseStep ([], 0, 0)
  let nc := if st.2.2 = 0 then (st.1.length : Int) else st.2.2
  { num_vars := st.2.1, num_clauses := nc, clauses := st.1 }

/-- `write_dimacs` from `src/utils/sudoku_encoder.py`, at token level:
a `p cnf 729 <n>` header, then each clause's literals followed by the
terminator `0`, one clause per line. -/
def writeDimacs (clauses : Formula) : List PLine :=
  PLine.header 729 (clauses.length : Int) :: clauses.map (fun c => PLine.lits (c ++ [0]))

/-! ### Literal evaluation -/

/-- The test `(lit > 0 and val) or (lit < 0 and not val)` used throughout
the solvers: the literal is satisfied by the current assignment. -/
def litSat (assignment : Assignment) (l : Int) : Bool :=
  match alGet assignment (iabs l) with
  | none => false
  | some v => (decide (l > 0) && v) || (decide (l < 0) && !v)

/-- The literal's variable is undecided (`val is None`). -/
def litUndecided (assignment : Assignment) (l : Int) : Bool :=
  (alGet assignment (iabs l)).isNone

/-- A clause contains a satisfied literal. -/
def clauseSat (assignment : Assignment) (c : Clause) : Bool :=
  c.any (fun l => litSat assignment l)

end Fab

namespace Dpll
open Fab

/-- `SolverStats` dataclass from `src/solvers/dpll_jw.py`. -/
structure SolverStats where
  decisions : Nat
  unit_propagations : Nat
  pure_eliminations : Nat
  deriving Repr, DecidableEq

def stats0 : SolverStats := { decisions := 0, unit_propagations := 0, pure_eliminations := 0 }

/-- Clause-reduction loop of `assign_literal`: drop clauses containing
`literal`, remove `-literal` elsewhere; `none` when a clause empties
(conflict). -/
def reduceGo (literal : Int) : Formula → Formula → Option Formula
  | [], acc => some acc
  | c :: rest, acc =>
    if literal ∈ c then reduceGo literal rest acc
    else if (-literal) ∈ c then
      let reduced := c.filter (fun l => l ≠ -literal)
      if reduced.isEmpty then none
      else reduceGo literal rest (acc ++ [reduced])
    else reduceGo literal rest (acc ++ [c])

/-- `assign_literal` from `src/solvers/dpll_jw.py`. Returns
`(clauses, conflict, assignment)`; on conflict the original clause list is
returned, as in the source. -/
def assign_literal (clauses : Formula) (assignment : Assignment) (literal : Int) :
    Formula × Bool × Assignment :=
  let var := iabs literal
  let value := decide (literal > 0)
  match alGet assignment var with
  | some existing =>
    if existing ≠ value then (clauses, true, assignment)
    else
      let a2 := alSet assignment var value
      match reduceGo literal clauses [] with
      | none => (clauses, true, a2)
      | some updated => (updated, false, a2)
  | none =>
      let a2 := alSet assignment var value
      match reduceGo literal clauses [] with
      | none => (clauses, true, a2)
      | some updated => (updated, false, a2)

/-- Result of the clause scan inside `unit_propagate`. -/
inductive ScanRes where
  | conflictFound : ScanRes
  | unitFound (l : Int) : ScanRes
  | noneFound : ScanRes
  deriving Repr, DecidableEq

/-- Inner literal walk of one clause in `unit_propagate`: collect undecided
literals until a satisfied literal is met. Returns `none` when the clause
is satisfied, else the undecided literals. -/
def clauseScan (assignment : Assignment) : Clause → List Int → Option (List Int)
  | [], und => some und
  | l :: rest, und =>
    if litUndecided assignment l then clauseScan assignment rest (und ++ [l])
    else if litSat assignment l then none
    else clauseScan assignment rest und

/-- The clause loop of `unit_propagate`: first non-satisfied clause with no
undecided literal is a conflict; first with exactly one undecided literal
is a unit. -/
def findUnit (assignment : Assignment) : Formula → ScanRes
  | [] => ScanRes.noneFound
  | c :: rest =>
    match clauseScan assignment c [] with
    | none => findUnit assignment rest
    | some [] => ScanRes.conflictFound
    | some [l] => ScanRes.unitFound l
    | some (_ :: _ :: _) => findUnit assignment rest

/-- `unit_propagate` from `src/solvers/dpll_jw.py` with fuel; threads the
`unit_propagations` counter. -/
def unit_propagate (fuel : Nat) (clauses : Formula) (assignment : Assignment) (ups : Nat) :
    Option (Formula × Bool × Assignment × Nat) :=
  match fuel with
  | 0 => none
  | fuel + 1 =>
    match findUnit assignment clauses with
    | ScanRes.conflictFound => some (clauses, true, assignment, ups)
    | ScanRes.noneFound => some (clauses, false, assignment, ups)
    | ScanRes.unitFound l =>
      let r := assign_literal clauses assignment l
      if r.2.1 then some (r.1, true, r.2.2, ups + 1)
      else unit_propagate fuel r.1 r.2.2 (ups + 1)

/-- Literal-count pass of `pure_literal_elimination` over one clause:
count undecided literals until a satisfied literal is met. -/
def countClause (assignment : Assignment) : Clause → List (Int × Nat) → List (Int × Nat)
  | [], counts => counts
  | l :: rest, counts =>
    if litUndecided assignment l then
      let c := (alGet counts l).getD 0
      countClause assignment rest (alSet counts l (c + 1))
    else if litSat assignment l then counts
    else countClause assignment rest counts

/-- The full literal-count pass of `pure_literal_elimination`. -/
def countLits (assignment : Assignment) (clauses : Formula) : List (Int × Nat) :=
  clauses.foldl (fun counts c => countClause assignment c counts) []

/-- Assigning loop over the pure literals; threads the `pure_eliminations`
counter. -/
def assignPures (pures : List Int) (clauses : Formula) (assignment : Assignment) (pes : Nat) :
    Formula × Bool × Assignment × Nat :=
  match pures with
  | [] => (clauses, false, assignment, pes)
  | l :: rest =>
    let r := assign_literal clauses assignment l
    if r.2.1 then (r.1, true, r.2.2, pes + 1)
    else assignPures rest r.1 r.2.2 (pes + 1)

/-- `pure_literal_elimination` from `src/solvers/dpll_jw.py`. -/
def pure_literal_elimination (clauses : Formula) (assignment : Assignment) (pes : Nat) :
    Formula × Bool × Assignment × Nat :=
  let counts := countLits assignment clauses
  let pures := (counts.map Prod.fst).filter (fun l => !(alHas counts (-l)))
  if pures.isEmpty then (clauses, false, assignment, pes)
  else assignPures pures clauses assignment pes

/-- Jeroslow-Wang clause weight `math.pow(2.0, -len(clause))` (0 for an
empty clause), as an exact rational. -/
def jwWeight (c : Clause) : Q :=
  if c.isEmpty then Q.ofInt 0 else Q.pow ⟨1, 2⟩ c.length

/-- Score pass of `pick_literal` over one clause. -/
def scoreClause (assignment : Assignment) (w : Q) : Clause → List (Int × Q) → List (Int × Q)
  | [], scores => scores
  | l :: rest, scores =>
    if litUndecided assignment l then
      let s := (alGet scores l).getD (Q.ofInt 0)
      scoreClause assignment w rest (alSet scores l (s.add w))
    else if litSat assignment l then scores
    else scoreClause assignment w rest scores

/-- The full score pass of `pick_literal`. -/
def scoreLits (assignment : Assignment) (clauses : Formula) : List (Int × Q) :=
  clauses.foldl (fun scores c => scoreClause assignment (jwWeight c) c scores) []

/-- `max(scores.items(), key=score)`: first maximal entry in insertion
order (Python's `max` keeps the earliest maximum). -/
def maxByScore (best : Int × Q) : List (Int × Q) → Int
  | [] => best.1
  | (l, s) :: rest => if Q.blt best.2 s then maxByScore (l, s) rest else maxByScore best rest

/-- Fallback scan of `pick_literal`: first literal of a clause whose
variable is unassigned. -/
def fallbackLit (assignment : Assignment) : Formula → Option Int
  | [] => none
  | c :: rest =>
    match c.find? (fun l => !(alHas assignment (iabs l))) with
    | some l => some l
    | none => fallbackLit assignment rest

/-- `pick_literal` from `src/solvers/dpll_jw.py`; `none` models the
`ValueError` raised by `max` on an empty score table with no fallback. -/
def pick_literal (clauses : Formula) (assignment : Assignment) : Option Int :=
  match scoreLits assignment clauses with
  | [] => fallbackLit assignment clauses
  | e :: rest => some (maxByScore e rest)

/-- `dpll` from `src/solvers/dpll_jw.py` with fuel. -/
def dpll (fuel : Nat) (clauses : Formula) (assignment : Assignment) (stats : SolverStats) :
    Option (Bool × Assignment × SolverStats) :=
  match fuel with
  | 0 => none
  | fuel + 1 =>
    match unit_propagate (fuel + 1) clauses assignment stats.unit_propagations with
    | none => none
    | some (current, conflict, a1, ups) =>
      let st1 := { stats with unit_propagations := ups }
      if conflict then some (false, a1, st1)
      else
        let (current2, conflict2, a2, pes) := pure_literal_elimination current a1 st1.pure_eliminations
        let st2 := { st1 with pure_eliminations := pes }
        if conflict2 then some (false, a2, st2)
        else if current2.isEmpty then some (true, a2, st2)
        else
          match pick_literal current2 a2 with
          | none => none
          | some literal =>
            let var := iabs literal
            -- value = True branch
            let st3 := { st2 with decisions := st2.decisions + 1 }
            let r1 := assign_literal current2 a2 var
            let afterTrue : Option (Option (Bool × Assignment × SolverStats) × SolverStats) :=
              if r1.2.1 then some (none, st3)
              else
                match dpll fuel r1.1 r1.2.2 st3 with
                | none => none
                | some (true, fa, fst) => some (some (true, fa, fst), fst)
                | some (false, _, fst) => some (none, fst)
            match afterTrue with
            | none => none
            | some (some res, _) => some res
            | some (none, st4) =>
              -- value = False branch
              let st5 := { st4 with decisions := st4.decisions + 1 }
              let r2 := assign_literal current2 a2 (-var)
              if r2.2.1 then some (false, a2, st5)
              else
                match dpll fuel r2.1 r2.2.2 st5 with
                | none => none
                | some (true, fa, fst) => some (true, fa, fst)
                | some (false, _, fst) => some (false, a2, fst)

/-- Field values of a solver result record (`Dict[str, object]`). -/
inductive RVal where
  | s (v : String) : RVal
  | n (v : Int) : RVal
  | asn (v : Assignment) : RVal
  deriving Repr, DecidableEq

/-- A solver result record: the ordered key/value pairs of the returned
Python dict. -/
abbrev Record := List (String × RVal)

/-- `run_solver` from `src/solvers/dpll_jw.py`, from token-level DIMACS
lines (the file contents), with fuel for the search. -/
def run_solver (lines : List PLine) (fuel : Nat) : Option Record :=
  let formula := parseDimacs lines
  match dpll fuel formula.clauses [] stats0 with
  | none => none
  | some (sat, assignment, stats) =>
    some [("solver", RVal.s "dpll_jw"),
          ("status", RVal.s (if sat then "SAT" else "UNSAT")),
          ("decisions", RVal.n stats.decisions),
          ("unit_propagations", RVal.n stats.unit_propagations),
          ("pure_eliminations", RVal.n stats.pure_eliminations),
          ("assignment", RVal.asn (if sat then assignment else [])),
          ("num_vars", RVal.n formula.num_vars),
          ("num_clauses", RVal.n formula.num_clauses)]

end Dpll

namespace Cdcl
open Fab

/-- `SolverStats` dataclass from `src/solvers/cdcl.py`. -/
structure SolverStats where
  decisions : Nat
  conflicts : Nat
  learned_clauses : Nat
  restarts : Nat
  deriving Repr, DecidableEq

def stats0 : SolverStats :=
  { decisions := 0, conflicts := 0, learned_clauses := 0, restarts := 0 }

/-- Python tuple comparison `(s1, v1) < (s2, v2)` on heap items, the only
comparison `heapq` performs (float comparison and equality are numeric). -/
def itemLt (a b : Q × Int) : Bool :=
  Q.blt a.1 b.1 || (Q.beq a.1 b.1 && decide (a.2 < b.2))

/-- `heap[i]` with an (unreachable) default. -/
def lget (xs : List (Q × Int)) (i : Nat) : Q × Int :=
  (xs.get? i).getD (Q.ofInt 0, 0)

/-- CPython `heapq._siftdown(heap, startpos, pos)` with `newitem` already
read out of `heap[pos]`; the fuel dominates the loop count. -/
def siftdown (fuel : Nat) (heap : List (Q × Int)) (startpos pos : Nat) (newitem : Q × Int) :
    List (Q × Int) :=
  match fuel with
  | 0 => heap
  | fuel + 1 =>
    if pos > startpos then
      let parentpos := (pos - 1) / 2
      let parent := lget heap parentpos
      if itemLt newitem parent then
        siftdown fuel (heap.set pos parent) startpos parentpos newitem
      else heap.set pos newitem
    else heap.set pos newitem

/-- CPython `heapq._siftup(heap, pos)` main loop with `newitem` already
read out of `heap[pos]`. -/
def siftupLoop (fuel : Nat) (heap : List (Q × Int)) (endpos startpos pos : Nat)
    (newitem : Q × Int) : List (Q × Int) :=
  match fuel with
  | 0 => heap
  | fuel + 1 =>
    let childpos := 2 * pos + 1
    if childpos < endpos then
      let rightpos := childpos + 1
      let childpos :=
        if rightpos < endpos && !(itemLt (lget heap childpos) (lget heap rightpos)) then rightpos
        else childpos
      let heap2 := heap.set pos (lget heap childpos)
      siftupLoop fuel heap2 endpos startpos childpos newitem
    else
      siftdown (pos + 1) (heap.set pos newitem) startpos pos newitem

/-- CPython `heapq.heappush`. -/
def heappush (heap : List (Q × Int)) (item : Q × Int) : List (Q × Int) :=
  let h2 := heap ++ [item]
  siftdown h2.length h2 0 (h2.length - 1) item

/-- CPython `heapq.heappop`; `none` on the empty heap (an `IndexError` in
Python, guarded by every caller). -/
def heappop (heap : List (Q × Int)) : Option ((Q × Int) × List (Q × Int)) :=
  match heap.getLast? with
  | none => none
  | some lastelt =>
    let h2 := heap.dropLast
    if h2.isEmpty then some (lastelt, h2)
    else
      let returnitem := lget h2 0
      let h3 := h2.set 0 lastelt
      some (returnitem, siftupLoop (h3.length + 1) h3 h3.length 0 0 lastelt)

/-- `PriorityQueue` from `src/solvers/cdcl.py`. -/
structure PQueue where
  heap : List (Q × Int)
  entries : List (Int × Q)
  deriving Repr

/-- `PriorityQueue.push` (also `update`). -/
def pqPush (q : PQueue) (var : Int) (score : Q) : PQueue :=
  { heap := heappush q.heap (score.neg, var), entries := alSet q.entries var score }

/-- `PriorityQueue.pop`: skim stale and assigned entries; the fuel
(called with `heap.length + 1`) dominates the loop count. -/
def pqPopLoop (fuel : Nat) (q : PQueue) (assignment : Assignment) : Option Int × PQueue :=
  match fuel with
  | 0 => (none, q)
  | fuel + 1 =>
    match heappop q.heap with
    | none => (none, q)
    | some ((score, var), h2) =>
      let q2 : PQueue := { q with heap := h2 }
      if alHas assignment var then pqPopLoop fuel q2 assignment
      else
        match alGet q2.entries var with
        | none => pqPopLoop fuel q2 assignment
        | some current =>
          if !(Q.beq score.neg current) then pqPopLoop fuel q2 assignment
          else (some var, q2)

def pqPop (q : PQueue) (assignment : Assignment) : Option Int × PQueue :=
  pqPopLoop (q.heap.length + 1) q assignment

/-- `SolverState` dataclass from `src/solvers/cdcl.py`. Clause indices are
`Nat` positions into `formula`. -/
structure SolverState where
  formula : Formula
  assignment : Assignment
  decision_levels : List (Int × Nat)
  reason : List (Int × Clause)
  level_literals : List Int
  watches : List (Int × List Nat)
  watch_map : List (Nat × (Int × Int))
  vsids : List (Int × Q)
  queue : PQueue
  phase : List (Int × Bool)
  decision_level : Nat
  decay : Q
  deriving Repr

/-- `add_watch`: `setdefault` then append if absent. -/
def wAdd (watches : List (Int × List Nat)) (literal : Int) (idx : Nat) :
    List (Int × List Nat) :=
  let cur := (alGet watches literal).getD []
  if idx ∈ cur then alSet watches literal cur else alSet watches literal (cur ++ [idx])

/-- `remove_watch`: no-op when the watcher list is missing or empty;
removes the first occurrence otherwise. -/
def wRemove (watches : List (Int × List Nat)) (literal : Int) (idx : Nat) :
    List (Int × List Nat) :=
  match alGet watches literal with
  | none => watches
  | some ws => if ws.isEmpty then watches else alSet watches literal (ws.erase idx)

/-- Watch initialization loop of `initialize_state`. A clause of length
`< 2` watches its only literal twice; an empty clause raises `IndexError`
on `clause[0]` in the source, embedded as `none`. -/
def initWatchLoop (idx : Nat) (clauses : Formula)
    (watches : List (Int × List Nat)) (watch_map : List (Nat × (Int × Int))) :
    Option (List (Int × List Nat) × List (Nat × (Int × Int))) :=
  match clauses with
  | [] => some (watches, watch_map)
  | c :: rest =>
    match c with
    | [] => none
    | [a] => initWatchLoop (idx + 1) rest (wAdd watches a idx) (alSet watch_map idx (a, a))
    | a :: b :: _ =>
      initWatchLoop (idx + 1) rest (wAdd (wAdd watches a idx) b idx)
        (alSet watch_map idx (a, b))

/-- VSIDS count loop of `initialize_state`. -/
def initVsids (clauses : Formula) : List (Int × Q) :=
  clauses.foldl
    (fun vs c => c.foldl (fun vs l =>
      alSet vs (iabs l) (((alGet vs (iabs l)).getD (Q.ofInt 0)).add (Q.ofInt 1))) vs)
    []

/-- `initialize_state` from `src/solvers/cdcl.py`; `none` when the watch
loop raises (empty clause in the formula — unreachable from the parser). -/
def initState (formula : Formula) : Option SolverState :=
  match initWatchLoop 0 formula [] [] with
  | none => none
  | some (watches, watch_map) =>
    let vsids := initVsids formula
    let queue := vsids.foldl (fun q p => pqPush q p.1 p.2) { heap := [], entries := [] }
    let phase := vsids.map (fun p => (p.1, true))
    some { formula := formula, assignment := [], decision_levels := [], reason := [],
           level_literals := [], watches := watches, watch_map := watch_map,
           vsids := vsids, queue := queue, phase := phase,
           decision_level := 0, decay := ⟨19, 20⟩ }

/-- `value_of` from `src/solvers/cdcl.py`. -/
def value_of (literal : Int) (assignment : Assignment) : Option Bool :=
  match alGet assignment (iabs literal) with
  | none => none
  | some val => some (if literal > 0 then val else !val)

/-- Body of the watcher loop in `propagate` for one watching clause;
`Except.error` carries the conflict clause together with the state at the
moment of the conflict (the source mutates the state in place, so watch
moves and unit assignments made earlier in the same pass persist). An
out-of-range clause index or a missing `watch_map` entry would raise an
`IndexError`/`KeyError` in the source, embedded as the outer `none`. -/
def procClause (st : SolverState) (queue : List Int) (opposite : Int) (ci : Nat) :
    Option (Except (Clause × SolverState) (SolverState × List Int)) :=
  match st.formula.get? ci with
  | none => none
  | some clause =>
  match alGet st.watch_map ci with
  | none => none
  | some (w1, w2) =>
    let other := if w1 = opposite then w2 else w1
    if value_of other st.assignment = some true then some (Except.ok (st, queue))
    else
      match clause.find? (fun cand =>
          decide (cand ≠ w1) && decide (cand ≠ w2) &&
          decide (value_of cand st.assignment ≠ some false)) with
      | some candidate =>
        let wm :=
          if w1 = opposite then alSet st.watch_map ci (candidate, w2)
          else alSet st.watch_map ci (w1, candidate)
        let ws := wAdd (wRemove st.watches opposite ci) candidate ci
        some (Except.ok ({ st with watch_map := wm, watches := ws }, queue))
      | none =>
        match value_of other st.assignment with
        | some false => some (Except.error (clause, st))
        | _ =>
          let var := iabs other
          let st2 := { st with
            assignment := alSet st.assignment var (decide (other > 0)),
            phase := alSet st.phase var (decide (other > 0)),
            decision_levels := alSet st.decision_levels var st.decision_level,
            reason := alSet st.reason var clause,
            level_literals := st.level_literals ++ [other] }
          some (Except.ok (st2, queue ++ [other]))

/-- The watcher loop of `propagate` (over a snapshot of the watcher
list, as `list(state.watches.get(opposite, []))`). -/
def procWatchers (st : SolverState) (queue : List Int) (opposite : Int) :
    List Nat → Option (Except (Clause × SolverState) (SolverState × List Int))
  | [] => some (Except.ok (st, queue))
  | ci :: rest =>
    match procClause st queue opposite ci with
    | none => none
    | some (Except.error e) => some (Except.error e)
    | some (Except.ok (st2, q2)) => procWatchers st2 q2 opposite rest

/-- The outer `while queue` loop of `propagate`; `queue.pop()` pops from
the back. -/
def propLoop (fuel : Nat) (st : SolverState) (queue : List Int) (stats : SolverStats) :
    Option (Option Clause × SolverState × SolverStats) :=
  match fuel with
  | 0 => none
  | fuel + 1 =>
    match queue.getLast? with
    | none => some (none, st, stats)
    | some literal =>
      let queue2 := queue.dropLast
      let opposite := -literal
      let watchers := (alGet st.watches opposite).getD []
      match procWatchers st queue2 opposite watchers with
      | none => none
      | some (Except.error (clause, stc)) =>
        some (some clause, stc, { stats with conflicts := stats.conflicts + 1 })
      | some (Except.ok (st2, q2)) => propLoop fuel st2 q2 stats

/-- `propagate` from `src/solvers/cdcl.py`: seeds the queue with a copy of
`level_literals`. -/
def propagate (fuel : Nat) (st : SolverState) (stats : SolverStats) :
    Option (Option Clause × SolverState × SolverStats) :=
  propLoop fuel st st.level_literals stats

/-- `count_curr_level` inside `analyze_conflict`. -/
def count_curr_level (st : SolverState) (clause : Clause) : Nat :=
  (clause.filter (fun l => alGet st.decision_levels (iabs l) = some st.decision_level)).length

/-- First loop of `resolve`: literals of the conflict side. -/
def resolveLeft (pivot : Int) : List Int → List Int × List Int → List Int × List Int
  | [], acc => acc
  | l :: rest, (resolvent, present) =>
    if iabs l = pivot then resolveLeft pivot rest (resolvent, present)
    else if (-l) ∈ present then resolveLeft pivot rest (resolvent, present)
    else if l ∈ present then resolveLeft pivot rest (resolvent, present)
    else resolveLeft pivot rest (resolvent ++ [l], present ++ [l])

/-- Second loop of `resolve`: literals of the reason side; complementary
literals cancel (first-occurrence removal). -/
def resolveRight (pivot : Int) : List Int → List Int × List Int → List Int × List Int
  | [], acc => acc
  | l :: rest, (resolvent, present) =>
    if iabs l = pivot then resolveRight pivot rest (resolvent, present)
    else if (-l) ∈ present then
      resolveRight pivot rest (resolvent.erase (-l), present.erase (-l))
    else if l ∈ present then resolveRight pivot rest (resolvent, present)
    else resolveRight pivot rest (resolvent ++ [l], present ++ [l])

/-- `resolve` inside `analyze_conflict`; a missing or empty reason returns
the clause unchanged. -/
def resolveClause (st : SolverState) (clause : Clause) (pivot : Int) : Clause :=
  match alGet st.reason pivot with
  | none => clause
  | some reason =>
    if reason.isEmpty then clause
    else
      let acc1 := resolveLeft pivot clause ([], [])
      (resolveRight pivot reason acc1).1

/-- Pivot search in `analyze_conflict`: most recently assigned
current-level trail literal whose variable occurs in `learned`. -/
def pivotSearch (st : SolverState) (learned : Clause) : Option Int :=
  (st.level_literals.reverse.find? (fun al =>
    let v := iabs al
    learned.any (fun l => iabs l = v) &&
      decide (alGet st.decision_levels v = some st.decision_level))).map iabs

/-- The 1-UIP resolution loop of `analyze_conflict`, with fuel. -/
def analyzeLoop (fuel : Nat) (st : SolverState) (learned : Clause) : Option Clause :=
  match fuel with
  | 0 => none
  | fuel + 1 =>
    if count_curr_level st learned > 1 then
      match pivotSearch st learned with
      | none => some learned
      | some pv => analyzeLoop fuel st (resolveClause st learned pv)
    else some learned

/-- `analyze_conflict` from `src/solvers/cdcl.py`: the learned clause and
the backjump level (highest non-current level among its literals). -/
def analyze_conflict (fuel : Nat) (st : SolverState) (conflict : Clause) :
    Option (Clause × Nat) :=
  (analyzeLoop fuel st conflict).map (fun learned =>
    let backjump := learned.foldl (fun bj l =>
      let lvl := (alGet st.decision_levels (iabs l)).getD 0
      if lvl ≠ st.decision_level ∧ lvl > bj then lvl else bj) 0
    (learned, backjump))

/-- `backtrack` from `src/solvers/cdcl.py`. -/
def backtrack (st : SolverState) (level : Nat) : SolverState :=
  let keep := fun (var : Int) =>
    match alGet st.decision_levels var with
    | some dl => decide (dl ≤ level)
    | none => true
  let dl2 := st.decision_levels.filter (fun p => p.2 ≤ level)
  { st with
    assignment := st.assignment.filter (fun p => keep p.1),
    decision_levels := dl2,
    reason := st.reason.filter (fun p => keep p.1),
    decision_level := level,
    level_literals := st.level_literals.filter (fun lit => alGet dl2 (iabs lit) = some level) }

/-- `learn_clause` from `src/solvers/cdcl.py`; an empty learned clause
raises `IndexError` on `clause[0]` in the source, embedded as `none`. -/
def learn_clause (st : SolverState) (clause : Clause) (stats : SolverStats) :
    Option (SolverState × SolverStats) :=
  match clause with
  | [] => none
  | a :: rest =>
    let formula2 := st.formula ++ [a :: rest]
    let idx := formula2.length - 1
    let (ws, wm) :=
      match rest with
      | [] => (wAdd st.watches a idx, alSet st.watch_map idx (a, a))
      | b :: _ => (wAdd (wAdd st.watches a idx) b idx, alSet st.watch_map idx (a, b))
    let st2 := { st with formula := formula2, watches := ws, watch_map := wm }
    let stats2 := { stats with learned_clauses := stats.learned_clauses + 1 }
    let st3 := (a :: rest).foldl (fun s l =>
      let var := iabs l
      let ns := ((alGet s.vsids var).getD (Q.ofInt 0)).add (Q.ofInt 1)
      { s with vsids := alSet s.vsids var ns, queue := pqPush s.queue var ns }) st2
    some (st3, stats2)

/-- `decay_scores` from `src/solvers/cdcl.py`. -/
def decay_scores (st : SolverState) : SolverState :=
  st.vsids.foldl (fun s p =>
    let ns := ((alGet s.vsids p.1).getD (Q.ofInt 0)).mul s.decay
    { s with vsids := alSet s.vsids p.1 ns, queue := pqPush s.queue p.1 ns }) st

/-- `select_branch_literal` from `src/solvers/cdcl.py`. -/
def select_branch_literal (st : SolverState) : Option Int × SolverState :=
  let (ov, q2) := pqPop st.queue st.assignment
  let st2 := { st with queue := q2 }
  match ov with
  | none => (none, st2)
  | some var =>
    let sign := (alGet st.phase var).getD true
    (some (if sign then var else -var), st2)

/-- Application of the asserting literal after backjumping (the
`if asserting is not None` block of the `cdcl` loop). -/
def applyAssert (st : SolverState) (clause : Clause) : Option Int → SolverState
  | none => st
  | some lit =>
    let var := iabs lit
    { st with
      assignment := alSet st.assignment var (decide (lit > 0)),
      decision_levels := alSet st.decision_levels var st.decision_level,
      reason := alSet st.reason var clause,
      phase := alSet st.phase var (decide (lit > 0)),
      level_literals := st.level_literals ++ [lit] }

/-- The `while True` loop of `cdcl`, with fuel. The extra `Nat` result is
a ghost count of loop iterations whose propagation returned a (truthy)
conflict; it does not influence the computation. Note `if conflict:` in
the source tests Python truthiness, so an empty conflict clause would be
treated as no conflict; this is embedded as `!c.isEmpty`. -/
def cdclLoop (fuel : Nat) (st : SolverState) (stats : SolverStats)
    (restart_limit : Nat) (conflicts_since_restart : Nat) (k : Nat) :
    Option ((Bool × Assignment) × SolverState × SolverStats × Nat) :=
  match fuel with
  | 0 => none
  | fuel + 1 =>
    match propagate (fuel + 1) st stats with
    | none => none
    | some (conflictOpt, st1, stats1) =>
      let isConf := match conflictOpt with
        | some c => !c.isEmpty
        | none => false
      if isConf then
        let conflict := conflictOpt.getD []
        let stats2 := { stats1 with conflicts := stats1.conflicts + 1 }
        let csr := conflicts_since_restart + 1
        if st1.decision_level = 0 then
          some ((false, st1.assignment), st1, stats2, k + 1)
        else
          match analyze_conflict (fuel + 1) st1 conflict with
          | none => none
          | some (clause, backjump) =>
            match learn_clause st1 clause stats2 with
            | none => none
            | some (st2, stats3) =>
            let asserting := clause.find? (fun l =>
              alGet st2.decision_levels (iabs l) = some st2.decision_level)
            let st3 := backtrack st2 backjump
            let st4 := decay_scores st3
            let st5 := applyAssert st4 clause asserting
            if csr ≥ restart_limit then
              let stats4 := { stats3 with restarts := stats3.restarts + 1 }
              let st6 := backtrack st5 0
              cdclLoop fuel st6 stats4 (restart_limit * 3 / 2) 0 (k + 1)
            else
              cdclLoop fuel st5 stats3 restart_limit csr (k + 1)
      else
        let (litOpt, st2) := select_branch_literal st1
        match litOpt with
        | none => some ((true, st2.assignment), st2, stats1, k)
        | some literal =>
          let st3 := { st2 with decision_level := st2.decision_level + 1 }
          let stats2 := { stats1 with decisions := stats1.decisions + 1 }
          let var := iabs literal
          let st4 := { st3 with
            assignment := alSet st3.assignment var (decide (literal > 0)),
            phase := alSet st3.phase var (decide (literal > 0)),
            decision_levels := alSet st3.decision_levels var st3.decision_level,
            reason := alSet st3.reason var [],
            level_literals := st3.level_literals ++ [literal] }
          cdclLoop fuel st4 stats2 restart_limit conflicts_since_restart k

/-- `cdcl` from `src/solvers/cdcl.py`: initial restart limit 100,
multiplier 1.5 (`int(limit * 1.5)` is exact floor on these magnitudes). -/
def cdcl (fuel : Nat) (st : SolverState) (stats : SolverStats) :
    Option ((Bool × Assignment) × SolverState × SolverStats × Nat) :=
  cdclLoop fuel st stats 100 0 0

/-- The level-0 unit-clause pre-pass of `run_solver`; `none` signals the
early `UNSAT` return. -/
def preUnit (clauses : Formula) (st : SolverState) : Option SolverState :=
  match clauses with
  | [] => some st
  | c :: rest =>
    match c with
    | [lit] =>
      let var := iabs lit
      (match alGet st.assignment var with
       | some val =>
         if val ≠ decide (lit > 0) then none else preUnit rest st
       | none =>
         let st2 := { st with
           assignment := alSet st.assignment var (decide (lit > 0)),
           decision_levels := alSet st.decision_levels var 0,
           reason := alSet st.reason var [],
           phase := alSet st.phase var (decide (lit > 0)),
           level_literals := st.level_literals ++ [lit] }
         preUnit rest st2)
    | _ => preUnit rest st

open Dpll (RVal Record) in
/-- The fixed early-`UNSAT` record of `run_solver` (note: no `num_vars`
key, all counters hardcoded to 0). -/
def unsatRecord (nclauses : Nat) : Dpll.Record :=
  [("solver", Dpll.RVal.s "cdcl"),
   ("status", Dpll.RVal.s "UNSAT"),
   ("decisions", Dpll.RVal.n 0),
   ("conflicts", Dpll.RVal.n 0),
   ("learned_clauses", Dpll.RVal.n 0),
   ("restarts", Dpll.RVal.n 0),
   ("assignment", Dpll.RVal.asn []),
   ("num_clauses", Dpll.RVal.n nclauses)]

/-- `run_solver` from `src/solvers/cdcl.py`, over token-level DIMACS
lines, with fuel; the ghost `Nat` is the conflict-iteration count of the
main loop (0 on the early returns). -/
def runSolverG (lines : List PLine) (fuel : Nat) : Option (Dpll.Record × Nat) :=
  let formula := (parseDimacs lines).clauses
  match initState formula with
  | none => none
  | some st =>
  match preUnit st.formula st with
  | none => some (unsatRecord st.formula.length, 0)
  | some st1 =>
    match propagate fuel st1 stats0 with
    | none => none
    | some (conflictOpt, st2, stats1) =>
      match conflictOpt with
      | some _ => some (unsatRecord st2.formula.length, 0)
      | none =>
        match cdcl fuel st2 stats1 with
        | none => none
        | some ((sat, assignment), st3, stats2, k) =>
          some ([("solver", Dpll.RVal.s "cdcl"),
                 ("status", Dpll.RVal.s (if sat then "SAT" else "UNSAT")),
                 ("decisions", Dpll.RVal.n stats2.decisions),
                 ("conflicts", Dpll.RVal.n stats2.conflicts),
                 ("learned_clauses", Dpll.RVal.n stats2.learned_clauses),
                 ("restarts", Dpll.RVal.n stats2.restarts),
                 ("assignment", Dpll.RVal.asn (if sat then assignment else [])),
                 ("num_clauses", Dpll.RVal.n st3.formula.length)], k)

/-- `run_solver` proper (ghost count projected away). -/
def run_solver (lines : List PLine) (fuel : Nat) : Option Dpll.Record :=
  (runSolverG lines fuel).map Prod.fst

end Cdcl

namespace Rnd
open Fab

/-- Modelled stand-in for Python's module-global Mersenne Twister
(`random`), as a deterministic stream over a `Nat` state: the repository
draws every stochastic choice from this module-level generator, which
`main` seeds from `--seed`. The generator internals are standard-library
code, not repository source; only determinism-given-state matters to the
claims. -/
def next (s : Nat) : Nat × Nat :=
  let s2 := (6364136223846793005 * s + 1442695040888963407) % (2 ^ 64)
  (s2 / 2 ^ 33, s2)

/-- `random.seed(k)`: the generator state determined by the seed. -/
def seed (k : Nat) : Nat := k

/-- `random.choice(xs)` (modelled; `xs` empty raises in Python, callers
guard). -/
def choice {α : Type} (xs : List α) (d : α) (s : Nat) : α × Nat :=
  let (o, s2) := next s
  (xs.getD (o % xs.length) d, s2)

/-- `random.choice([True, False])`. -/
def coin (s : Nat) : Bool × Nat :=
  let (o, s2) := next s
  (decide (o % 2 = 0), s2)

/-- `random.random()`: a rational in `[0, 1)` (modelled). -/
def unit (s : Nat) : Q × Nat :=
  let (o, s2) := next s
  ((⟨(o % 2 ^ 31 : Nat), 2 ^ 31⟩ : Q), s2)

end Rnd

namespace Wsat
open Fab

/-- `SolverStats` dataclass from `src/solvers/walksat.py`. -/
structure SolverStats where
  flips : Nat
  restarts : Nat
  deriving Repr, DecidableEq

def stats0 : SolverStats := { flips := 0, restarts := 0 }

/-- `initialize_assignment` from `src/solvers/walksat.py`: a random
Boolean for each var in `1..num_vars` in order. -/
def initAssignment (num_vars : Nat) (s : Nat) : Assignment × Nat :=
  (List.range num_vars).foldl (fun (acc : Assignment × Nat) i =>
    let (b, s2) := Rnd.coin acc.2
    (acc.1 ++ [((i + 1 : Int), b)], s2)) ([], s)

/-- `clause_value` from `src/solvers/walksat.py` (identical in
`probsat.py`): unassigned literals are skipped. -/
def clause_value (clause : Clause) (assignment : Assignment) : Bool :=
  clause.any (fun l => litSat assignment l)

/-- `unsatisfied_clauses`. -/
def unsatisfied_clauses (clauses : Formula) (assignment : Assignment) : Formula :=
  clauses.filter (fun c => !clause_value c assignment)

/-- `flip_variable`. -/
def flip_variable (assignment : Assignment) (var : Int) : Assignment :=
  alSet assignment var (!((alGet assignment var).getD false))

/-- The greedy inner loop of `walk_sat`: pick the clause variable with the
fewest broken clauses after a tentative flip (strict improvement, first
minimum wins; `best_score` starts at infinity). -/
def bestVar (clauses : Formula) (assignment : Assignment) :
    Clause → Option (Int × Nat) → Option (Int × Nat)
  | [], best => best
  | l :: rest, best =>
    let var := iabs l
    let broken := (unsatisfied_clauses clauses (flip_variable assignment var)).length
    let best2 :=
      match best with
      | none => some (var, broken)
      | some (bv, bs) => if broken < bs then some (var, broken) else some (bv, bs)
    bestVar clauses assignment rest best2

/-- One attempt of `walk_sat` (the `for step in range(max_flips)` loop),
after the initial assignment has been drawn. -/
def walkLoop (clauses : Formula) (assignment : Assignment) (steps : Nat)
    (noise : Q) (flips : Nat) (s : Nat) : Option Assignment × Nat × Nat :=
  match steps with
  | 0 => (none, flips, s)
  | steps + 1 =>
    let unsatisfied := unsatisfied_clauses clauses assignment
    if unsatisfied.isEmpty then (some assignment, flips, s)
    else
      let (clause, s1) := Rnd.choice unsatisfied [] s
      let flips2 := flips + 1
      let (r, s2) := Rnd.unit s1
      if Q.blt r noise then
        let (l, s3) := Rnd.choice clause 0 s2
        walkLoop clauses (flip_variable assignment (iabs l)) steps noise flips2 s3
      else
        match bestVar clauses assignment clause none with
        | some (bv, _) => walkLoop clauses (flip_variable assignment bv) steps noise flips2 s2
        | none =>
          let (l, s3) := Rnd.choice clause 0 s2
          walkLoop clauses (flip_variable assignment (iabs l)) steps noise flips2 s3

/-- `walk_sat` from `src/solvers/walksat.py`. -/
def walk_sat (clauses : Formula) (num_vars : Nat) (max_flips : Nat) (noise : Q)
    (flips : Nat) (s : Nat) : Option Assignment × Nat × Nat :=
  let (assignment, s1) := initAssignment num_vars s
  walkLoop clauses assignment max_flips noise flips s1

/-- The attempt loop of `run_solver`: up to `restarts` attempts; the
`restarts` counter counts failed attempts. -/
def attemptLoop (clauses : Formula) (num_vars : Nat) (max_flips : Nat) (noise : Q)
    (attempts : Nat) (stats : SolverStats) (s : Nat) :
    Option Assignment × SolverStats × Nat :=
  match attempts with
  | 0 => (none, stats, s)
  | attempts + 1 =>
    let (res, flips2, s2) := walk_sat clauses num_vars max_flips noise stats.flips s
    let stats2 := { stats with flips := flips2 }
    match res with
    | some assignment => (some assignment, stats2, s2)
    | none => attemptLoop clauses num_vars max_flips noise attempts
        { stats2 with restarts := stats2.restarts + 1 } s2

/-- Python truthiness of `best_assignment` (an `Optional[Dict]`): `None`
and the empty dict are both falsy — the test `run_solver` uses for the
status and for `best_assignment or {}`. -/
def pyTruthy (o : Option Assignment) : Bool :=
  match o with
  | none => false
  | some a => !a.isEmpty

/-- `run_solver` from `src/solvers/walksat.py`, over token-level DIMACS
lines, threading the modelled generator state. -/
def run_solver (lines : List PLine) (max_flips : Nat) (noise : Q) (restarts : Nat)
    (s : Nat) : Dpll.Record × Nat :=
  let formula := parseDimacs lines
  let (best, stats, s2) :=
    attemptLoop formula.clauses formula.num_vars.toNat max_flips noise restarts stats0 s
  let record : Dpll.Record :=
    [("solver", Dpll.RVal.s "walksat"),
     ("status", Dpll.RVal.s (if pyTruthy best then "SAT" else "UNKNOWN")),
     ("flips", Dpll.RVal.n stats.flips),
     ("restarts", Dpll.RVal.n stats.restarts),
     ("num_vars", Dpll.RVal.n formula.num_vars),
     ("num_clauses", Dpll.RVal.n formula.num_clauses),
     ("assignment", Dpll.RVal.asn (if pyTruthy best then best.getD [] else []))]
  (record, s2)

/-- `main` from `src/solvers/walksat.py` with an explicit `--seed`: seeds
the generator, then calls `run_solver` (defaults: `max_flips` 10000,
`noise` 1/2, `restarts` 1). -/
def mainSeeded (lines : List PLine) (max_flips : Nat) (noise : Q) (restarts : Nat)
    (seedVal : Nat) : Dpll.Record :=
  (run_solver lines max_flips noise restarts (Rnd.seed seedVal)).1

end Wsat

namespace Psat
open Fab
open Wsat (clause_value unsatisfied_clauses flip_variable pyTruthy)

/-- `SolverStats` dataclass from `src/solvers/probsat.py`. -/
structure SolverStats where
  flips : Nat
  restarts : Nat
  deriving Repr, DecidableEq

def stats0 : SolverStats := { flips := 0, restarts := 0 }

/-- `break_score` from `src/solvers/probsat.py`: unsatisfied-clause count
after a tentative flip. -/
def break_score (clauses : Formula) (assignment : Assignment) (var : Int) : Nat :=
  (unsatisfied_clauses clauses (flip_variable assignment var)).length

/-- Score table of `select_variable_probabilistic`: weight
`epsilon ** break_score` per clause variable. -/
def scoreTable (clause : Clause) (clauses : Formula) (assignment : Assignment)
    (epsilon : Q) : List (Int × Q) :=
  clause.map (fun l =>
    let var := iabs l
    (var, epsilon.pow (break_score clauses assignment var)))

/-- The accumulation walk of `select_variable_probabilistic`: first
variable whose cumulative weight reaches `r`; falls back to the last
entry. -/
def accumPick (scores : List (Int × Q)) (r : Q) (accum : Q) (last : Int) : Int :=
  match scores with
  | [] => last
  | (var, score) :: rest =>
    let accum2 := accum.add score
    if Q.ble r accum2 then var else accumPick rest r accum2 var

/-- `select_variable_probabilistic` from `src/solvers/probsat.py`. -/
def select_variable_probabilistic (clause : Clause) (clauses : Formula)
    (assignment : Assignment) (epsilon : Q) (s : Nat) : Int × Nat :=
  let scores := scoreTable clause clauses assignment epsilon
  let total := scores.foldl (fun t p => t.add p.2) (Q.ofInt 0)
  let (u, s2) := Rnd.unit s
  let r := u.mul total
  let last := ((scores.getLast?).map Prod.fst).getD 0
  (accumPick scores r (Q.ofInt 0) last, s2)

/-- The `for step in range(max_flips)` loop of `prob_sat`. -/
def probLoop (clauses : Formula) (assignment : Assignment) (steps : Nat)
    (epsilon : Q) (flips : Nat) (s : Nat) : Option Assignment × Nat × Nat :=
  match steps with
  | 0 => (none, flips, s)
  | steps + 1 =>
    let unsatisfied := unsatisfied_clauses clauses assignment
    if unsatisfied.isEmpty then (some assignment, flips, s)
    else
      let (clause, s1) := Rnd.choice unsatisfied [] s
      let (var, s2) := select_variable_probabilistic clause clauses assignment epsilon s1
      probLoop clauses (flip_variable assignment var) steps epsilon (flips + 1) s2

/-- `prob_sat` from `src/solvers/probsat.py`. -/
def prob_sat (clauses : Formula) (num_vars : Nat) (max_flips : Nat) (epsilon : Q)
    (flips : Nat) (s : Nat) : Option Assignment × Nat × Nat :=
  let (assignment, s1) := Wsat.initAssignment num_vars s
  probLoop clauses assignment max_flips epsilon flips s1

/-- The attempt loop of `run_solver`. -/
def attemptLoop (clauses : Formula) (num_vars : Nat) (max_flips : Nat) (epsilon : Q)
    (attempts : Nat) (stats : SolverStats) (s : Nat) :
    Option Assignment × SolverStats × Nat :=
  match attempts with
  | 0 => (none, stats, s)
  | attempts + 1 =>
    let (res, flips2, s2) := prob_sat clauses num_vars max_flips epsilon stats.flips s
    let stats2 := { stats with flips := flips2 }
    match res with
    | some assignment => (some assignment, stats2, s2)
    | none => attemptLoop clauses num_vars max_flips epsilon attempts
        { stats2 with restarts := stats2.restarts + 1 } s2

/-- `run_solver` from `src/solvers/probsat.py`. -/
def run_solver (lines : List PLine) (max_flips : Nat) (epsilon : Q) (restarts : Nat)
    (s : Nat) : Dpll.Record × Nat :=
  let formula := parseDimacs lines
  let (best, stats, s2) :=
    attemptLoop formula.clauses formula.num_vars.toNat max_flips epsilon restarts stats0 s
  let record : Dpll.Record :=
    [("solver", Dpll.RVal.s "probsat"),
     ("status", Dpll.RVal.s (if pyTruthy best then "SAT" else "UNKNOWN")),
     ("flips", Dpll.RVal.n stats.flips),
     ("restarts", Dpll.RVal.n stats.restarts),
     ("num_vars", Dpll.RVal.n formula.num_vars),
     ("num_clauses", Dpll.RVal.n formula.num_clauses),
     ("assignment", Dpll.RVal.asn (if pyTruthy best then best.getD [] else []))]
  (record, s2)

/-- `main` from `src/solvers/probsat.py` with an explicit `--seed`. -/
def mainSeeded (lines : List PLine) (max_flips : Nat) (epsilon : Q) (restarts : Nat)
    (seedVal : Nat) : Dpll.Record :=
  (run_solver lines max_flips epsilon restarts (Rnd.seed seedVal)).1

end Psat

namespace Sudoku
open Fab

/-- `SIZE` from `src/utils/sudoku_encoder.py`. -/
def SIZE : Nat := 9

/-- `BOX`. -/
def BOX : Nat := 3

/-- `DIGITS = range(1, 10)`. -/
def DIGITS : List Nat := (List.range 9).map (fun v => v + 1)

/-- `var_index` from `src/utils/sudoku_encoder.py`. -/
def var_index (row col value : Nat) : Int :=
  ((row * SIZE * SIZE + col * SIZE + value : Nat) : Int)

/-- `cell_clauses`. -/
def cell_clauses : Formula :=
  (List.range SIZE).flatMap (fun r =>
    (List.range SIZE).flatMap (fun c =>
      [DIGITS.map (fun v => var_index r c v)] ++
      DIGITS.flatMap (fun v1 =>
        DIGITS.filterMap (fun v2 =>
          if v1 < v2 then some [-(var_index r c v1), -(var_index r c v2)] else none))))

/-- `row_clauses`. -/
def row_clauses : Formula :=
  (List.range SIZE).flatMap (fun r =>
    DIGITS.flatMap (fun v =>
      [(List.range SIZE).map (fun c => var_index r c v)] ++
      (List.range SIZE).flatMap (fun c1 =>
        (List.range SIZE).filterMap (fun c2 =>
          if c1 < c2 then some [-(var_index r c1 v), -(var_index r c2 v)] else none))))

/-- `column_clauses`. -/
def column_clauses : Formula :=
  (List.range SIZE).flatMap (fun c =>
    DIGITS.flatMap (fun v =>
      [(List.range SIZE).map (fun r => var_index r c v)] ++
      (List.range SIZE).flatMap (fun r1 =>
        (List.range SIZE).filterMap (fun r2 =>
          if r1 < r2 then some [-(var_index r1 c v), -(var_index r2 c v)] else none))))

/-- The cell list of one box (`cells` in `box_clauses`). -/
def boxCells (br bc : Nat) : List (Nat × Nat) :=
  (List.range BOX).flatMap (fun dr => (List.range BOX).map (fun dc => (br + dr, bc + dc)))

/-- `box_clauses` (`range(0, SIZE, BOX)` is `[0, 3, 6]`). -/
def box_clauses : Formula :=
  [0, 3, 6].flatMap (fun br =>
    [0, 3, 6].flatMap (fun bc =>
      let cells := boxCells br bc
      DIGITS.flatMap (fun v =>
        [cells.map (fun rc => var_index rc.1 rc.2 v)] ++
        (List.range cells.length).flatMap (fun i =>
          (List.range cells.length).filterMap (fun j =>
            if i < j then
              let rc1 := cells.getD i (0, 0)
              let rc2 := cells.getD j (0, 0)
              some [-(var_index rc1.1 rc1.2 v), -(var_index rc2.1 rc2.2 v)]
            else none)))))

/-- A 9×9 puzzle grid: entry 0 is an empty cell. -/
abbrev Grid := List (List Nat)

/-- `clue_clauses` from `src/utils/sudoku_encoder.py`: a unit clause for
every non-zero entry. -/
def clue_clauses (puzzle : Grid) : Formula :=
  (List.range SIZE).flatMap (fun r =>
    (List.range SIZE).filterMap (fun c =>
      let value := (puzzle.getD r []).getD c 0
      if value ≠ 0 then some [var_index r c value] else none))

/-- `encode` from `src/utils/sudoku_encoder.py`. -/
def encode (puzzle : Grid) : Formula :=
  cell_clauses ++ row_clauses ++ column_clauses ++ box_clauses ++ clue_clauses puzzle

end Sudoku

namespace Cdcl
open Fab

/-- A literal fit for a formula over variables `1..N`: non-zero with
magnitude at most `N`. -/
def wfLit (N : Nat) (l : Int) : Prop := l ≠ 0 ∧ iabs l ≤ (N : Int)

/-- All literals of the clause are fit. -/
def wfClause (N : Nat) (c : Clause) : Prop := ∀ l ∈ c, wfLit N l

/-- A variable in range `1..N`. -/
def wfVar (N : Nat) (v : Int) : Prop := 1 ≤ v ∧ v ≤ (N : Int)

/-- Well-formedness bundle of a solver state over variables `1..N`: the
clause database, reasons and watch pairs hold fit literals; the assignment
has distinct in-range keys; queue entries and VSIDS keys are in range. -/
def wfState (N : Nat) (st : SolverState) : Prop :=
  (∀ cl ∈ st.formula, wfClause N cl) ∧
  (∀ p ∈ st.reason, wfClause N p.2) ∧
  ((st.assignment.map Prod.fst).Nodup ∧ ∀ p ∈ st.assignment, wfVar N p.1) ∧
  (∀ p ∈ st.queue.entries, wfVar N p.1) ∧
  (∀ p ∈ st.vsids, wfVar N p.1) ∧
  (∀ p ∈ st.watch_map, wfLit N p.2.1 ∧ wfLit N p.2.2)

end Cdcl

/-! ## Theorems settling the claims -/

namespace Fab

/-- Helper: looking a key up in a solver record. -/
def recGet (r : Dpll.Record) (k : String) : Option Dpll.RVal :=
  alGet r k

/-- Fixture: the XOR constraint `x1 ≠ x2` in DIMACS (4 clauses, UNSAT
after CDCL learns both unit clauses). -/
def xorLines : List PLine :=
  [PLine.header 2 4, PLine.lits [1, 2, 0], PLine.lits [-1, -2, 0],
   PLine.lits [1, -2, 0], PLine.lits [-1, 2, 0]]

/-- Fixture: a satisfiable 7-variable instance whose two forcing gadgets
`(¬x ∨ a) ∧ (¬x ∨ ¬a)` make the CDCL search learn unit clauses and backjump
to level 0, re-deciding the filler variables 5–7 after every conflict. -/
def advLines : List PLine :=
  [PLine.header 7 7, PLine.lits [-1, 3, 0], PLine.lits [-1, -3, 0],
   PLine.lits [-2, 4, 0], PLine.lits [-2, -4, 0],
   PLine.lits [5, 6, 7, 0], PLine.lits [6, 7, 5, 0], PLine.lits [7, 5, 6, 0]]

/-- Fixture: a clause list with non-empty clauses and non-zero literals,
for the write/parse round trip. -/
def rtClauses : Formula := [[1, -2], [2, 3], [-1]]

/-- Fixture: the solver state `initialize_state` builds for the XOR
formula. -/
def confBase : Cdcl.SolverState :=
  (Cdcl.initState [[1, 2], [-1, -2], [1, -2], [-1, 2]]).get (by rfl)

/-- Fixture: the XOR state with both variables decided `True` at level 1,
so that propagating the trail finds the conflict clause `[-1, -2]`. -/
def confState : Cdcl.SolverState :=
  { confBase with
      assignment := [(1, true), (2, true)],
      decision_levels := [(1, 1), (2, 1)],
      decision_level := 1,
      level_literals := [1, 2] }

/-- Fixture: a standard Sudoku puzzle grid (0 = empty cell). -/
def exGrid : Sudoku.Grid :=
  [[5, 3, 0, 0, 7, 0, 0, 0, 0],
   [6, 0, 0, 1, 9, 5, 0, 0, 0],
   [0, 9, 8, 0, 0, 0, 0, 6, 0],
   [8, 0, 0, 0, 6, 0, 0, 0, 3],
   [4, 0, 0, 8, 0, 3, 0, 0, 1],
   [7, 0, 0, 0, 2, 0, 0, 0, 6],
   [0, 6, 0, 0, 0, 0, 2, 8, 0],
   [0, 0, 0, 4, 1, 9, 0, 0, 5],
   [0, 0, 0, 0, 8, 0, 0, 7, 9]]

/-- The parser's clause accumulator never gains an empty clause. -/
theorem parseStep_no_empty (acc : Formula × Int × Int) (l : PLine)
    (h : [] ∉ acc.1) : [] ∉ (parseStep acc l).1 := by
  cases l with
  | comment => exact h
  | headerBad => exact h
  | header nv nc => exact h
  | lits toks =>
    show [] ∉ (if (toks.filter (fun t => t ≠ 0)).isEmpty then acc
               else (acc.1 ++ [toks.filter (fun t => t ≠ 0)], acc.2.1, acc.2.2)).1
    cases he : (toks.filter (fun t => t ≠ 0)).isEmpty with
    | true => rw [if_pos rfl]; exact h
    | false =>
      rw [if_neg (by decide)]
      intro hmem
      rcases List.mem_append.mp hmem with hm | hm
      · exact h hm
      · have hls : toks.filter (fun t => t ≠ 0) = [] := (List.mem_singleton.mp hm).symm
        rw [hls] at he
        simp at he

theorem parseFold_no_empty (lines : List PLine) (acc : Formula × Int × Int)
    (h : [] ∉ acc.1) : [] ∉ (lines.foldl parseStep acc).1 := by
  induction lines generalizing acc with
  | nil => exact h
  | cons l rest ih => exact ih _ (parseStep_no_empty acc l h)

/-- `parse_dimacs` never returns a formula containing an empty clause:
empty DIMACS clauses are dropped at parse time. -/
theorem parseDimacs_no_empty_clause (lines : List PLine) :
    [] ∉ (parseDimacs lines).clauses := by
  simpa [parseDimacs] using parseFold_no_empty lines ([], 0, 0) (by simp)

end Fab

namespace Dpll
open Fab

/-- `reduceGo` keeps an empty clause: an empty clause contains neither the
literal nor its negation, so the reduction copies it through. -/
theorem reduceGo_keeps_empty (literal : Int) (clauses acc : Formula) (out : Formula)
    (hmem : [] ∈ clauses ∨ [] ∈ acc) (h : reduceGo literal clauses acc = some out) :
    [] ∈ out := by
  induction clauses generalizing acc with
  | nil =>
    simp only [reduceGo] at h
    cases h
    rcases hmem with hm | hm
    · cases hm
    · exact hm
  | cons c rest ih =>
    simp only [reduceGo] at h
    by_cases h1 : literal ∈ c
    · rw [if_pos h1] at h
      rcases hmem with hm | hm
      · rcases List.mem_cons.mp hm with hc | hc
        · exact absurd (hc ▸ h1) (List.not_mem_nil literal)
        · exact ih acc (Or.inl hc) h
      · exact ih acc (Or.inr hm) h
    · rw [if_neg h1] at h
      by_cases h2 : (-literal) ∈ c
      · rw [if_pos h2] at h
        rcases hmem with hm | hm
        · rcases List.mem_cons.mp hm with hc | hc
          · exact absurd (hc ▸ h2) (List.not_mem_nil (-literal))
          · by_cases h3 : (c.filter (fun l => l ≠ -literal)).isEmpty
            · rw [if_pos h3] at h; cases h
            · rw [if_neg h3] at h
              exact ih _ (Or.inl hc) h
        · by_cases h3 : (c.filter (fun l => l ≠ -literal)).isEmpty
          · rw [if_pos h3] at h; cases h
          · rw [if_neg h3] at h
            exact ih _ (Or.inr (List.mem_append.mpr (Or.inl hm))) h
      · rw [if_neg h2] at h
        rcases hmem with hm | hm
        · rcases List.mem_cons.mp hm with hc | hc
          · exact ih _ (Or.inr (List.mem_append.mpr (Or.inr (hc ▸ List.mem_singleton.mpr rfl)))) h
          · exact ih _ (Or.inl hc) h
        · exact ih _ (Or.inr (List.mem_append.mpr (Or.inl hm))) h

/-- `assign_literal` without conflict keeps an empty clause. -/
theorem assign_literal_keeps_empty (clauses : Formula) (assignment : Assignment)
    (literal : Int) (out : Formula) (a2 : Assignment) (hmem : [] ∈ clauses)
    (h : assign_literal clauses assignment literal = (out, false, a2)) :
    [] ∈ out := by
  unfold assign_literal at h
  cases hget : alGet assignment (iabs literal) with
  | some existing =>
    simp only [hget] at h
    by_cases hne : existing ≠ decide (literal > 0)
    · rw [if_pos hne] at h
      simp at h
    · rw [if_neg hne] at h
      cases hred : reduceGo literal clauses [] with
      | none => simp only [hred] at h; simp at h
      | some upd =>
        simp only [hred] at h
        obtain ⟨h1, _, _⟩ := Prod.mk.injEq .. ▸ h
        exact h1 ▸ reduceGo_keeps_empty literal clauses [] upd (Or.inl hmem) hred
  | none =>
    simp only [hget] at h
    cases hred : reduceGo literal clauses [] with
    | none => simp only [hred] at h; simp at h
    | some upd =>
      simp only [hred] at h
      obtain ⟨h1, _, _⟩ := Prod.mk.injEq .. ▸ h
      exact h1 ▸ reduceGo_keeps_empty literal clauses [] upd (Or.inl hmem) hred

/-- With an empty clause present, the clause scan of `unit_propagate`
never reports "no unit, no conflict". -/
theorem findUnit_with_empty (assignment : Assignment) (clauses : Formula)
    (hmem : [] ∈ clauses) : findUnit assignment clauses ≠ ScanRes.noneFound := by
  induction clauses with
  | nil => cases hmem
  | cons c rest ih =>
    rcases List.mem_cons.mp hmem with hc | hc
    · subst hc
      intro h
      simp only [findUnit, clauseScan] at h
      cases h
    · intro h
      simp only [findUnit] at h
      cases hscan : clauseScan assignment c [] with
      | none => rw [hscan] at h; exact ih hc h
      | some und =>
        rw [hscan] at h
        match und, h with
        | _ :: _ :: _, h => exact ih hc h

/-- `unit_propagate` on a formula containing the empty clause always
reports a conflict. -/
theorem unit_propagate_with_empty (fuel : Nat) (clauses : Formula)
    (assignment : Assignment) (ups : Nat) (r : Formula × Bool × Assignment × Nat)
    (hmem : [] ∈ clauses) (h : unit_propagate fuel clauses assignment ups = some r) :
    r.2.1 = true := by
  induction fuel generalizing clauses assignment ups with
  | zero => cases h
  | succ fuel ih =>
    simp only [unit_propagate] at h
    cases hfind : findUnit assignment clauses with
    | conflictFound => simp only [hfind] at h; cases h; rfl
    | noneFound => exact absurd hfind (findUnit_with_empty assignment clauses hmem)
    | unitFound l =>
      simp only [hfind] at h
      cases hasg : assign_literal clauses assignment l with
      | mk c1 rest2 =>
        obtain ⟨conf1, a1⟩ := rest2
        simp only [hasg] at h
        cases conf1 with
        | true => simp only [if_true] at h; cases h; rfl
        | false =>
          simp only [Bool.false_eq_true, if_false] at h
          exact ih _ _ _
            (assign_literal_keeps_empty clauses assignment l c1 a1 hmem hasg) h

/-- `dpll` on a formula containing the empty clause never returns SAT:
the first unit-propagation pass reports the conflict. -/
theorem dpll_with_empty (fuel : Nat) (clauses : Formula) (assignment : Assignment)
    (stats : SolverStats) (r : Bool × Assignment × SolverStats)
    (hmem : [] ∈ clauses) (h : dpll fuel clauses assignment stats = some r) :
    r.1 = false := by
  cases fuel with
  | zero => cases h
  | succ fuel =>
    simp only [dpll] at h
    cases hup : unit_propagate (fuel + 1) clauses assignment stats.unit_propagations with
    | none => simp only [hup] at h; exact Option.noConfusion h
    | some up =>
      have hconf : up.2.1 = true :=
        unit_propagate_with_empty (fuel + 1) clauses assignment stats.unit_propagations up hmem hup
      obtain ⟨current, conflict, a1, ups⟩ := up
      simp only at hconf
      subst hconf
      simp only [hup, if_true] at h
      cases h
      rfl

end Dpll

open Fab in
/-- C3 counterexample: the DIMACS input `p cnf 1 1` followed by the
empty-clause line `0` is solved as SAT by both the DPLL-JW and the CDCL
entry points (the claim says UNSAT). -/
theorem c3_empty_clause_input_gives_SAT :
    (Dpll.run_solver [PLine.header 1 1, PLine.lits [0]] 5).map
        (fun r => recGet r "status") = some (some (Dpll.RVal.s "SAT")) ∧
    (Cdcl.run_solver [PLine.header 1 1, PLine.lits [0]] 5).map
        (fun r => recGet r "status") = some (some (Dpll.RVal.s "SAT")) := by
  exact ⟨rfl, rfl⟩

open Fab in
/-- C3 amended: the parser drops empty clauses, so no parsed formula ever
contains one and the entry points solve the remaining clauses; the `dpll`
search itself does return UNSAT on any formula value containing an empty
clause. -/
theorem c3_empty_clause_dropped_and_dpll_unsat :
    (∀ lines : List PLine, [] ∉ (parseDimacs lines).clauses) ∧
    (∀ (fuel : Nat) (clauses : Formula) (assignment : Assignment)
       (stats : Dpll.SolverStats) (r : Bool × Assignment × Dpll.SolverStats),
       [] ∈ clauses → Dpll.dpll fuel clauses assignment stats = some r → r.1 = false) :=
  ⟨parseDimacs_no_empty_clause, Dpll.dpll_with_empty⟩

open Fab in
/-- C3 amended, witness: concrete instances of both conjuncts. -/
theorem c3_empty_clause_witness :
    [] ∉ (parseDimacs [PLine.header 1 1, PLine.lits [0]]).clauses ∧
    (false, ([] : Assignment), Dpll.stats0).1 = false := by
  refine ⟨c3_empty_clause_dropped_and_dpll_unsat.1 _, ?_⟩
  exact c3_empty_clause_dropped_and_dpll_unsat.2 5 [[]] [] Dpll.stats0
    (false, [], Dpll.stats0) (List.mem_singleton.mpr rfl) rfl

open Fab in
/-- C4: on the empty formula `p cnf 0 0`, DPLL-JW and CDCL return SAT with
an empty assignment, but WalkSAT and probSAT return status UNKNOWN — the
search found the (empty) total assignment and returned it, but
`"SAT" if best_assignment else "UNKNOWN"` tests Python truthiness and the
empty dict is falsy. Defaults: `max_flips` 10000, `noise`/`epsilon` 0.5,
`restarts` 1, seed 42. -/
theorem c4_empty_formula_statuses :
    recGet (Wsat.mainSeeded [PLine.header 0 0] 10000 ⟨1, 2⟩ 1 42) "status" =
        some (Dpll.RVal.s "UNKNOWN") ∧
    recGet (Psat.mainSeeded [PLine.header 0 0] 10000 ⟨1, 2⟩ 1 42) "status" =
        some (Dpll.RVal.s "UNKNOWN") ∧
    recGet (Wsat.mainSeeded [PLine.header 0 0] 10000 ⟨1, 2⟩ 1 42) "assignment" =
        some (Dpll.RVal.asn []) ∧
    (Dpll.run_solver [PLine.header 0 0] 5).map (fun r => recGet r "status") =
        some (some (Dpll.RVal.s "SAT")) ∧
    (Cdcl.run_solver [PLine.header 0 0] 5).map (fun r => recGet r "status") =
        some (some (Dpll.RVal.s "SAT")) := by
  exact ⟨rfl, rfl, rfl, rfl, rfl⟩

open Fab in
/-- C5 counterexample: on the well-formed input `p cnf 1 1` / `1 0`, the
CDCL entry point's record has no `num_vars` key at all (the claim says
every solver record carries one). -/
theorem c5_cdcl_record_missing_num_vars :
    (Cdcl.run_solver [PLine.header 1 1, PLine.lits [1, 0]] 10).map
        (fun r => recGet r "num_vars") = some none ∧
    (Cdcl.run_solver [PLine.header 1 1, PLine.lits [1, 0]] 10).map
        (fun r => recGet r "status") = some (some (Dpll.RVal.s "SAT")) := by
  exact ⟨rfl, rfl⟩

namespace Cdcl
open Fab

/-- `procClause` never modifies the formula. -/
theorem procClause_formula (st : SolverState) (queue : List Int) (opposite : Int) (ci : Nat) :
    (∀ st2 q2, procClause st queue opposite ci = some (Except.ok (st2, q2)) →
      st2.formula = st.formula) ∧
    (∀ c stc, procClause st queue opposite ci = some (Except.error (c, stc)) →
      stc.formula = st.formula) := by
  constructor
  · intro st2 q2 h
    cases hcl : st.formula.get? ci with
    | none => simp only [procClause, hcl] at h; exact Option.noConfusion h
    | some clause =>
      cases halg : alGet st.watch_map ci with
      | none => simp only [procClause, hcl, halg] at h; exact Option.noConfusion h
      | some w =>
        obtain ⟨w1, w2⟩ := w
        simp only [procClause, hcl, halg] at h
        by_cases htrue : value_of (if w1 = opposite then w2 else w1) st.assignment = some true
        · rw [if_pos htrue] at h; cases h; rfl
        · rw [if_neg htrue] at h
          cases hfind : clause.find? (fun cand =>
              decide (cand ≠ w1) && decide (cand ≠ w2) &&
              decide (value_of cand st.assignment ≠ some false)) with
          | some candidate =>
            simp only [hfind] at h
            cases h
            rfl
          | none =>
            simp only [hfind] at h
            cases hval : value_of (if w1 = opposite then w2 else w1) st.assignment with
            | none => simp only [hval] at h; cases h; rfl
            | some b =>
              cases b with
              | false => simp only [hval] at h; cases h
              | true => simp only [hval] at h; cases h; rfl
  · intro c stc h
    cases hcl : st.formula.get? ci with
    | none => simp only [procClause, hcl] at h; exact Option.noConfusion h
    | some clause =>
      cases halg : alGet st.watch_map ci with
      | none => simp only [procClause, hcl, halg] at h; exact Option.noConfusion h
      | some w =>
        obtain ⟨w1, w2⟩ := w
        simp only [procClause, hcl, halg] at h
        by_cases htrue : value_of (if w1 = opposite then w2 else w1) st.assignment = some true
        · rw [if_pos htrue] at h; cases h
        · rw [if_neg htrue] at h
          cases hfind : clause.find? (fun cand =>
              decide (cand ≠ w1) && decide (cand ≠ w2) &&
              decide (value_of cand st.assignment ≠ some false)) with
          | some candidate => simp only [hfind] at h; cases h
          | none =>
            simp only [hfind] at h
            cases hval : value_of (if w1 = opposite then w2 else w1) st.assignment with
            | none => simp only [hval] at h; cases h
            | some b =>
              cases b with
              | false =>
                simp only [hval] at h
                cases h
                rfl
              | true => simp only [hval] at h; cases h



open Fab

/-- The watcher loop never modifies the formula. -/
theorem procWatchers_formula (opposite : Int) (watchers : List Nat) :
    ∀ (st : SolverState) (queue : List Int),
    (∀ st2 q2, procWatchers st queue opposite watchers = some (Except.ok (st2, q2)) →
      st2.formula = st.formula) ∧
    (∀ c stc, procWatchers st queue opposite watchers = some (Except.error (c, stc)) →
      stc.formula = st.formula) := by
  induction watchers with
  | nil =>
    intro st queue
    constructor
    · intro st2 q2 h
      simp only [procWatchers] at h
      cases h
      rfl
    · intro c stc h
      simp only [procWatchers] at h
      exact (Except.noConfusion (Option.some.inj h))
  | cons ci rest ih =>
    intro st queue
    constructor
    · intro st2 q2 h
      simp only [procWatchers] at h
      cases hpc : procClause st queue opposite ci with
      | none => rw [hpc] at h; exact Option.noConfusion h
      | some e =>
        rw [hpc] at h
        cases e with
        | error e2 => cases h
        | ok p =>
          obtain ⟨stm, qm⟩ := p
          have h1 := (procClause_formula st queue opposite ci).1 stm qm hpc
          have h2 := ((ih stm qm).1 st2 q2 h)
          rw [h2, h1]
    · intro c stc h
      simp only [procWatchers] at h
      cases hpc : procClause st queue opposite ci with
      | none => rw [hpc] at h; exact Option.noConfusion h
      | some e =>
        rw [hpc] at h
        cases e with
        | error e2 =>
          obtain ⟨c2, stc2⟩ := e2
          cases h
          exact (procClause_formula st queue opposite ci).2 c stc hpc
        | ok p =>
          obtain ⟨stm, qm⟩ := p
          have h1 := (procClause_formula st queue opposite ci).1 stm qm hpc
          have h2 := ((ih stm qm).2 c stc h)
          rw [h2, h1]

/-- `propagate`'s outer loop never modifies the formula. -/
theorem propLoop_formula (fuel : Nat) :
    ∀ (st : SolverState) (queue : List Int) (stats : SolverStats) co st2 stats2,
    propLoop fuel st queue stats = some (co, st2, stats2) → st2.formula = st.formula := by
  induction fuel with
  | zero => intro st queue stats co st2 stats2 h; cases h
  | succ fuel ih =>
    intro st queue stats co st2 stats2 h
    cases hl : queue.getLast? with
    | none => simp only [propLoop, hl] at h; cases h; rfl
    | some literal =>
      simp only [propLoop, hl] at h
      cases hpw : procWatchers st queue.dropLast (-literal)
          ((alGet st.watches (-literal)).getD []) with
      | none => simp only [hpw] at h; exact Option.noConfusion h
      | some e =>
        simp only [hpw] at h
        cases e with
        | error e2 =>
          obtain ⟨c2, stc2⟩ := e2
          have hst : stc2 = st2 := congrArg (fun t => t.2.1) (Option.some.inj h)
          rw [← hst]
          exact (procWatchers_formula (-literal) _ st queue.dropLast).2 c2 stc2 hpw
        | ok p =>
          obtain ⟨stm, qm⟩ := p
          have h1 := (procWatchers_formula (-literal) _ st queue.dropLast).1 stm qm hpw
          have h2 := ih stm qm stats co st2 stats2 h
          rw [h2, h1]

theorem propagate_formula (fuel : Nat) (st : SolverState) (stats : SolverStats)
    (co : Option Clause) (st2 : SolverState) (stats2 : SolverStats)
    (h : propagate fuel st stats = some (co, st2, stats2)) : st2.formula = st.formula :=
  propLoop_formula fuel st st.level_literals stats co st2 stats2 h

/-- `backtrack` keeps the formula. -/
theorem backtrack_formula (st : SolverState) (level : Nat) :
    (backtrack st level).formula = st.formula := rfl

/-- `decay_scores` keeps the formula. -/
theorem decay_scores_formula (st : SolverState) : (decay_scores st).formula = st.formula := by
  unfold decay_scores
  generalize st.vsids = l
  induction l generalizing st with
  | nil => rfl
  | cons p rest ih => exact ih _

/-- The VSIDS bump fold in `learn_clause` keeps the formula. -/
theorem learnFold_formula (lits : List Int) (s : SolverState) :
    (lits.foldl (fun s l =>
      let var := iabs l
      let ns := ((alGet s.vsids var).getD (Q.ofInt 0)).add (Q.ofInt 1)
      { s with vsids := alSet s.vsids var ns, queue := pqPush s.queue var ns }) s).formula
      = s.formula := by
  induction lits generalizing s with
  | nil => rfl
  | cons a rest ih => exact ih _

/-- `learn_clause` appends exactly the learned clause. -/
theorem learn_clause_formula (st : SolverState) (clause : Clause) (stats : SolverStats)
    (st2 : SolverState) (stats2 : SolverStats)
    (h : learn_clause st clause stats = some (st2, stats2)) :
    st2.formula = st.formula ++ [clause] := by
  cases clause with
  | nil => cases h
  | cons a rest =>
    simp only [learn_clause] at h
    have hfst := congrArg Prod.fst (Option.some.inj h)
    exact (congrArg SolverState.formula hfst).symm.trans (learnFold_formula (a :: rest) _)

/-- `applyAssert` keeps the formula. -/
theorem applyAssert_formula (st : SolverState) (clause : Clause) (o : Option Int) :
    (applyAssert st clause o).formula = st.formula := by
  cases o with
  | none => rfl
  | some lit => rfl

/-- `select_branch_literal` keeps the formula. -/
theorem select_branch_literal_formula (st : SolverState) :
    (select_branch_literal st).2.formula = st.formula := by
  unfold select_branch_literal
  cases hpq : pqPop st.queue st.assignment with
  | mk ov q2 =>
    cases ov with
    | none => rfl
    | some var => rfl

end Cdcl

namespace Cdcl
open Fab

/-- A conflict clause returned by `procClause` is a member of the formula. -/
theorem procClause_error_mem (st : SolverState) (queue : List Int) (opposite : Int)
    (ci : Nat) (c : Clause) (stc : SolverState)
    (h : procClause st queue opposite ci = some (Except.error (c, stc))) :
    c ∈ st.formula := by
  cases hcl : st.formula.get? ci with
  | none => simp only [procClause, hcl] at h; exact Option.noConfusion h
  | some clause =>
    have hmem : clause ∈ st.formula := List.get?_mem hcl
    cases halg : alGet st.watch_map ci with
    | none => simp only [procClause, hcl, halg] at h; exact Option.noConfusion h
    | some w =>
      obtain ⟨w1, w2⟩ := w
      simp only [procClause, hcl, halg] at h
      by_cases htrue : value_of (if w1 = opposite then w2 else w1) st.assignment = some true
      · rw [if_pos htrue] at h; cases h
      · rw [if_neg htrue] at h
        cases hfind : clause.find? (fun cand =>
            decide (cand ≠ w1) && decide (cand ≠ w2) &&
            decide (value_of cand st.assignment ≠ some false)) with
        | some candidate => simp only [hfind] at h; cases h
        | none =>
          simp only [hfind] at h
          cases hval : value_of (if w1 = opposite then w2 else w1) st.assignment with
          | none => simp only [hval] at h; cases h
          | some b =>
            cases b with
            | false =>
              simp only [hval] at h
              have : c = clause := (congrArg (fun e => e.1) (Except.error.inj (Option.some.inj h))).symm
              exact this ▸ hmem
            | true => simp only [hval] at h; cases h

/-- A conflict clause returned by the watcher loop is a member of the
(unchanged) formula. -/
theorem procWatchers_error_mem (opposite : Int) (watchers : List Nat) :
    ∀ (st : SolverState) (queue : List Int) (c : Clause) (stc : SolverState),
    procWatchers st queue opposite watchers = some (Except.error (c, stc)) →
    c ∈ st.formula := by
  induction watchers with
  | nil =>
    intro st queue c stc h
    simp only [procWatchers] at h
    exact Except.noConfusion (Option.some.inj h)
  | cons ci rest ih =>
    intro st queue c stc h
    simp only [procWatchers] at h
    cases hpc : procClause st queue opposite ci with
    | none => rw [hpc] at h; exact Option.noConfusion h
    | some e =>
      rw [hpc] at h
      cases e with
      | error e2 =>
        obtain ⟨c2, stc2⟩ := e2
        have hcc : c2 = c := congrArg (fun t => t.1) (Except.error.inj (Option.some.inj h))
        exact hcc ▸ procClause_error_mem st queue opposite ci c2 stc2 hpc
      | ok p =>
        obtain ⟨stm, qm⟩ := p
        have hf := (procClause_formula st queue opposite ci).1 stm qm hpc
        exact hf ▸ ih stm qm c stc h

/-- Stats accounting of the propagation loop: no conflict leaves the stats
untouched; a conflict adds exactly one to `conflicts`, and the conflict
clause is a member of the formula. -/
theorem propLoop_stats (fuel : Nat) :
    ∀ (st : SolverState) (queue : List Int) (stats : SolverStats)
      (co : Option Clause) (st2 : SolverState) (stats2 : SolverStats),
    propLoop fuel st queue stats = some (co, st2, stats2) →
    (co = none → stats2 = stats) ∧
    (∀ c, co = some c →
      stats2 = { stats with conflicts := stats.conflicts + 1 } ∧ c ∈ st.formula) := by
  induction fuel with
  | zero => intro st queue stats co st2 stats2 h; cases h
  | succ fuel ih =>
    intro st queue stats co st2 stats2 h
    cases hl : queue.getLast? with
    | none =>
      simp only [propLoop, hl] at h
      have h3 := Option.some.inj h
      have hco : none = co := congrArg (fun t => t.1) h3
      have hstats : stats = stats2 := congrArg (fun t => t.2.2) h3
      constructor
      · intro _; exact hstats.symm
      · intro c hc; rw [← hco] at hc; cases hc
    | some literal =>
      simp only [propLoop, hl] at h
      cases hpw : procWatchers st queue.dropLast (-literal)
          ((alGet st.watches (-literal)).getD []) with
      | none => simp only [hpw] at h; exact Option.noConfusion h
      | some e =>
        simp only [hpw] at h
        cases e with
        | error e2 =>
          obtain ⟨c2, stc2⟩ := e2
          have h3 := Option.some.inj h
          have hco : some c2 = co := congrArg (fun t => t.1) h3
          have hstats : ({ stats with conflicts := stats.conflicts + 1 } : SolverStats) = stats2 :=
            congrArg (fun t => t.2.2) h3
          constructor
          · intro hnone; rw [← hco] at hnone; cases hnone
          · intro c hc
            rw [← hco] at hc
            cases hc
            exact ⟨hstats.symm, procWatchers_error_mem (-literal) _ st queue.dropLast c2 stc2 hpw⟩
        | ok p =>
          obtain ⟨stm, qm⟩ := p
          have hrec := ih stm qm stats co st2 stats2 h
          refine ⟨hrec.1, fun c hc => ⟨(hrec.2 c hc).1, ?_⟩⟩
          have hf := (procWatchers_formula (-literal) _ st queue.dropLast).1 stm qm hpw
          exact hf ▸ (hrec.2 c hc).2

end Cdcl

namespace Cdcl
open Fab

/-- A learned clause accepted by `learn_clause` is non-empty. -/
theorem learn_clause_ne (st : SolverState) (clause : Clause) (stats : SolverStats)
    (st2 : SolverState) (stats2 : SolverStats)
    (h : learn_clause st clause stats = some (st2, stats2)) : clause ≠ [] := by
  cases clause with
  | nil => cases h
  | cons a rest => exact List.cons_ne_nil a rest

/-- `learn_clause` increments `learned_clauses` by one and keeps the other
counters. -/
theorem learn_clause_stats (st : SolverState) (clause : Clause) (stats : SolverStats)
    (st2 : SolverState) (stats2 : SolverStats)
    (h : learn_clause st clause stats = some (st2, stats2)) :
    stats2 = { stats with learned_clauses := stats.learned_clauses + 1 } := by
  cases clause with
  | nil => cases h
  | cons a rest =>
    simp only [learn_clause] at h
    exact (congrArg Prod.snd (Option.some.inj h)).symm

/-- Combined bookkeeping of the CDCL main loop: the formula only grows and
never gains an empty clause; the `conflicts` counter advances by exactly 2
per conflict iteration (the double count); `learned_clauses` advances by at
most 1 per conflict iteration. -/
theorem cdclLoop_main (fuel : Nat) :
    ∀ (st : SolverState) (stats : SolverStats) (rl csr k0 : Nat)
      (res : Bool × Assignment) (st2 : SolverState) (stats2 : SolverStats) (k2 : Nat),
    [] ∉ st.formula →
    cdclLoop fuel st stats rl csr k0 = some (res, st2, stats2, k2) →
    [] ∉ st2.formula ∧
    st.formula.length ≤ st2.formula.length ∧
    stats2.conflicts + 2 * k0 = stats.conflicts + 2 * k2 ∧
    k0 ≤ k2 ∧
    stats2.learned_clauses + k0 ≤ stats.learned_clauses + k2 ∧
    stats2.decisions ≥ stats.decisions ∧ stats2.restarts ≥ stats.restarts := by
  induction fuel with
  | zero => intro st stats rl csr k0 res st2 stats2 k2 hne h; cases h
  | succ fuel ih =>
    intro st stats rl csr k0 res st2 stats2 k2 hne h
    simp only [cdclLoop] at h
    cases hp : propagate (fuel + 1) st stats with
    | none => rw [hp] at h; exact Option.noConfusion h
    | some trip =>
      obtain ⟨co, st1, stats1⟩ := trip
      have hform1 : st1.formula = st.formula :=
        propagate_formula (fuel + 1) st stats co st1 stats1 hp
      have hps := propLoop_stats (fuel + 1) st st.level_literals stats co st1 stats1 hp
      cases co with
      | none =>
        have hstats1 : stats1 = stats := hps.1 rfl
        simp only [hp, Option.getD, Bool.false_eq_true, if_false] at h
        cases hsel : select_branch_literal st1 with
        | mk litOpt stsel =>
          have hfsel : stsel.formula = st1.formula := by
            have := select_branch_literal_formula st1
            rw [hsel] at this
            exact this
          rw [hsel] at h
          cases litOpt with
          | none =>
            have h3 := Option.some.inj h
            have hres : (true, stsel.assignment) = res := congrArg (fun t => t.1) h3
            have hst2 : stsel = st2 := congrArg (fun t => t.2.1) h3
            have hstats2 : stats1 = stats2 := congrArg (fun t => t.2.2.1) h3
            have hk2 : k0 = k2 := congrArg (fun t => t.2.2.2) h3
            rw [← hst2, ← hstats2, ← hk2, hstats1, hfsel, hform1]
            exact ⟨hne, le_refl _, rfl, le_refl _, le_refl _, le_refl _, le_refl _⟩
          | some literal =>
            have hrec := ih _ _ rl csr k0 res st2 stats2 k2
              (by
                show [] ∉ stsel.formula
                rw [hfsel, hform1]; exact hne) h
            have hf4 : stsel.formula.length ≤ st2.formula.length := hrec.2.1
            rw [hstats1] at hrec
            refine ⟨hrec.1, ?_, ?_, hrec.2.2.2.1, ?_, ?_, ?_⟩
            · rw [← hform1, ← hfsel]; exact hrec.2.1
            · exact hrec.2.2.1
            · exact hrec.2.2.2.2.1
            · exact le_trans (Nat.le_succ _) hrec.2.2.2.2.2.1
            · exact hrec.2.2.2.2.2.2
      | some c =>
        have hcm := (hps.2 c rfl)
        have hstats1 : stats1 = { stats with conflicts := stats.conflicts + 1 } := hcm.1
        have hcne : c ≠ [] := fun e => hne (e ▸ hcm.2)
        have hie : c.isEmpty = false := by
          cases c with
          | nil => exact absurd rfl hcne
          | cons a r => rfl
        simp only [hp, hie, Bool.not_false, if_true, Option.getD] at h
        by_cases hdl : st1.decision_level = 0
        · rw [if_pos hdl] at h
          have h3 := Option.some.inj h
          have hst2 : st1 = st2 := congrArg (fun t => t.2.1) h3
          have hstats2 : ({ stats1 with conflicts := stats1.conflicts + 1 } : SolverStats) = stats2 :=
            congrArg (fun t => t.2.2.1) h3
          have hk2 : k0 + 1 = k2 := congrArg (fun t => t.2.2.2) h3
          rw [← hst2, ← hstats2, ← hk2, hstats1, hform1]
          refine ⟨hne, le_refl _, ?_, ?_, ?_, ?_, ?_⟩ <;> simp <;> omega
        · rw [if_neg hdl] at h
          cases han : analyze_conflict (fuel + 1) st1 c with
          | none => rw [han] at h; exact Option.noConfusion h
          | some pr =>
            obtain ⟨clause, backjump⟩ := pr
            simp only [han] at h
            cases hlearn : learn_clause st1 clause { stats1 with conflicts := stats1.conflicts + 1 } with
            | none => simp only [hlearn] at h; exact Option.noConfusion h
            | some pl =>
              obtain ⟨stl, statsl⟩ := pl
              simp only [hlearn] at h
              have hfl : stl.formula = st1.formula ++ [clause] :=
                learn_clause_formula st1 clause _ stl statsl hlearn
              have hstatsl : statsl = { { stats1 with conflicts := stats1.conflicts + 1 } with
                  learned_clauses := stats1.learned_clauses + 1 } :=
                learn_clause_stats st1 clause _ stl statsl hlearn
              have hclne : clause ≠ [] := learn_clause_ne st1 clause _ stl statsl hlearn
              have hnel : [] ∉ stl.formula := by
                rw [hfl]
                intro hm
                rcases List.mem_append.mp hm with hm | hm
                · exact hne (hform1 ▸ hm)
                · exact hclne (List.mem_singleton.mp hm).symm
              -- the post-learn state: backtrack, decay, assert, optional restart
              have hlen : stl.formula.length = st1.formula.length + 1 := by
                rw [hfl]; simp
              have hlen2 : st1.formula.length = st.formula.length := congrArg List.length hform1
              by_cases hrs : csr + 1 ≥ rl
              · rw [if_pos hrs] at h
                have hfS : (backtrack (applyAssert (decay_scores (backtrack stl backjump)) clause
                    (clause.find? (fun l =>
                      alGet stl.decision_levels (iabs l) = some stl.decision_level))) 0).formula
                    = stl.formula := by
                  rw [backtrack_formula, applyAssert_formula, decay_scores_formula,
                    backtrack_formula]
                have hrec := ih _ _ _ 0 (k0 + 1) res st2 stats2 k2
                  (by rw [hfS]; exact hnel) h
                simp only [hstatsl, hstats1] at hrec
                have hlS := congrArg List.length hfS
                refine ⟨hrec.1, by omega, by omega, by omega, by omega, by omega, by omega⟩
              · rw [if_neg hrs] at h
                have hfS : (applyAssert (decay_scores (backtrack stl backjump)) clause
                    (clause.find? (fun l =>
                      alGet stl.decision_levels (iabs l) = some stl.decision_level))).formula
                    = stl.formula := by
                  rw [applyAssert_formula, decay_scores_formula, backtrack_formula]
                have hrec := ih _ _ _ (csr + 1) (k0 + 1) res st2 stats2 k2
                  (by rw [hfS]; exact hnel) h
                simp only [hstatsl, hstats1] at hrec
                have hlS := congrArg List.length hfS
                refine ⟨hrec.1, by omega, by omega, by omega, by omega, by omega, by omega⟩

end Cdcl

namespace Cdcl
open Fab

/-- The unit pre-pass of `run_solver` keeps the formula. -/
theorem preUnit_formula (clauses : Formula) :
    ∀ (st : SolverState) (st1 : SolverState), preUnit clauses st = some st1 →
    st1.formula = st.formula := by
  induction clauses with
  | nil =>
    intro st st1 h
    cases h
    rfl
  | cons c rest ih =>
    intro st st1 h
    cases c with
    | nil => exact ih st st1 h
    | cons a r =>
      cases r with
      | cons b r2 => exact ih st st1 h
      | nil =>
        simp only [preUnit] at h
        cases hget : alGet st.assignment (iabs a) with
        | some val =>
          simp only [hget] at h
          by_cases hne : val ≠ decide (a > 0)
          · rw [if_pos hne] at h; exact Option.noConfusion h
          · rw [if_neg hne] at h; exact ih st st1 h
        | none =>
          simp only [hget] at h
          have h2 := ih _ st1 h
          exact h2

/-- `initState` returns a state over exactly the given formula. -/
theorem initState_formula (formula : Formula) (st : SolverState)
    (h : initState formula = some st) : st.formula = formula := by
  unfold initState at h
  cases hw : initWatchLoop 0 formula [] [] with
  | none => rw [hw] at h; exact Option.noConfusion h
  | some p =>
    obtain ⟨ws, wm⟩ := p
    simp only [hw] at h
    exact (congrArg SolverState.formula (Option.some.inj h)).symm

end Cdcl

namespace Cdcl
open Fab

/-- The reported `conflicts` counter of a CDCL run equals twice the number
of conflict iterations of the main loop (ghost count), on every path of
`run_solver`. -/
theorem runSolverG_conflicts (lines : List PLine) (fuel : Nat) (rec : Dpll.Record) (k : Nat)
    (h : runSolverG lines fuel = some (rec, k)) :
    recGet rec "conflicts" = some (Dpll.RVal.n (2 * k)) := by
  simp only [runSolverG] at h
  cases hin : initState (parseDimacs lines).clauses with
  | none => rw [hin] at h; exact Option.noConfusion h
  | some st =>
    simp only [hin] at h
    cases hpre : preUnit st.formula st with
    | none =>
      simp only [hpre] at h
      have h3 := Option.some.inj h
      have hrec : unsatRecord st.formula.length = rec := congrArg Prod.fst h3
      have hk : 0 = k := congrArg Prod.snd h3
      rw [← hrec, ← hk]
      rfl
    | some st1 =>
      simp only [hpre] at h
      cases hprop : propagate fuel st1 stats0 with
      | none => rw [hprop] at h; exact Option.noConfusion h
      | some trip =>
        obtain ⟨co, st2, stats1⟩ := trip
        simp only [hprop] at h
        cases co with
        | some c =>
          have h3 := Option.some.inj h
          have hrec : unsatRecord st2.formula.length = rec := congrArg Prod.fst h3
          have hk : 0 = k := congrArg Prod.snd h3
          rw [← hrec, ← hk]
          rfl
        | none =>
          cases hcd : cdcl fuel st2 stats1 with
          | none => rw [hcd] at h; exact Option.noConfusion h
          | some q =>
            obtain ⟨res, st3, stats2, k3⟩ := q
            obtain ⟨sat, a⟩ := res
            simp only [hcd] at h
            have hstats1 : stats1 = stats0 :=
              (propLoop_stats fuel st1 st1.level_literals stats0 none st2 stats1 hprop).1 rfl
            have hne2 : [] ∉ st2.formula := by
              have e1 : st2.formula = st1.formula :=
                propagate_formula fuel st1 stats0 none st2 stats1 hprop
              have e2 : st1.formula = st.formula := preUnit_formula st.formula st st1 hpre
              have e3 : st.formula = (parseDimacs lines).clauses :=
                initState_formula (parseDimacs lines).clauses st hin
              rw [e1, e2, e3]
              exact parseDimacs_no_empty_clause lines
            have hmain := cdclLoop_main fuel st2 stats1 100 0 0 (sat, a) st3 stats2 k3 hne2 hcd
            have hconf : stats2.conflicts = 2 * k3 := by
              have := hmain.2.2.1
              rw [hstats1] at this
              simpa [stats0] using this
            have h3 := Option.some.inj h
            injection h3 with hrec hk
            subst hrec
            subst hk
            show recGet _ "conflicts" = _
            simp [recGet, alGet, hconf]

end Cdcl

namespace Fab

/-- The parser folds each literal line into exactly one (possibly dropped)
clause; the header fields ride along unchanged. -/
theorem parseFold_lits (ls : List (List Int)) :
    ∀ (cs : Formula) (a b : Int),
    (ls.map PLine.lits).foldl parseStep (cs, a, b) =
      (cs ++ ls.filterMap (fun toks =>
        let f := toks.filter (fun t => t ≠ 0)
        if f.isEmpty then none else some f), a, b) := by
  induction ls with
  | nil => intro cs a b; simp
  | cons t rest ih =>
    intro cs a b
    simp only [List.map_cons, List.foldl_cons, List.filterMap_cons, parseStep]
    by_cases he : (t.filter (fun x => x ≠ 0)).isEmpty
    · simp only [he, if_true, ih]
    · simp only [he, if_false, ih]
      simp only [eq_self_iff_true, Bool.not_eq_true] at he
      simp [he, ih]

/-- Appending the terminator `0` to each non-empty zero-free clause and
re-filtering recovers the clause list. -/
theorem filterRoundTrip (cls : Formula) (h : ∀ c ∈ cls, c ≠ [] ∧ ∀ l ∈ c, l ≠ 0) :
    (cls.map (fun c => c ++ [0])).filterMap (fun toks =>
      let f := toks.filter (fun t => t ≠ 0)
      if f.isEmpty then none else some f) = cls := by
  induction cls with
  | nil => rfl
  | cons c rest ih =>
    have hc := h c (List.mem_cons_self c rest)
    have hrest : ∀ c ∈ rest, c ≠ [] ∧ ∀ l ∈ c, l ≠ 0 :=
      fun c hm => h c (List.mem_cons_of_mem _ hm)
    have hfilter : (c ++ [0]).filter (fun t => t ≠ 0) = c := by
      rw [List.filter_append]
      have h1 : c.filter (fun t => t ≠ 0) = c :=
        List.filter_eq_self.mpr (fun l hl => by simpa using hc.2 l hl)
      have h2 : ([0] : List Int).filter (fun t => t ≠ 0) = [] := rfl
      rw [h1, h2, List.append_nil]
    have hne : c.isEmpty = false := by
      cases hcc : c with
      | nil => exact absurd hcc hc.1
      | cons x xs => rfl
    simp only [List.map_cons, List.filterMap_cons, hfilter, hne, Bool.false_eq_true, if_false]
    rw [ih hrest]

end Fab

open Fab in
/-- C6 counterexample: the clause `1 2 3 0` parses to the single clause
`[1, 2, 3]`, but splitting its literals over two lines (`1 2` / `3 0`)
parses to the two clauses `[1, 2]` and `[3]` — the parser treats every
line as its own clause, so clauses may NOT span lines. -/
theorem c6_clause_split_changes_formula :
    (parseDimacs [PLine.header 3 1, PLine.lits [1, 2], PLine.lits [3, 0]]).clauses =
        [[1, 2], [3]] ∧
    (parseDimacs [PLine.header 3 1, PLine.lits [1, 2, 3, 0]]).clauses = [[1, 2, 3]] ∧
    ([[1, 2], [3]] : Formula) ≠ [[1, 2, 3]] := by
  exact ⟨rfl, rfl, by decide⟩

open Fab in
/-- C6 amended: one non-comment line is one clause. After the header, every
literal line contributes exactly the list of its non-zero tokens as a
single clause (dropped entirely when no non-zero token remains); hence a
clause written across several lines is parsed as several clauses, never
joined back together. -/
theorem c6_one_line_one_clause (nv nc : Int) (ls : List (List Int)) :
    (parseDimacs (PLine.header nv nc :: ls.map PLine.lits)).clauses =
      ls.filterMap (fun toks =>
        let f := toks.filter (fun t => t ≠ 0)
        if f.isEmpty then none else some f) := by
  show ((PLine.header nv nc :: ls.map PLine.lits).foldl parseStep ([], 0, 0)).1 = _
  rw [List.foldl_cons]
  show ((ls.map PLine.lits).foldl parseStep ([], nv, nc)).1 = _
  rw [parseFold_lits ls [] nv nc]
  rfl

open Fab in
/-- C7 counterexample: the empty clause (all of whose literals are
vacuously non-zero) does not survive the write/parse round trip — its
line `0` is dropped by the parser, so the parsed clause list is `[]`, not
`[[]]`. -/
theorem c7_roundtrip_drops_empty_clause :
    (parseDimacs (writeDimacs [[]])).clauses = [] ∧
    (∀ l, l ∈ ([] : Clause) → l ≠ 0) ∧
    ([] : Formula) ≠ [[]] := by
  exact ⟨rfl, by simp, by decide⟩

open Fab in
/-- C7 amended: for clause lists whose clauses are all non-empty (and have
only non-zero literals), writing with `write_dimacs` and re-parsing
restores exactly the same clause sequence, and `num_clauses` is the number
of clauses written. -/
theorem c7_roundtrip_nonempty_clauses (cls : Formula)
    (h : ∀ c ∈ cls, c ≠ [] ∧ ∀ l ∈ c, l ≠ 0) :
    (parseDimacs (writeDimacs cls)).clauses = cls ∧
    (parseDimacs (writeDimacs cls)).num_clauses = (cls.length : Int) := by
  have hfold : (cls.map (fun c => PLine.lits (c ++ [0]))).foldl parseStep
      ([], 729, (cls.length : Int)) = (cls, 729, (cls.length : Int)) := by
    have hmap : cls.map (fun c => PLine.lits (c ++ [0])) =
        (cls.map (fun c => c ++ [0])).map PLine.lits := by simp
    rw [hmap, parseFold_lits, filterRoundTrip cls h]
    rfl
  constructor
  · show ((writeDimacs cls).foldl parseStep ([], 0, 0)).1 = cls
    rw [writeDimacs, List.foldl_cons]
    show ((cls.map (fun c => PLine.lits (c ++ [0]))).foldl parseStep
        ([], 729, (cls.length : Int))).1 = cls
    rw [hfold]
  · show (if ((writeDimacs cls).foldl parseStep ([], 0, 0)).2.2 = 0
        then ((((writeDimacs cls).foldl parseStep ([], 0, 0)).1.length : Int))
        else ((writeDimacs cls).foldl parseStep ([], 0, 0)).2.2) = (cls.length : Int)
    rw [writeDimacs, List.foldl_cons]
    show (if ((cls.map (fun c => PLine.lits (c ++ [0]))).foldl parseStep
          ([], 729, (cls.length : Int))).2.2 = 0
        then ((((cls.map (fun c => PLine.lits (c ++ [0]))).foldl parseStep
          ([], 729, (cls.length : Int))).1.length : Int))
        else ((cls.map (fun c => PLine.lits (c ++ [0]))).foldl parseStep
          ([], 729, (cls.length : Int))).2.2) = (cls.length : Int)
    rw [hfold]
    by_cases h0 : (cls.length : Int) = 0
    · rw [h0]
      simp only [if_pos rfl]
      have : cls = [] := List.length_eq_zero.mp (by exact_mod_cast h0)
      subst this
      rfl
    · simp only [if_neg h0]

open Fab in
/-- C7 amended, witness: the round trip on the fixture clause list
`[[1, -2], [2, 3], [-1]]`. -/
theorem c7_roundtrip_witness :
    (∀ c ∈ rtClauses, c ≠ [] ∧ ∀ l ∈ c, l ≠ 0) ∧
    ((parseDimacs (writeDimacs rtClauses)).clauses = rtClauses ∧
     (parseDimacs (writeDimacs rtClauses)).num_clauses = (rtClauses.length : Int)) :=
  ⟨by decide, c7_roundtrip_nonempty_clauses rtClauses (by decide)⟩

open Fab in
/-- C9: seeded reproducibility of the stochastic solvers. The module-global
generator is modelled as explicit state; `main` seeds it from `--seed`
before calling `run_solver`, so two runs on the same input with the same
seed and hyperparameters return identical result records (hence the same
status, assignment, flips and restarts). -/
theorem c9_seeded_runs_identical (lines : List PLine) (max_flips : Nat)
    (noise epsilon : Q) (restarts : Nat) (seed1 seed2 : Nat) (h : seed1 = seed2) :
    Wsat.mainSeeded lines max_flips noise restarts seed1 =
        Wsat.mainSeeded lines max_flips noise restarts seed2 ∧
    Psat.mainSeeded lines max_flips epsilon restarts seed1 =
        Psat.mainSeeded lines max_flips epsilon restarts seed2 := by
  subst h
  exact ⟨rfl, rfl⟩

open Fab in
/-- C9 witness: both solvers on the XOR fixture with seed 42. -/
theorem c9_seeded_runs_identical_witness :
    42 = 42 ∧
    (Wsat.mainSeeded xorLines 20 ⟨1, 2⟩ 1 42 = Wsat.mainSeeded xorLines 20 ⟨1, 2⟩ 1 42 ∧
     Psat.mainSeeded xorLines 20 ⟨2, 5⟩ 1 42 = Psat.mainSeeded xorLines 20 ⟨2, 5⟩ 1 42) :=
  ⟨rfl, c9_seeded_runs_identical xorLines 20 ⟨1, 2⟩ ⟨2, 5⟩ 1 42 42 rfl⟩

open Fab in
/-- C10: conflicts are double-counted. Inside `propagate` a detected
conflict adds exactly 1 to `stats.conflicts` (and no conflict leaves the
stats untouched); the `cdcl` loop adds 1 again for the same conflict, so on
every returning path of `run_solver` the reported `conflicts` equals twice
the number of conflicts the main loop encountered (the ghost count of
`runSolverG`). -/
theorem c10_conflict_double_count :
    (∀ (fuel : Nat) (st : Cdcl.SolverState) (stats : Cdcl.SolverStats)
       (co : Option Clause) (st2 : Cdcl.SolverState) (stats2 : Cdcl.SolverStats),
       Cdcl.propagate fuel st stats = some (co, st2, stats2) →
       (co = none → stats2 = stats) ∧
       (∀ c, co = some c → stats2.conflicts = stats.conflicts + 1)) ∧
    (∀ (lines : List PLine) (fuel : Nat) (p : Dpll.Record × Nat),
       Cdcl.runSolverG lines fuel = some p →
       recGet p.1 "conflicts" = some (Dpll.RVal.n (2 * p.2))) := by
  constructor
  · intro fuel st stats co st2 stats2 h
    have hps := Cdcl.propLoop_stats fuel st st.level_literals stats co st2 stats2 h
    refine ⟨hps.1, fun c hc => ?_⟩
    rw [(hps.2 c hc).1]
  · intro lines fuel p h
    exact Cdcl.runSolverG_conflicts lines fuel p.1 p.2 (by rw [h])

open Fab in
/-- C10 witness: the conflicting XOR state gives `conflicts = 1` after one
`propagate`, and the full XOR run reports `conflicts = 2 ·` (ghost count). -/
theorem c10_conflict_double_count_witness :
    ((Cdcl.propagate 10 confState Cdcl.stats0).getD
        (none, confState, Cdcl.stats0)).2.2.conflicts = Cdcl.stats0.conflicts + 1 ∧
    recGet ((Cdcl.runSolverG xorLines 50).getD ([], 0)).1 "conflicts" =
        some (Dpll.RVal.n (2 * ((Cdcl.runSolverG xorLines 50).getD ([], 0)).2)) := by
  constructor
  · exact (c10_conflict_double_count.1 10 confState Cdcl.stats0
      ((Cdcl.propagate 10 confState Cdcl.stats0).getD (none, confState, Cdcl.stats0)).1
      ((Cdcl.propagate 10 confState Cdcl.stats0).getD (none, confState, Cdcl.stats0)).2.1
      ((Cdcl.propagate 10 confState Cdcl.stats0).getD (none, confState, Cdcl.stats0)).2.2
      rfl).2 [-1, -2] rfl
  · exact c10_conflict_double_count.2 xorLines 50
      ((Cdcl.runSolverG xorLines 50).getD ([], 0)) rfl

open Fab in
/-- C2 counterexample: on the 7-variable fixture the CDCL run returns
`decisions = 13`, `conflicts = 4`, `restarts = 0`, yet
`num_vars · (restarts + 1) + conflicts = 7 · 1 + 4 = 11 < 13`: the claimed
decision bound fails (each conflict's backjump to level 0 un-assigns the
filler variables, which are then decided again). -/
theorem c2_decision_bound_violated :
    (Cdcl.run_solver advLines 200).map (fun r => recGet r "decisions") =
        some (some (Dpll.RVal.n 13)) ∧
    (Cdcl.run_solver advLines 200).map (fun r => recGet r "conflicts") =
        some (some (Dpll.RVal.n 4)) ∧
    (Cdcl.run_solver advLines 200).map (fun r => recGet r "restarts") =
        some (some (Dpll.RVal.n 0)) ∧
    (parseDimacs advLines).num_vars = 7 ∧
    ¬((13 : Int) ≤ 7 * (0 + 1) + 4) := by
  exact ⟨rfl, rfl, rfl, rfl, by decide⟩

namespace Fab

/-- The DPLL-JW record carries the parsed `num_vars`/`num_clauses`. -/
theorem dpll_record_fields (lines : List PLine) (fuel : Nat)
    (h : (Dpll.run_solver lines fuel).isSome = true) :
    recGet ((Dpll.run_solver lines fuel).getD []) "num_vars"
        = some (Dpll.RVal.n (parseDimacs lines).num_vars) ∧
    recGet ((Dpll.run_solver lines fuel).getD []) "num_clauses"
        = some (Dpll.RVal.n (parseDimacs lines).num_clauses) := by
  simp only [Dpll.run_solver] at h ⊢
  cases hd : Dpll.dpll fuel (parseDimacs lines).clauses [] Dpll.stats0 with
  | none => rw [hd] at h; simp at h
  | some t =>
    obtain ⟨sat, asn, stats⟩ := t
    simp only [hd]
    exact ⟨rfl, rfl⟩

/-- The WalkSAT record carries the parsed `num_vars`/`num_clauses`. -/
theorem wsat_record_fields (lines : List PLine) (mf r s : Nat) (noise : Q) :
    recGet (Wsat.run_solver lines mf noise r s).1 "num_vars"
        = some (Dpll.RVal.n (parseDimacs lines).num_vars) ∧
    recGet (Wsat.run_solver lines mf noise r s).1 "num_clauses"
        = some (Dpll.RVal.n (parseDimacs lines).num_clauses) := by
  simp only [Wsat.run_solver]
  rcases hA : Wsat.attemptLoop (parseDimacs lines).clauses (parseDimacs lines).num_vars.toNat
      mf noise r Wsat.stats0 s with ⟨best, stats, s2⟩
  simp only [hA]
  exact ⟨rfl, rfl⟩

/-- The probSAT record carries the parsed `num_vars`/`num_clauses`. -/
theorem psat_record_fields (lines : List PLine) (mf r s : Nat) (eps : Q) :
    recGet (Psat.run_solver lines mf eps r s).1 "num_vars"
        = some (Dpll.RVal.n (parseDimacs lines).num_vars) ∧
    recGet (Psat.run_solver lines mf eps r s).1 "num_clauses"
        = some (Dpll.RVal.n (parseDimacs lines).num_clauses) := by
  simp only [Psat.run_solver]
  rcases hA : Psat.attemptLoop (parseDimacs lines).clauses (parseDimacs lines).num_vars.toNat
      mf eps r Psat.stats0 s with ⟨best, stats, s2⟩
  simp only [hA]
  exact ⟨rfl, rfl⟩

/-- The CDCL record has no `num_vars`; its `num_clauses` counts the final
clause database, at least the parsed clause count. -/
theorem cdcl_record_fields (lines : List PLine) (fuel : Nat)
    (h : (Cdcl.run_solver lines fuel).isSome = true) :
    recGet ((Cdcl.run_solver lines fuel).getD []) "num_vars" = none ∧
    ∃ n : Nat, recGet ((Cdcl.run_solver lines fuel).getD []) "num_clauses"
        = some (Dpll.RVal.n (n : Int)) ∧ (parseDimacs lines).clauses.length ≤ n := by
  cases hg : Cdcl.runSolverG lines fuel with
  | none => rw [Cdcl.run_solver, hg] at h; simp at h
  | some p =>
    obtain ⟨rec, k⟩ := p
    have hrs : Cdcl.run_solver lines fuel = some rec := by rw [Cdcl.run_solver, hg]; rfl
    rw [hrs]
    show recGet rec "num_vars" = none ∧ ∃ n : Nat,
        recGet rec "num_clauses" = some (Dpll.RVal.n (n : Int)) ∧
        (parseDimacs lines).clauses.length ≤ n
    simp only [Cdcl.runSolverG] at hg
    cases hin : Cdcl.initState (parseDimacs lines).clauses with
    | none => rw [hin] at hg; exact Option.noConfusion hg
    | some st =>
      have hstf : st.formula = (parseDimacs lines).clauses :=
        Cdcl.initState_formula (parseDimacs lines).clauses st hin
      simp only [hin] at hg
      cases hpre : Cdcl.preUnit st.formula st with
      | none =>
        simp only [hpre] at hg
        have h3 := Option.some.inj hg
        have hrec : Cdcl.unsatRecord st.formula.length = rec := congrArg Prod.fst h3
        rw [← hrec]
        refine ⟨rfl, st.formula.length, rfl, ?_⟩
        rw [hstf]
      | some st1 =>
        have hst1f : st1.formula = st.formula := Cdcl.preUnit_formula st.formula st st1 hpre
        simp only [hpre] at hg
        cases hprop : Cdcl.propagate fuel st1 Cdcl.stats0 with
        | none => rw [hprop] at hg; exact Option.noConfusion hg
        | some trip =>
          obtain ⟨co, st2, stats1⟩ := trip
          have hst2f : st2.formula = st1.formula :=
            Cdcl.propagate_formula fuel st1 Cdcl.stats0 co st2 stats1 hprop
          simp only [hprop] at hg
          cases co with
          | some c =>
            have h3 := Option.some.inj hg
            have hrec : Cdcl.unsatRecord st2.formula.length = rec := congrArg Prod.fst h3
            rw [← hrec]
            refine ⟨rfl, st2.formula.length, rfl, ?_⟩
            rw [hst2f, hst1f, hstf]
          | none =>
            cases hcd : Cdcl.cdcl fuel st2 stats1 with
            | none => rw [hcd] at hg; exact Option.noConfusion hg
            | some q =>
              obtain ⟨res, st3, stats2, k3⟩ := q
              obtain ⟨sat, a⟩ := res
              simp only [hcd] at hg
              have hne2 : [] ∉ st2.formula := by
                rw [hst2f, hst1f, hstf]
                exact parseDimacs_no_empty_clause lines
              have hmain := Cdcl.cdclLoop_main fuel st2 stats1 100 0 0 (sat, a) st3 stats2 k3
                hne2 hcd
              have hlen : (parseDimacs lines).clauses.length ≤ st3.formula.length := by
                have := hmain.2.1
                rw [hst2f, hst1f, hstf] at this
                exact this
              have h3 := Option.some.inj hg
              injection h3 with hrec hk
              subst hrec
              exact ⟨rfl, st3.formula.length, rfl, hlen⟩

end Fab

open Fab in
/-- C5 amended: the DPLL-JW, WalkSAT and probSAT result records carry both
`num_vars` and `num_clauses`, equal to the parsed formula's fields; the
CDCL record has NO `num_vars` key, and its `num_clauses` reports the size
of the final clause database (original clauses plus learned clauses),
which is at least the parsed clause count. -/
theorem c5_record_fields :
    (∀ (lines : List PLine) (fuel : Nat), (Dpll.run_solver lines fuel).isSome = true →
      recGet ((Dpll.run_solver lines fuel).getD []) "num_vars"
          = some (Dpll.RVal.n (parseDimacs lines).num_vars) ∧
      recGet ((Dpll.run_solver lines fuel).getD []) "num_clauses"
          = some (Dpll.RVal.n (parseDimacs lines).num_clauses)) ∧
    (∀ (lines : List PLine) (mf r s : Nat) (noise : Q),
      recGet (Wsat.run_solver lines mf noise r s).1 "num_vars"
          = some (Dpll.RVal.n (parseDimacs lines).num_vars) ∧
      recGet (Wsat.run_solver lines mf noise r s).1 "num_clauses"
          = some (Dpll.RVal.n (parseDimacs lines).num_clauses)) ∧
    (∀ (lines : List PLine) (mf r s : Nat) (eps : Q),
      recGet (Psat.run_solver lines mf eps r s).1 "num_vars"
          = some (Dpll.RVal.n (parseDimacs lines).num_vars) ∧
      recGet (Psat.run_solver lines mf eps r s).1 "num_clauses"
          = some (Dpll.RVal.n (parseDimacs lines).num_clauses)) ∧
    (∀ (lines : List PLine) (fuel : Nat), (Cdcl.run_solver lines fuel).isSome = true →
      recGet ((Cdcl.run_solver lines fuel).getD []) "num_vars" = none ∧
      ∃ n : Nat, recGet ((Cdcl.run_solver lines fuel).getD []) "num_clauses"
          = some (Dpll.RVal.n (n : Int)) ∧ (parseDimacs lines).clauses.length ≤ n) :=
  ⟨dpll_record_fields, wsat_record_fields, psat_record_fields, cdcl_record_fields⟩

open Fab in
/-- C5 amended, witness: the XOR fixture run through DPLL-JW and CDCL
(the hypothesis-free conjuncts are instantiated in the theorem itself). -/
theorem c5_record_fields_witness :
    (Dpll.run_solver xorLines 50).isSome = true ∧
    (recGet ((Dpll.run_solver xorLines 50).getD []) "num_vars"
        = some (Dpll.RVal.n (parseDimacs xorLines).num_vars) ∧
     recGet ((Dpll.run_solver xorLines 50).getD []) "num_clauses"
        = some (Dpll.RVal.n (parseDimacs xorLines).num_clauses)) ∧
    (Cdcl.run_solver xorLines 50).isSome = true ∧
    (recGet ((Cdcl.run_solver xorLines 50).getD []) "num_vars" = none ∧
     ∃ n : Nat, recGet ((Cdcl.run_solver xorLines 50).getD []) "num_clauses"
        = some (Dpll.RVal.n (n : Int)) ∧ (parseDimacs xorLines).clauses.length ≤ n) :=
  ⟨rfl, c5_record_fields.1 xorLines 50 rfl, rfl, c5_record_fields.2.2.2 xorLines 50 rfl⟩

namespace Fab

/-- Bounds of the cell variable index for in-range coordinates. -/
theorem var_index_bounds (r c v : Nat) (hr : r ≤ 8) (hc : c ≤ 8)
    (hv1 : 1 ≤ v) (hv9 : v ≤ 9) :
    1 ≤ Sudoku.var_index r c v ∧ Sudoku.var_index r c v ≤ 729 := by
  show (1 : Int) ≤ ((r * 9 * 9 + c * 9 + v : Nat) : Int) ∧
      ((r * 9 * 9 + c * 9 + v : Nat) : Int) ≤ 729
  constructor
  · exact_mod_cast by omega
  · exact_mod_cast by omega

/-- A positive magnitude bound transfers to the literal and its negation. -/
theorem iabs_both (x : Int) (h1 : 1 ≤ x) (h2 : x ≤ 729) :
    (1 ≤ iabs x ∧ iabs x ≤ 729) ∧ (1 ≤ iabs (-x) ∧ iabs (-x) ≤ 729) := by
  unfold iabs
  constructor
  · rw [if_neg (by omega)]
    omega
  · rw [if_pos (by omega)]
    omega

/-- Digits are the numbers 1 to 9. -/
theorem digits_mem (v : Nat) (h : v ∈ Sudoku.DIGITS) : 1 ≤ v ∧ v ≤ 9 := by
  simp only [Sudoku.DIGITS, List.mem_map, List.mem_range] at h
  obtain ⟨x, hx, hv⟩ := h
  omega

/-- Bound for any literal of the shape used by the fixed clause families. -/
theorem sudokuLitBound (l : Int) (r c v : Nat) (hr : r ≤ 8) (hc : c ≤ 8)
    (hv : v ∈ Sudoku.DIGITS)
    (h : l = Sudoku.var_index r c v ∨ l = -Sudoku.var_index r c v) :
    1 ≤ iabs l ∧ iabs l ≤ 729 := by
  obtain ⟨hv1, hv9⟩ := digits_mem v hv
  obtain ⟨h1, h2⟩ := var_index_bounds r c v hr hc hv1 hv9
  rcases h with h | h
  · rw [h]; exact (iabs_both _ h1 h2).1
  · rw [h]; exact (iabs_both _ h1 h2).2

/-- A cell of a box has coordinates at most 8. -/
theorem boxCells_mem (br bc : Nat) (hbr : br ≤ 6) (hbc : bc ≤ 6)
    (rc : Nat × Nat) (h : rc ∈ Sudoku.boxCells br bc) : rc.1 ≤ 8 ∧ rc.2 ≤ 8 := by
  simp only [Sudoku.boxCells, List.mem_flatMap, List.mem_map, List.mem_range] at h
  obtain ⟨dr, hdr, dc, hdc, hrc⟩ := h
  subst hrc
  have h3 : Sudoku.BOX = 3 := rfl
  rw [h3] at hdr hdc
  exact ⟨by omega, by omega⟩

/-- … also via the positional default access used by `box_clauses`. -/
theorem boxCells_getD (br bc : Nat) (hbr : br ≤ 6) (hbc : bc ≤ 6) (i : Nat) :
    ((Sudoku.boxCells br bc).getD i (0, 0)).1 ≤ 8 ∧
    ((Sudoku.boxCells br bc).getD i (0, 0)).2 ≤ 8 := by
  unfold List.getD
  cases hg : (Sudoku.boxCells br bc).get? i with
  | none => constructor <;> simp
  | some rc =>
    have := boxCells_mem br bc hbr hbc rc (List.get?_mem hg)
    simpa using this

/-- Every literal of the `cell_clauses` family has magnitude in `[1, 729]`. -/
theorem cellBounds : ∀ cl ∈ Sudoku.cell_clauses, ∀ l ∈ cl,
    1 ≤ iabs l ∧ iabs l ≤ 729 := by
  intro cl hcl l hl
  simp only [Sudoku.cell_clauses, List.mem_flatMap, List.mem_range] at hcl
  obtain ⟨r, hr, hcl⟩ := hcl
  obtain ⟨c, hc, hcl⟩ := hcl
  have hr8 : r ≤ 8 := by
    have : Sudoku.SIZE = 9 := rfl
    omega
  have hc8 : c ≤ 8 := by
    have : Sudoku.SIZE = 9 := rfl
    omega
  rcases List.mem_append.mp hcl with hone | hpairs
  · have hcl2 : cl = Sudoku.DIGITS.map (fun v => Sudoku.var_index r c v) :=
      List.mem_singleton.mp hone
    subst hcl2
    obtain ⟨v, hv, hlv⟩ := List.mem_map.mp hl
    exact sudokuLitBound l r c v hr8 hc8 hv (Or.inl hlv.symm)
  · simp only [List.mem_flatMap] at hpairs
    obtain ⟨v1, hv1, hpairs⟩ := hpairs
    simp only [List.mem_filterMap] at hpairs
    obtain ⟨v2, hv2, hsome⟩ := hpairs
    by_cases hlt : v1 < v2
    · rw [if_pos hlt] at hsome
      have hcl2 : cl = [-(Sudoku.var_index r c v1), -(Sudoku.var_index r c v2)] :=
        (Option.some.inj hsome).symm
      subst hcl2
      rcases List.mem_cons.mp hl with hl1 | hl2
      · exact sudokuLitBound l r c v1 hr8 hc8 hv1 (Or.inr hl1)
      · have hl3 := List.mem_singleton.mp hl2
        exact sudokuLitBound l r c v2 hr8 hc8 hv2 (Or.inr hl3)
    · rw [if_neg hlt] at hsome
      exact Option.noConfusion hsome

/-- Every literal of the `row_clauses` family has magnitude in `[1, 729]`. -/
theorem rowBounds : ∀ cl ∈ Sudoku.row_clauses, ∀ l ∈ cl,
    1 ≤ iabs l ∧ iabs l ≤ 729 := by
  intro cl hcl l hl
  simp only [Sudoku.row_clauses, List.mem_flatMap, List.mem_range] at hcl
  obtain ⟨r, hr, hcl⟩ := hcl
  obtain ⟨v, hv, hcl⟩ := hcl
  have hr8 : r ≤ 8 := by
    have : Sudoku.SIZE = 9 := rfl
    omega
  rcases List.mem_append.mp hcl with hone | hpairs
  · have hcl2 : cl = (List.range Sudoku.SIZE).map (fun c => Sudoku.var_index r c v) :=
      List.mem_singleton.mp hone
    subst hcl2
    obtain ⟨c, hc, hlv⟩ := List.mem_map.mp hl
    have hc8 : c ≤ 8 := by
      have h9 : Sudoku.SIZE = 9 := rfl
      have := List.mem_range.mp hc
      omega
    exact sudokuLitBound l r c v hr8 hc8 hv (Or.inl hlv.symm)
  · simp only [List.mem_flatMap, List.mem_range] at hpairs
    obtain ⟨c1, hc1, hpairs⟩ := hpairs
    simp only [List.mem_filterMap, List.mem_range] at hpairs
    obtain ⟨c2, hc2, hsome⟩ := hpairs
    have hc18 : c1 ≤ 8 := by
      have h9 : Sudoku.SIZE = 9 := rfl
      omega
    have hc28 : c2 ≤ 8 := by
      have h9 : Sudoku.SIZE = 9 := rfl
      omega
    by_cases hlt : c1 < c2
    · rw [if_pos hlt] at hsome
      have hcl2 : cl = [-(Sudoku.var_index r c1 v), -(Sudoku.var_index r c2 v)] :=
        (Option.some.inj hsome).symm
      subst hcl2
      rcases List.mem_cons.mp hl with hl1 | hl2
      · exact sudokuLitBound l r c1 v hr8 hc18 hv (Or.inr hl1)
      · have hl3 := List.mem_singleton.mp hl2
        exact sudokuLitBound l r c2 v hr8 hc28 hv (Or.inr hl3)
    · rw [if_neg hlt] at hsome
      exact Option.noConfusion hsome

/-- Every literal of the `column_clauses` family has magnitude in
`[1, 729]`. -/
theorem columnBounds : ∀ cl ∈ Sudoku.column_clauses, ∀ l ∈ cl,
    1 ≤ iabs l ∧ iabs l ≤ 729 := by
  intro cl hcl l hl
  simp only [Sudoku.column_clauses, List.mem_flatMap, List.mem_range] at hcl
  obtain ⟨c, hc, hcl⟩ := hcl
  obtain ⟨v, hv, hcl⟩ := hcl
  have hc8 : c ≤ 8 := by
    have : Sudoku.SIZE = 9 := rfl
    omega
  rcases List.mem_append.mp hcl with hone | hpairs
  · have hcl2 : cl = (List.range Sudoku.SIZE).map (fun r => Sudoku.var_index r c v) :=
      List.mem_singleton.mp hone
    subst hcl2
    obtain ⟨r, hr, hlv⟩ := List.mem_map.mp hl
    have hr8 : r ≤ 8 := by
      have h9 : Sudoku.SIZE = 9 := rfl
      have := List.mem_range.mp hr
      omega
    exact sudokuLitBound l r c v hr8 hc8 hv (Or.inl hlv.symm)
  · simp only [List.mem_flatMap, List.mem_range] at hpairs
    obtain ⟨r1, hr1, hpairs⟩ := hpairs
    simp only [List.mem_filterMap, List.mem_range] at hpairs
    obtain ⟨r2, hr2, hsome⟩ := hpairs
    have hr18 : r1 ≤ 8 := by
      have h9 : Sudoku.SIZE = 9 := rfl
      omega
    have hr28 : r2 ≤ 8 := by
      have h9 : Sudoku.SIZE = 9 := rfl
      omega
    by_cases hlt : r1 < r2
    · rw [if_pos hlt] at hsome
      have hcl2 : cl = [-(Sudoku.var_index r1 c v), -(Sudoku.var_index r2 c v)] :=
        (Option.some.inj hsome).symm
      subst hcl2
      rcases List.mem_cons.mp hl with hl1 | hl2
      · exact sudokuLitBound l r1 c v hr18 hc8 hv (Or.inr hl1)
      · have hl3 := List.mem_singleton.mp hl2
        exact sudokuLitBound l r2 c v hr28 hc8 hv (Or.inr hl3)
    · rw [if_neg hlt] at hsome
      exact Option.noConfusion hsome

/-- Every literal of the `box_clauses` family has magnitude in `[1, 729]`. -/
theorem boxBounds : ∀ cl ∈ Sudoku.box_clauses, ∀ l ∈ cl,
    1 ≤ iabs l ∧ iabs l ≤ 729 := by
  intro cl hcl l hl
  simp only [Sudoku.box_clauses, List.mem_flatMap] at hcl
  obtain ⟨br, hbr, hcl⟩ := hcl
  obtain ⟨bc, hbc, hcl⟩ := hcl
  have hbr6 : br ≤ 6 := by
    simp only [List.mem_cons, List.not_mem_nil, or_false] at hbr
    rcases hbr with h | h | h <;> omega
  have hbc6 : bc ≤ 6 := by
    simp only [List.mem_cons, List.not_mem_nil, or_false] at hbc
    rcases hbc with h | h | h <;> omega
  obtain ⟨v, hv, hcl⟩ := hcl
  rcases List.mem_append.mp hcl with hone | hpairs
  · have hcl2 : cl = (Sudoku.boxCells br bc).map
        (fun rc => Sudoku.var_index rc.1 rc.2 v) := List.mem_singleton.mp hone
    subst hcl2
    obtain ⟨rc, hrc, hlv⟩ := List.mem_map.mp hl
    have hb := boxCells_mem br bc hbr6 hbc6 rc hrc
    exact sudokuLitBound l rc.1 rc.2 v hb.1 hb.2 hv (Or.inl hlv.symm)
  · simp only [List.mem_flatMap, List.mem_range] at hpairs
    obtain ⟨i, hi, hpairs⟩ := hpairs
    simp only [List.mem_filterMap, List.mem_range] at hpairs
    obtain ⟨j, hj, hsome⟩ := hpairs
    by_cases hlt : i < j
    · rw [if_pos hlt] at hsome
      have hcl2 : cl =
          [-(Sudoku.var_index ((Sudoku.boxCells br bc).getD i (0, 0)).1
              ((Sudoku.boxCells br bc).getD i (0, 0)).2 v),
           -(Sudoku.var_index ((Sudoku.boxCells br bc).getD j (0, 0)).1
              ((Sudoku.boxCells br bc).getD j (0, 0)).2 v)] :=
        (Option.some.inj hsome).symm
      subst hcl2
      have hbi := boxCells_getD br bc hbr6 hbc6 i
      have hbj := boxCells_getD br bc hbr6 hbc6 j
      rcases List.mem_cons.mp hl with hl1 | hl2
      · exact sudokuLitBound l _ _ v hbi.1 hbi.2 hv (Or.inr hl1)
      · have hl3 := List.mem_singleton.mp hl2
        exact sudokuLitBound l _ _ v hbj.1 hbj.2 hv (Or.inr hl3)
    · rw [if_neg hlt] at hsome
      exact Option.noConfusion hsome

/-- Every literal of the four fixed Sudoku clause families has magnitude
in `[1, 729]`. -/
theorem sudokuFixedBounds :
    ∀ cl ∈ Sudoku.cell_clauses ++ Sudoku.row_clauses ++ Sudoku.column_clauses ++
        Sudoku.box_clauses, ∀ l ∈ cl, 1 ≤ iabs l ∧ iabs l ≤ 729 := by
  intro cl hcl
  rcases List.mem_append.mp hcl with h1 | hbox
  · rcases List.mem_append.mp h1 with h2 | hcol
    · rcases List.mem_append.mp h2 with hcell | hrow
      · exact cellBounds cl hcell
      · exact rowBounds cl hrow
    · exact columnBounds cl hcol
  · exact boxBounds cl hbox

/-- Every literal of the clue clauses has magnitude in `[1, 729]`, for
grids whose entries are at most 9. -/
theorem sudokuClueBounds (puzzle : Sudoku.Grid)
    (hgrid : ∀ row ∈ puzzle, ∀ x ∈ row, x ≤ 9) :
    ∀ cl ∈ Sudoku.clue_clauses puzzle, ∀ l ∈ cl, 1 ≤ iabs l ∧ iabs l ≤ 729 := by
  intro cl hcl l hl
  simp only [Sudoku.clue_clauses, List.mem_flatMap] at hcl
  obtain ⟨r, hr, hcl⟩ := hcl
  simp only [List.mem_filterMap] at hcl
  obtain ⟨c, hc, hcl⟩ := hcl
  by_cases hv : ((puzzle.getD r []).getD c 0) ≠ 0
  · rw [if_pos hv] at hcl
    have hcl2 : cl = [Sudoku.var_index r c ((puzzle.getD r []).getD c 0)] :=
      (Option.some.inj hcl).symm
    subst hcl2
    have hls : l = Sudoku.var_index r c ((puzzle.getD r []).getD c 0) :=
      List.mem_singleton.mp hl
    subst hls
    have hval : (puzzle.getD r []).getD c 0 ≤ 9 := by
      cases hrow : puzzle.get? r with
      | none =>
        exfalso
        apply hv
        have : puzzle.getD r [] = [] := by
          unfold List.getD
          rw [hrow]
          rfl
        rw [this]
        rfl
      | some row =>
        have hrowmem : row ∈ puzzle := List.get?_mem hrow
        have hget : puzzle.getD r [] = row := by
          unfold List.getD
          rw [hrow]
          rfl
        rw [hget]
        cases hcell : row.get? c with
        | none =>
          exfalso
          apply hv
          rw [hget]
          unfold List.getD
          rw [hcell]
          rfl
        | some x =>
          have hxmem : x ∈ row := List.get?_mem hcell
          have : row.getD c 0 = x := by
            unfold List.getD
            rw [hcell]
            rfl
          rw [this]
          exact hgrid row hrowmem x hxmem
    have hv1 : 1 ≤ (puzzle.getD r []).getD c 0 := Nat.one_le_iff_ne_zero.mpr hv
    have hsz : Sudoku.SIZE = 9 := rfl
    have hr9 : r ≤ 8 := by
      have := List.mem_range.mp hr
      omega
    have hc9 : c ≤ 8 := by
      have := List.mem_range.mp hc
      omega
    show 1 ≤ iabs (Sudoku.var_index r c ((puzzle.getD r []).getD c 0)) ∧
        iabs (Sudoku.var_index r c ((puzzle.getD r []).getD c 0)) ≤ 729
    have hiabs : iabs (Sudoku.var_index r c ((puzzle.getD r []).getD c 0)) =
        ((r * 9 * 9 + c * 9 + (puzzle.getD r []).getD c 0 : Nat) : Int) := by
      show iabs ((r * 9 * 9 + c * 9 + (puzzle.getD r []).getD c 0 : Nat) : Int) = _
      unfold iabs
      rw [if_neg (by omega)]
    rw [hiabs]
    constructor
    · exact_mod_cast by omega
    · exact_mod_cast by omega
  · rw [if_neg hv] at hcl
    exact Option.noConfusion hcl

end Fab

open Fab in
/-- C8: every literal of the Sudoku encoding of a 9×9 grid (entries at
most 9) has magnitude in `[1, 729]`; the cell variable index is
`r·81 + c·9 + v`; and every non-zero cell `(r, c) = v` contributes its
unit clue clause to the encoding. -/
theorem c8_sudoku_encoding (puzzle : Sudoku.Grid) (r c v : Nat)
    (hgrid : ∀ row ∈ puzzle, ∀ x ∈ row, x ≤ 9)
    (hr : r < 9) (hc : c < 9)
    (hv : ((puzzle.getD r []).getD c 0) = v) (hv0 : v ≠ 0) :
    (∀ cl ∈ Sudoku.encode puzzle, ∀ l ∈ cl, 1 ≤ iabs l ∧ iabs l ≤ 729) ∧
    Sudoku.var_index r c v = ((r * 81 + c * 9 + v : Nat) : Int) ∧
    [Sudoku.var_index r c v] ∈ Sudoku.encode puzzle := by
  refine ⟨?_, ?_, ?_⟩
  · intro cl hcl l hl
    rcases List.mem_append.mp hcl with hf | hclue
    · exact sudokuFixedBounds cl hf l hl
    · exact sudokuClueBounds puzzle hgrid cl hclue l hl
  · show ((r * 9 * 9 + c * 9 + v : Nat) : Int) = ((r * 81 + c * 9 + v : Nat) : Int)
    have : r * 9 * 9 + c * 9 + v = r * 81 + c * 9 + v := by ring
    rw [this]
  · have hclue : [Sudoku.var_index r c v] ∈ Sudoku.clue_clauses puzzle := by
      simp only [Sudoku.clue_clauses, List.mem_flatMap]
      refine ⟨r, List.mem_range.mpr hr, ?_⟩
      simp only [List.mem_filterMap]
      refine ⟨c, List.mem_range.mpr hc, ?_⟩
      rw [hv, if_pos hv0]
    exact List.mem_append.mpr (Or.inr hclue)

open Fab in
/-- C8 witness: the fixture grid; its cell `(0, 1)` holds 3, so the unit
clause `[var_index 0 1 3]` (variable `0·81 + 1·9 + 3 = 12`) appears. -/
theorem c8_sudoku_encoding_witness :
    (∀ row ∈ exGrid, ∀ x ∈ row, x ≤ 9) ∧
    ((∀ cl ∈ Sudoku.encode exGrid, ∀ l ∈ cl, 1 ≤ iabs l ∧ iabs l ≤ 729) ∧
     Sudoku.var_index 0 1 3 = ((0 * 81 + 1 * 9 + 3 : Nat) : Int) ∧
     [Sudoku.var_index 0 1 3] ∈ Sudoku.encode exGrid) :=
  ⟨by decide, c8_sudoku_encoding exGrid 0 1 3 (by decide) (by decide) (by decide)
    (by decide) (by decide)⟩

namespace Fab
variable {α β : Type} [DecidableEq α]

/-- A key whose lookup misses is bound to nothing. -/
theorem alGet_none_not_mem (m : List (α × β)) (k : α) (h : alGet m k = none) :
    k ∉ m.map Prod.fst := by
  induction m with
  | nil => simp
  | cons p rest ih =>
    obtain ⟨k2, v⟩ := p
    simp only [alGet] at h
    by_cases he : k2 = k
    · rw [if_pos he] at h; exact Option.noConfusion h
    · rw [if_neg he] at h
      simp only [List.map_cons, List.mem_cons]
      rintro (hk | hk)
      · exact he hk.symm
      · exact ih h hk

/-- A successful lookup is a binding of the list. -/
theorem alGet_mem (m : List (α × β)) (k : α) (v : β) (h : alGet m k = some v) :
    (k, v) ∈ m := by
  induction m with
  | nil => exact Option.noConfusion h
  | cons p rest ih =>
    obtain ⟨k2, v2⟩ := p
    simp only [alGet] at h
    by_cases he : k2 = k
    · rw [if_pos he] at h
      subst he
      rw [Option.some.inj h]
      exact List.mem_cons_self _ _
    · rw [if_neg he] at h
      exact List.mem_cons_of_mem _ (ih h)

/-- Every binding after an update is the new pair or an old binding. -/
theorem mem_alSet (m : List (α × β)) (k : α) (v : β) (p : α × β)
    (h : p ∈ alSet m k v) : p = (k, v) ∨ p ∈ m := by
  induction m with
  | nil =>
    simp only [alSet, List.mem_singleton] at h
    exact Or.inl h
  | cons q rest ih =>
    obtain ⟨k2, v2⟩ := q
    simp only [alSet] at h
    by_cases he : k2 = k
    · rw [if_pos he] at h
      rcases List.mem_cons.mp h with hp | hp
      · subst he; exact Or.inl hp
      · exact Or.inr (List.mem_cons_of_mem _ hp)
    · rw [if_neg he] at h
      rcases List.mem_cons.mp h with hp | hp
      · subst hp; exact Or.inr (List.mem_cons_self _ _)
      · rcases ih hp with hh | hh
        · exact Or.inl hh
        · exact Or.inr (List.mem_cons_of_mem _ hh)

/-- Updating a present key keeps the key sequence. -/
theorem alSet_fst_some (m : List (α × β)) (k : α) (v w : β)
    (h : alGet m k = some w) : (alSet m k v).map Prod.fst = m.map Prod.fst := by
  induction m with
  | nil => exact Option.noConfusion h
  | cons q rest ih =>
    obtain ⟨k2, v2⟩ := q
    simp only [alGet] at h
    simp only [alSet]
    by_cases he : k2 = k
    · rw [if_pos he]; rfl
    · rw [if_neg he] at h ⊢
      simp only [List.map_cons]
      rw [ih h]

/-- Updating a missing key appends it to the key sequence. -/
theorem alSet_fst_none (m : List (α × β)) (k : α) (v : β)
    (h : alGet m k = none) : (alSet m k v).map Prod.fst = m.map Prod.fst ++ [k] := by
  induction m with
  | nil => rfl
  | cons q rest ih =>
    obtain ⟨k2, v2⟩ := q
    simp only [alGet] at h
    simp only [alSet]
    by_cases he : k2 = k
    · rw [if_pos he] at h; exact Option.noConfusion h
    · rw [if_neg he] at h ⊢
      simp only [List.map_cons]
      rw [ih h]
      rfl

/-- Updates keep the keys distinct. -/
theorem alSet_nodup (m : List (α × β)) (k : α) (v : β)
    (h : (m.map Prod.fst).Nodup) : ((alSet m k v).map Prod.fst).Nodup := by
  cases hg : alGet m k with
  | none =>
    rw [alSet_fst_none m k v hg]
    have hnm := alGet_none_not_mem m k hg
    simp [List.nodup_append, h, hnm]
  | some w => rw [alSet_fst_some m k v w hg]; exact h

/-- An update never shrinks the list. -/
theorem alSet_length_ge (m : List (α × β)) (k : α) (v : β) :
    m.length ≤ (alSet m k v).length := by
  induction m with
  | nil => simp [alSet]
  | cons q rest ih =>
    obtain ⟨k2, v2⟩ := q
    simp only [alSet]
    by_cases he : k2 = k
    · rw [if_pos he]; simp
    · rw [if_neg he]
      simp only [List.length_cons]
      omega

/-- Updating a missing key grows the list by one. -/
theorem alSet_length_none (m : List (α × β)) (k : α) (v : β)
    (h : alGet m k = none) : (alSet m k v).length = m.length + 1 := by
  have := alSet_fst_none m k v h
  have h1 : ((alSet m k v).map Prod.fst).length = (m.map Prod.fst ++ [k]).length := by rw [this]
  simpa using h1

/-- A list with distinct keys in `1..N` has at most `N` entries. -/
theorem nodup_keys_bound {β : Type} (N : Nat) (l : List (Int × β))
    (hnd : (l.map Prod.fst).Nodup) (hb : ∀ p ∈ l, 1 ≤ p.1 ∧ p.1 ≤ (N : Int)) :
    l.length ≤ N := by
  have hlen : l.length = (l.map Prod.fst).length := by simp
  rw [hlen]
  have hcard : (l.map Prod.fst).toFinset.card = (l.map Prod.fst).length :=
    List.toFinset_card_of_nodup hnd
  rw [← hcard]
  have hsub : (l.map Prod.fst).toFinset ⊆ Finset.Icc (1 : Int) (N : Int) := by
    intro x hx
    simp only [List.mem_toFinset, List.mem_map] at hx
    obtain ⟨p, hp, hpx⟩ := hx
    have := hb p hp
    rw [Finset.mem_Icc]
    omega
  have := Finset.card_le_card hsub
  rw [Int.card_Icc] at this
  omega

end Fab

namespace Cdcl
open Fab

/-- The variable of a fit literal is in range. -/
theorem wfVar_iabs (N : Nat) (l : Int) (h : wfLit N l) : wfVar N (iabs l) := by
  obtain ⟨h0, hb⟩ := h
  unfold iabs at hb ⊢
  unfold wfVar
  by_cases hneg : l < 0
  · rw [if_pos hneg] at hb ⊢
    omega
  · rw [if_neg hneg] at hb ⊢
    omega

/-- `procClause` preserves the well-formedness bundle and never shrinks the
assignment; the conflict state is likewise well-formed. -/
theorem procClause_wf (N : Nat) (st : SolverState) (queue : List Int) (opposite : Int)
    (ci : Nat) (hwf : wfState N st) :
    (∀ st2 q2, procClause st queue opposite ci = some (Except.ok (st2, q2)) →
      wfState N st2 ∧ st.assignment.length ≤ st2.assignment.length) ∧
    (∀ c stc, procClause st queue opposite ci = some (Except.error (c, stc)) →
      wfState N stc ∧ st.assignment.length ≤ stc.assignment.length) := by
  obtain ⟨hF, hR, ⟨hAnd, hAb⟩, hE, hV, hW⟩ := hwf
  cases hcl : st.formula.get? ci with
  | none =>
    constructor
    · intro st2 q2 h; simp only [procClause, hcl] at h; exact Option.noConfusion h
    · intro c stc h; simp only [procClause, hcl] at h; exact Option.noConfusion h
  | some clause =>
    have hclmem : clause ∈ st.formula := List.get?_mem hcl
    have hclwf : wfClause N clause := hF clause hclmem
    cases halg : alGet st.watch_map ci with
    | none =>
      constructor
      · intro st2 q2 h; simp only [procClause, hcl, halg] at h; exact Option.noConfusion h
      · intro c stc h; simp only [procClause, hcl, halg] at h; exact Option.noConfusion h
    | some w =>
      obtain ⟨w1, w2⟩ := w
      have hw12 : wfLit N w1 ∧ wfLit N w2 := hW (ci, (w1, w2)) (alGet_mem _ _ _ halg)
      have hother : wfLit N (if w1 = opposite then w2 else w1) := by
        by_cases he : w1 = opposite
        · rw [if_pos he]; exact hw12.2
        · rw [if_neg he]; exact hw12.1
      constructor
      · intro st2 q2 h
        simp only [procClause, hcl, halg] at h
        by_cases htrue : value_of (if w1 = opposite then w2 else w1) st.assignment = some true
        · rw [if_pos htrue] at h
          have h2 := Option.some.inj h
          have h3 := Except.ok.inj h2
          have hst : st = st2 := congrArg Prod.fst h3
          subst hst
          exact ⟨⟨hF, hR, ⟨hAnd, hAb⟩, hE, hV, hW⟩, le_refl _⟩
        · rw [if_neg htrue] at h
          cases hfind : clause.find? (fun cand =>
              decide (cand ≠ w1) && decide (cand ≠ w2) &&
              decide (value_of cand st.assignment ≠ some false)) with
          | some candidate =>
            simp only [hfind] at h
            have hcand : candidate ∈ clause := List.mem_of_find?_eq_some hfind
            have hcandwf : wfLit N candidate := hclwf candidate hcand
            have h2 := Option.some.inj h
            have h3 := Except.ok.inj h2
            have hst : _ = st2 := congrArg Prod.fst h3
            rw [← hst]
            refine ⟨⟨hF, hR, ⟨hAnd, hAb⟩, hE, hV, ?_⟩, le_refl _⟩
            intro p hp
            by_cases he : w1 = opposite
            · rw [if_pos he] at hp
              rcases mem_alSet _ _ _ _ hp with hpe | hpo
              · subst hpe; exact ⟨hcandwf, hw12.2⟩
              · exact hW p hpo
            · rw [if_neg he] at hp
              rcases mem_alSet _ _ _ _ hp with hpe | hpo
              · subst hpe; exact ⟨hw12.1, hcandwf⟩
              · exact hW p hpo
          | none =>
            simp only [hfind] at h
            cases hval : value_of (if w1 = opposite then w2 else w1) st.assignment with
            | none =>
              simp only [hval] at h
              have h2 := Option.some.inj h
              have h3 := Except.ok.inj h2
              have hst : _ = st2 := congrArg Prod.fst h3
              rw [← hst]
              have hvarwf : wfVar N (iabs (if w1 = opposite then w2 else w1)) :=
                wfVar_iabs N _ hother
              refine ⟨⟨hF, ?_, ⟨?_, ?_⟩, hE, hV, hW⟩, ?_⟩
              · intro p hp
                rcases mem_alSet _ _ _ _ hp with hpe | hpo
                · subst hpe; exact hclwf
                · exact hR p hpo
              · exact alSet_nodup _ _ _ hAnd
              · intro p hp
                rcases mem_alSet _ _ _ _ hp with hpe | hpo
                · subst hpe; exact hvarwf
                · exact hAb p hpo
              · exact alSet_length_ge _ _ _
            | some b =>
              cases b with
              | false =>
                simp only [hval] at h
                exact Except.noConfusion (Option.some.inj h)
              | true => exact absurd hval htrue
      · intro c stc h
        simp only [procClause, hcl, halg] at h
        by_cases htrue : value_of (if w1 = opposite then w2 else w1) st.assignment = some true
        · rw [if_pos htrue] at h; cases h
        · rw [if_neg htrue] at h
          cases hfind : clause.find? (fun cand =>
              decide (cand ≠ w1) && decide (cand ≠ w2) &&
              decide (value_of cand st.assignment ≠ some false)) with
          | some candidate => simp only [hfind] at h; cases h
          | none =>
            simp only [hfind] at h
            cases hval : value_of (if w1 = opposite then w2 else w1) st.assignment with
            | none => simp only [hval] at h; cases h
            | some b =>
              cases b with
              | true => simp only [hval] at h; cases h
              | false =>
                simp only [hval] at h
                have h2 := Except.error.inj (Option.some.inj h)
                have hst : st = stc := congrArg Prod.snd h2
                subst hst
                exact ⟨⟨hF, hR, ⟨hAnd, hAb⟩, hE, hV, hW⟩, le_refl _⟩

/-- The watcher pass preserves the bundle; conflicts are well-formed
states too. -/
theorem procWatchers_wf (N : Nat) (opposite : Int) (watchers : List Nat) :
    ∀ (st : SolverState) (queue : List Int), wfState N st →
    (∀ st2 q2, procWatchers st queue opposite watchers = some (Except.ok (st2, q2)) →
      wfState N st2 ∧ st.assignment.length ≤ st2.assignment.length) ∧
    (∀ c stc, procWatchers st queue opposite watchers = some (Except.error (c, stc)) →
      wfState N stc ∧ st.assignment.length ≤ stc.assignment.length) := by
  induction watchers with
  | nil =>
    intro st queue hwf
    constructor
    · intro st2 q2 h
      simp only [procWatchers] at h
      have h2 := Except.ok.inj (Option.some.inj h)
      have hst : st = st2 := congrArg Prod.fst h2
      subst hst
      exact ⟨hwf, le_refl _⟩
    · intro c stc h
      simp only [procWatchers] at h
      exact Except.noConfusion (Option.some.inj h)
  | cons ci rest ih =>
    intro st queue hwf
    have hpc := procClause_wf N st queue opposite ci hwf
    constructor
    · intro st2 q2 h
      simp only [procWatchers] at h
      cases hc : procClause st queue opposite ci with
      | none => rw [hc] at h; exact Option.noConfusion h
      | some e =>
        rw [hc] at h
        cases e with
        | error e2 => cases h
        | ok p =>
          obtain ⟨stm, qm⟩ := p
          have hm := hpc.1 stm qm hc
          have hr := (ih stm qm hm.1).1 st2 q2 h
          exact ⟨hr.1, le_trans hm.2 hr.2⟩
    · intro c stc h
      simp only [procWatchers] at h
      cases hc : procClause st queue opposite ci with
      | none => rw [hc] at h; exact Option.noConfusion h
      | some e =>
        rw [hc] at h
        cases e with
        | error e2 =>
          obtain ⟨c2, stc2⟩ := e2
          have h2 := Except.error.inj (Option.some.inj h)
          have hs : stc2 = stc := congrArg Prod.snd h2
          rw [← hs]
          exact hpc.2 c2 stc2 hc
        | ok p =>
          obtain ⟨stm, qm⟩ := p
          have hm := hpc.1 stm qm hc
          have hr := (ih stm qm hm.1).2 c stc h
          exact ⟨hr.1, le_trans hm.2 hr.2⟩

/-- The propagation loop preserves the bundle. -/
theorem propLoop_wf (N : Nat) (fuel : Nat) :
    ∀ (st : SolverState) (queue : List Int) (stats : SolverStats)
      (co : Option Clause) (st2 : SolverState) (stats2 : SolverStats),
    wfState N st →
    propLoop fuel st queue stats = some (co, st2, stats2) →
    wfState N st2 ∧ st.assignment.length ≤ st2.assignment.length := by
  induction fuel with
  | zero => intro st queue stats co st2 stats2 hwf h; cases h
  | succ fuel ih =>
    intro st queue stats co st2 stats2 hwf h
    cases hl : queue.getLast? with
    | none =>
      simp only [propLoop, hl] at h
      have h2 := Option.some.inj h
      have hst : st = st2 := congrArg (fun t => t.2.1) h2
      subst hst
      exact ⟨hwf, le_refl _⟩
    | some literal =>
      simp only [propLoop, hl] at h
      cases hpw : procWatchers st queue.dropLast (-literal)
          ((alGet st.watches (-literal)).getD []) with
      | none => simp only [hpw] at h; exact Option.noConfusion h
      | some e =>
        simp only [hpw] at h
        cases e with
        | error e2 =>
          obtain ⟨c2, stc2⟩ := e2
          have h2 := Option.some.inj h
          have hst : stc2 = st2 := congrArg (fun t => t.2.1) h2
          rw [← hst]
          exact (procWatchers_wf N (-literal) _ st queue.dropLast hwf).2 c2 stc2 hpw
        | ok p =>
          obtain ⟨stm, qm⟩ := p
          have hm := (procWatchers_wf N (-literal) _ st queue.dropLast hwf).1 stm qm hpw
          have hr := ih stm qm stats co st2 stats2 hm.1 h
          exact ⟨hr.1, le_trans hm.2 hr.2⟩

/-- `propagate` preserves the bundle. -/
theorem propagate_wf (N : Nat) (fuel : Nat) (st : SolverState) (stats : SolverStats)
    (co : Option Clause) (st2 : SolverState) (stats2 : SolverStats)
    (hwf : wfState N st) (h : propagate fuel st stats = some (co, st2, stats2)) :
    wfState N st2 ∧ st.assignment.length ≤ st2.assignment.length :=
  propLoop_wf N fuel st st.level_literals stats co st2 stats2 hwf h

end Cdcl

namespace Cdcl
open Fab

/-- Literals produced by the conflict-side resolution loop come from the
accumulator or the clause. -/
theorem resolveLeft_sub (pivot : Int) (lits : List Int) :
    ∀ (res pres : List Int) (l : Int), l ∈ (resolveLeft pivot lits (res, pres)).1 →
    l ∈ res ∨ l ∈ lits := by
  induction lits with
  | nil => intro res pres l h; exact Or.inl h
  | cons x rest ih =>
    intro res pres l h
    simp only [resolveLeft] at h
    by_cases h1 : iabs x = pivot
    · rw [if_pos h1] at h
      rcases ih res pres l h with hh | hh
      · exact Or.inl hh
      · exact Or.inr (List.mem_cons_of_mem _ hh)
    · rw [if_neg h1] at h
      by_cases h2 : (-x) ∈ pres
      · rw [if_pos h2] at h
        rcases ih res pres l h with hh | hh
        · exact Or.inl hh
        · exact Or.inr (List.mem_cons_of_mem _ hh)
      · rw [if_neg h2] at h
        by_cases h3 : x ∈ pres
        · rw [if_pos h3] at h
          rcases ih res pres l h with hh | hh
          · exact Or.inl hh
          · exact Or.inr (List.mem_cons_of_mem _ hh)
        · rw [if_neg h3] at h
          rcases ih (res ++ [x]) (pres ++ [x]) l h with hh | hh
          · rcases List.mem_append.mp hh with hr | hr
            · exact Or.inl hr
            · exact Or.inr (List.mem_cons.mpr (Or.inl (List.mem_singleton.mp hr)))
          · exact Or.inr (List.mem_cons_of_mem _ hh)

/-- Literals produced by the reason-side resolution loop come from the
accumulator or the reason. -/
theorem resolveRight_sub (pivot : Int) (lits : List Int) :
    ∀ (res pres : List Int) (l : Int), l ∈ (resolveRight pivot lits (res, pres)).1 →
    l ∈ res ∨ l ∈ lits := by
  induction lits with
  | nil => intro res pres l h; exact Or.inl h
  | cons x rest ih =>
    intro res pres l h
    simp only [resolveRight] at h
    by_cases h1 : iabs x = pivot
    · rw [if_pos h1] at h
      rcases ih res pres l h with hh | hh
      · exact Or.inl hh
      · exact Or.inr (List.mem_cons_of_mem _ hh)
    · rw [if_neg h1] at h
      by_cases h2 : (-x) ∈ pres
      · rw [if_pos h2] at h
        rcases ih (res.erase (-x)) (pres.erase (-x)) l h with hh | hh
        · exact Or.inl (List.erase_subset _ _ hh)
        · exact Or.inr (List.mem_cons_of_mem _ hh)
      · rw [if_neg h2] at h
        by_cases h3 : x ∈ pres
        · rw [if_pos h3] at h
          rcases ih res pres l h with hh | hh
          · exact Or.inl hh
          · exact Or.inr (List.mem_cons_of_mem _ hh)
        · rw [if_neg h3] at h
          rcases ih (res ++ [x]) (pres ++ [x]) l h with hh | hh
          · rcases List.mem_append.mp hh with hr | hr
            · exact Or.inl hr
            · exact Or.inr (List.mem_cons.mpr (Or.inl (List.mem_singleton.mp hr)))
          · exact Or.inr (List.mem_cons_of_mem _ hh)

/-- One resolution step keeps all literals fit. -/
theorem resolveClause_wf (N : Nat) (st : SolverState) (clause : Clause) (pivot : Int)
    (hwf : wfState N st) (hcl : wfClause N clause) :
    wfClause N (resolveClause st clause pivot) := by
  unfold resolveClause
  cases hget : alGet st.reason pivot with
  | none => exact hcl
  | some reason =>
    show wfClause N (if reason.isEmpty then clause
      else (resolveRight pivot reason (resolveLeft pivot clause ([], []))).1)
    by_cases hemp : reason.isEmpty
    · rw [if_pos hemp]; exact hcl
    · rw [if_neg hemp]
      have hreason : wfClause N reason := hwf.2.1 (pivot, reason) (alGet_mem _ _ _ hget)
      intro l hl
      rcases hacc : resolveLeft pivot clause ([], []) with ⟨res1, pres1⟩
      rw [hacc] at hl
      rcases resolveRight_sub pivot reason res1 pres1 l hl with hh | hh
      · have hleft := resolveLeft_sub pivot clause [] [] l (by rw [hacc]; exact hh)
        rcases hleft with h0 | h0
        · exact absurd h0 (List.not_mem_nil l)
        · exact hcl l h0
      · exact hreason l hh

end Cdcl

namespace Cdcl
open Fab

/-- The 1-UIP loop keeps all literals of the learned clause fit. -/
theorem analyzeLoop_wf (N : Nat) (fuel : Nat) :
    ∀ (st : SolverState) (learned out : Clause), wfState N st → wfClause N learned →
    analyzeLoop fuel st learned = some out → wfClause N out := by
  induction fuel with
  | zero => intro st learned out hwf hl h; cases h
  | succ fuel ih =>
    intro st learned out hwf hl h
    simp only [analyzeLoop] at h
    by_cases hcnt : count_curr_level st learned > 1
    · rw [if_pos hcnt] at h
      cases hpv : pivotSearch st learned with
      | none =>
        rw [hpv] at h
        rw [← Option.some.inj h]
        exact hl
      | some pv =>
        rw [hpv] at h
        exact ih st _ out hwf (resolveClause_wf N st learned pv hwf hl) h
    · rw [if_neg hcnt] at h
      rw [← Option.some.inj h]
      exact hl

/-- `analyze_conflict` returns a clause of fit literals. -/
theorem analyze_conflict_wf (N : Nat) (fuel : Nat) (st : SolverState) (conflict : Clause)
    (clause : Clause) (bj : Nat) (hwf : wfState N st) (hc : wfClause N conflict)
    (h : analyze_conflict fuel st conflict = some (clause, bj)) : wfClause N clause := by
  simp only [analyze_conflict] at h
  cases hal : analyzeLoop fuel st conflict with
  | none => rw [hal] at h; exact Option.noConfusion h
  | some learned =>
    rw [hal] at h
    have hcl2 : learned = clause := congrArg Prod.fst (Option.some.inj h)
    rw [← hcl2]
    exact analyzeLoop_wf N fuel st conflict learned hwf hc hal

/-- Filtering keeps the keys distinct. -/
theorem filter_keys_nodup {γ : Type} (f : (Int × γ) → Bool) (m : List (Int × γ))
    (h : (m.map Prod.fst).Nodup) : ((m.filter f).map Prod.fst).Nodup :=
  List.Nodup.sublist (List.Sublist.map Prod.fst (List.filter_sublist m)) h

/-- `backtrack` preserves the bundle (it only filters). -/
theorem backtrack_wf (N : Nat) (st : SolverState) (level : Nat)
    (hwf : wfState N st) : wfState N (backtrack st level) := by
  obtain ⟨hF, hR, ⟨hAnd, hAb⟩, hE, hV, hW⟩ := hwf
  refine ⟨hF, ?_, ⟨?_, ?_⟩, hE, hV, hW⟩
  · intro p hp
    exact hR p (List.mem_of_mem_filter hp)
  · exact filter_keys_nodup _ _ hAnd
  · intro p hp
    exact hAb p (List.mem_of_mem_filter hp)

/-- The score-bump fold of `learn_clause` preserves the bundle. -/
theorem learnFold_wf (N : Nat) (lits : List Int) :
    ∀ (s : SolverState), wfState N s → (∀ l ∈ lits, wfLit N l) →
    wfState N (lits.foldl (fun s l =>
      let var := iabs l
      let ns := ((alGet s.vsids var).getD (Q.ofInt 0)).add (Q.ofInt 1)
      { s with vsids := alSet s.vsids var ns, queue := pqPush s.queue var ns }) s) := by
  induction lits with
  | nil => intro s hwf _; exact hwf
  | cons x rest ih =>
    intro s hwf hl
    simp only [List.foldl_cons]
    apply ih
    · obtain ⟨hF, hR, ⟨hAnd, hAb⟩, hE, hV, hW⟩ := hwf
      have hx : wfVar N (iabs x) := wfVar_iabs N x (hl x (List.mem_cons_self x rest))
      refine ⟨hF, hR, ⟨hAnd, hAb⟩, ?_, ?_, hW⟩
      · intro p hp
        simp only [pqPush] at hp
        rcases mem_alSet _ _ _ _ hp with hpe | hpo
        · subst hpe; exact hx
        · exact hE p hpo
      · intro p hp
        rcases mem_alSet _ _ _ _ hp with hpe | hpo
        · subst hpe; exact hx
        · exact hV p hpo
    · intro l hl2
      exact hl l (List.mem_cons_of_mem x hl2)

/-- `learn_clause` preserves the bundle. -/
theorem learn_clause_wf (N : Nat) (st : SolverState) (clause : Clause)
    (stats : SolverStats) (st2 : SolverState) (stats2 : SolverStats)
    (hwf : wfState N st) (hcl : wfClause N clause)
    (h : learn_clause st clause stats = some (st2, stats2)) : wfState N st2 := by
  obtain ⟨hF, hR, ⟨hAnd, hAb⟩, hE, hV, hW⟩ := hwf
  cases clause with
  | nil => cases h
  | cons a rest =>
    have ha : wfLit N a := hcl a (List.mem_cons_self a rest)
    have hFnew : ∀ cl ∈ st.formula ++ [a :: rest], wfClause N cl := by
      intro cl hclm
      rcases List.mem_append.mp hclm with hm | hm
      · exact hF cl hm
      · rw [List.mem_singleton.mp hm]
        exact hcl
    cases rest with
    | nil =>
      simp only [learn_clause] at h
      have hst2 : _ = st2 := congrArg Prod.fst (Option.some.inj h)
      rw [← hst2]
      apply learnFold_wf N [a]
      · refine ⟨hFnew, hR, ⟨hAnd, hAb⟩, hE, hV, ?_⟩
        intro p hp
        rcases mem_alSet _ _ _ _ hp with hpe | hpo
        · subst hpe; exact ⟨ha, ha⟩
        · exact hW p hpo
      · exact hcl
    | cons b rest2 =>
      have hb : wfLit N b := hcl b (List.mem_cons_of_mem a (List.mem_cons_self b rest2))
      simp only [learn_clause] at h
      have hst2 : _ = st2 := congrArg Prod.fst (Option.some.inj h)
      rw [← hst2]
      apply learnFold_wf N (a :: b :: rest2)
      · refine ⟨hFnew, hR, ⟨hAnd, hAb⟩, hE, hV, ?_⟩
        intro p hp
        rcases mem_alSet _ _ _ _ hp with hpe | hpo
        · subst hpe; exact ⟨ha, hb⟩
        · exact hW p hpo
      · exact hcl

/-- The decay fold preserves the bundle, for a pushed list of in-range
variables. -/
theorem decayFold_wf (N : Nat) (l : List (Int × Q)) :
    ∀ (s : SolverState), wfState N s → (∀ p ∈ l, wfVar N p.1) →
    wfState N (l.foldl (fun s p =>
      let ns := ((alGet s.vsids p.1).getD (Q.ofInt 0)).mul s.decay
      { s with vsids := alSet s.vsids p.1 ns, queue := pqPush s.queue p.1 ns }) s) := by
  induction l with
  | nil => intro s hwf _; exact hwf
  | cons x rest ih =>
    intro s hwf hl
    simp only [List.foldl_cons]
    apply ih
    · obtain ⟨hF, hR, ⟨hAnd, hAb⟩, hE, hV, hW⟩ := hwf
      have hx : wfVar N x.1 := hl x (List.mem_cons_self x rest)
      refine ⟨hF, hR, ⟨hAnd, hAb⟩, ?_, ?_, hW⟩
      · intro p hp
        simp only [pqPush] at hp
        rcases mem_alSet _ _ _ _ hp with hpe | hpo
        · subst hpe; exact hx
        · exact hE p hpo
      · intro p hp
        rcases mem_alSet _ _ _ _ hp with hpe | hpo
        · subst hpe; exact hx
        · exact hV p hpo
    · intro p hp2
      exact hl p (List.mem_cons_of_mem x hp2)

/-- `decay_scores` preserves the bundle. -/
theorem decay_scores_wf (N : Nat) (st : SolverState) (hwf : wfState N st) :
    wfState N (decay_scores st) :=
  decayFold_wf N st.vsids st hwf hwf.2.2.2.2.1

/-- `applyAssert` preserves the bundle when the asserted literal comes
from a fit clause. -/
theorem applyAssert_wf (N : Nat) (st : SolverState) (clause : Clause) (o : Option Int)
    (hwf : wfState N st) (hcl : wfClause N clause)
    (ho : ∀ lit, o = some lit → lit ∈ clause) :
    wfState N (applyAssert st clause o) := by
  cases o with
  | none => exact hwf
  | some lit =>
    have hlit : wfLit N lit := hcl lit (ho lit rfl)
    have hvar : wfVar N (iabs lit) := wfVar_iabs N lit hlit
    obtain ⟨hF, hR, ⟨hAnd, hAb⟩, hE, hV, hW⟩ := hwf
    refine ⟨hF, ?_, ⟨?_, ?_⟩, hE, hV, hW⟩
    · intro p hp
      rcases mem_alSet _ _ _ _ hp with hpe | hpo
      · subst hpe; exact hcl
      · exact hR p hpo
    · exact alSet_nodup _ _ _ hAnd
    · intro p hp
      rcases mem_alSet _ _ _ _ hp with hpe | hpo
      · subst hpe; exact hvar
      · exact hAb p hpo

end Cdcl

namespace Cdcl
open Fab

/-- Popping only changes the heap, never the entries map. -/
theorem pqPopLoop_entries (fuel : Nat) :
    ∀ (q : PQueue) (assignment : Assignment),
    (pqPopLoop fuel q assignment).2.entries = q.entries := by
  induction fuel with
  | zero => intro q assignment; rfl
  | succ fuel ih =>
    intro q assignment
    show (match heappop q.heap with
      | none => ((none : Option Int), q)
      | some ((score, var), h2) =>
        let q2 : PQueue := { q with heap := h2 }
        if alHas assignment var then pqPopLoop fuel q2 assignment
        else
          match alGet q2.entries var with
          | none => pqPopLoop fuel q2 assignment
          | some current =>
            if !(Q.beq score.neg current) then pqPopLoop fuel q2 assignment
            else (some var, q2)).2.entries = q.entries
    cases hp : heappop q.heap with
    | none => rfl
    | some p =>
      obtain ⟨⟨score, var⟩, h2⟩ := p
      by_cases hh : alHas assignment var
      · simp only [hh, if_true]
        exact ih { q with heap := h2 } assignment
      · simp only [hh, if_false]
        cases hg : alGet ({ q with heap := h2 } : PQueue).entries var with
        | none => exact ih { q with heap := h2 } assignment
        | some current =>
          by_cases hb : !(Q.beq score.neg current)
          · simp only [hb, if_true]
            exact ih { q with heap := h2 } assignment
          · simp only [hb, if_false]
            rfl

/-- A successful pop returns an unassigned variable present in the
entries map, and keeps the entries. -/
theorem pqPopLoop_some (fuel : Nat) :
    ∀ (q : PQueue) (assignment : Assignment) (var : Int) (q2 : PQueue),
    pqPopLoop fuel q assignment = (some var, q2) →
    alGet assignment var = none ∧ (∃ cur, alGet q.entries var = some cur) ∧
    q2.entries = q.entries := by
  induction fuel with
  | zero => intro q assignment var q2 h; cases h
  | succ fuel ih =>
    intro q assignment var q2 h
    simp only [pqPopLoop] at h
    cases hp : heappop q.heap with
    | none =>
      rw [hp] at h
      cases h
    | some p =>
      obtain ⟨⟨score, pvar⟩, h2⟩ := p
      rw [hp] at h
      by_cases hh : alHas assignment pvar
      · simp only [hh, if_true] at h
        exact ih { q with heap := h2 } assignment var q2 h
      · simp only [hh, if_false] at h
        cases hg : alGet ({ q with heap := h2 } : PQueue).entries pvar with
        | none =>
          rw [hg] at h
          exact ih { q with heap := h2 } assignment var q2 h
        | some current =>
          rw [hg] at h
          by_cases hb : !(Q.beq score.neg current)
          · simp only [hb, if_true] at h
            exact ih { q with heap := h2 } assignment var q2 h
          · simp only [hb, if_false] at h
            have hv : pvar = var := congrArg (fun t => (t.1.getD 0 : Int)) h
            have hq : ({ q with heap := h2 } : PQueue) = q2 := congrArg Prod.snd h
            subst hv
            refine ⟨?_, ⟨current, hg⟩, ?_⟩
            · unfold alHas at hh
              cases hget : alGet assignment pvar with
              | none => rfl
              | some b => rw [hget] at hh; exact absurd rfl hh
            · rw [← hq]

/-- A sign choice on a positive variable has that variable as magnitude. -/
theorem iabs_if_sign (v : Int) (s : Bool) (h : 1 ≤ v) :
    iabs (if s then v else -v) = v := by
  cases s with
  | true =>
    show iabs v = v
    unfold iabs
    rw [if_neg (by omega)]
  | false =>
    show iabs (-v) = v
    unfold iabs
    rw [if_pos (by omega)]
    omega

/-- A successful branch decision: the state stays well-formed (only the
heap shrank), the decided variable is in range and currently unassigned,
and everything else is unchanged. -/
theorem select_branch_literal_some (N : Nat) (st : SolverState) (lit : Int)
    (st2 : SolverState) (hwf : wfState N st)
    (h : select_branch_literal st = (some lit, st2)) :
    wfState N st2 ∧ wfVar N (iabs lit) ∧ alGet st.assignment (iabs lit) = none ∧
    st2.assignment = st.assignment ∧ st2.formula = st.formula := by
  obtain ⟨hF, hR, ⟨hAnd, hAb⟩, hE, hV, hW⟩ := hwf
  simp only [select_branch_literal] at h
  rcases hp : pqPop st.queue st.assignment with ⟨ov, q2⟩
  rw [hp] at h
  cases ov with
  | none => cases h
  | some var =>
    have hps := pqPopLoop_some (st.queue.heap.length + 1) st.queue st.assignment var q2 hp
    obtain ⟨hun, ⟨cur, hcur⟩, hent⟩ := hps
    have hvar : wfVar N var := hE (var, cur) (alGet_mem _ _ _ hcur)
    have hlit : lit = if (alGet st.phase var).getD true then var else -var := by
      have := congrArg (fun t => (t.1.getD 0 : Int)) h
      simpa using this.symm
    have hst2 : _ = st2 := congrArg Prod.snd h
    have hia : iabs lit = var := by
      rw [hlit]
      exact iabs_if_sign var _ hvar.1
    rw [← hst2]
    refine ⟨⟨hF, hR, ⟨hAnd, hAb⟩, ?_, hV, hW⟩, ?_, ?_, rfl, rfl⟩
    · intro p hpm
      show wfVar N p.1
      have : q2.entries = st.queue.entries := hent
      rw [this] at hpm
      exact hE p hpm
    · rw [hia]; exact hvar
    · rw [hia]; exact hun

/-- The unit pre-pass preserves the bundle. -/
theorem preUnit_wf (N : Nat) (clauses : Formula) :
    ∀ (st st1 : SolverState), (∀ cl ∈ clauses, wfClause N cl) → wfState N st →
    preUnit clauses st = some st1 → wfState N st1 := by
  induction clauses with
  | nil =>
    intro st st1 _ hwf h
    cases h
    exact hwf
  | cons c rest ih =>
    intro st st1 hcls hwf h
    have hrest : ∀ cl ∈ rest, wfClause N cl :=
      fun cl hm => hcls cl (List.mem_cons_of_mem c hm)
    cases c with
    | nil => exact ih st st1 hrest hwf h
    | cons a r =>
      cases r with
      | cons b r2 => exact ih st st1 hrest hwf h
      | nil =>
        have ha : wfLit N a := hcls [a] (List.mem_cons_self _ _) a (List.mem_singleton.mpr rfl)
        have hva : wfVar N (iabs a) := wfVar_iabs N a ha
        simp only [preUnit] at h
        cases hget : alGet st.assignment (iabs a) with
        | some val =>
          simp only [hget] at h
          by_cases hne : val ≠ decide (a > 0)
          · rw [if_pos hne] at h; exact Option.noConfusion h
          · rw [if_neg hne] at h; exact ih st st1 hrest hwf h
        | none =>
          simp only [hget] at h
          apply ih _ st1 hrest _ h
          obtain ⟨hF, hR, ⟨hAnd, hAb⟩, hE, hV, hW⟩ := hwf
          refine ⟨hF, ?_, ⟨?_, ?_⟩, hE, hV, hW⟩
          · intro p hp
            rcases mem_alSet _ _ _ _ hp with hpe | hpo
            · subst hpe
              intro l hl
              cases hl
            · exact hR p hpo
          · exact alSet_nodup _ _ _ hAnd
          · intro p hp
            rcases mem_alSet _ _ _ _ hp with hpe | hpo
            · subst hpe; exact hva
            · exact hAb p hpo

end Cdcl

namespace Cdcl
open Fab

/-- The per-clause VSIDS count fold only adds in-range keys. -/
theorem vsidsClauseFold (N : Nat) (c : Clause) (hc : wfClause N c) :
    ∀ (vs : List (Int × Q)), (∀ p ∈ vs, wfVar N p.1) →
    ∀ p ∈ c.foldl (fun vs l =>
      alSet vs (iabs l) (((alGet vs (iabs l)).getD (Q.ofInt 0)).add (Q.ofInt 1))) vs,
    wfVar N p.1 := by
  induction c with
  | nil => intro vs hvs p hp; exact hvs p hp
  | cons x rest ih =>
    intro vs hvs p hp
    have hx : wfVar N (iabs x) := wfVar_iabs N x (hc x (List.mem_cons_self x rest))
    have hrest : wfClause N rest := fun l hl => hc l (List.mem_cons_of_mem x hl)
    refine ih hrest _ ?_ p hp
    intro q hq
    rcases mem_alSet _ _ _ _ hq with hqe | hqo
    · subst hqe; exact hx
    · exact hvs q hqo

/-- All VSIDS keys of `initialize_state` are in range. -/
theorem initVsids_keys (N : Nat) (clauses : Formula)
    (hf : ∀ cl ∈ clauses, wfClause N cl) :
    ∀ p ∈ initVsids clauses, wfVar N p.1 := by
  unfold initVsids
  have haux : ∀ (cls : Formula), (∀ cl ∈ cls, wfClause N cl) →
      ∀ (vs : List (Int × Q)), (∀ p ∈ vs, wfVar N p.1) →
      ∀ p ∈ cls.foldl (fun vs c => c.foldl (fun vs l =>
        alSet vs (iabs l) (((alGet vs (iabs l)).getD (Q.ofInt 0)).add (Q.ofInt 1))) vs) vs,
      wfVar N p.1 := by
    intro cls
    induction cls with
    | nil => intro _ vs hvs p hp; exact hvs p hp
    | cons c rest ih =>
      intro hcls vs hvs p hp
      have hrest : ∀ cl ∈ rest, wfClause N cl :=
        fun cl hm => hcls cl (List.mem_cons_of_mem c hm)
      exact ih hrest _ (vsidsClauseFold N c (hcls c (List.mem_cons_self c rest)) vs hvs) p hp
  intro p hp
  exact haux clauses hf [] (by intro q hq; cases hq) p hp

/-- The initial queue-filling fold only adds in-range entry keys. -/
theorem pushFold_entries (N : Nat) (l : List (Int × Q)) :
    ∀ (q : PQueue), (∀ p ∈ q.entries, wfVar N p.1) → (∀ p ∈ l, wfVar N p.1) →
    ∀ p ∈ (l.foldl (fun q p => pqPush q p.1 p.2) q).entries, wfVar N p.1 := by
  induction l with
  | nil => intro q hq _ p hp; exact hq p hp
  | cons x rest ih =>
    intro q hq hl p hp
    have hx : wfVar N x.1 := hl x (List.mem_cons_self x rest)
    refine ih _ ?_ (fun p hm => hl p (List.mem_cons_of_mem x hm)) p hp
    intro r hr
    simp only [pqPush] at hr
    rcases mem_alSet _ _ _ _ hr with hre | hro
    · subst hre; exact hx
    · exact hq r hro

/-- The watch-initialization loop only stores fit literal pairs. -/
theorem initWatchLoop_wm (N : Nat) (clauses : Formula) :
    ∀ (idx : Nat) (watches : List (Int × List Nat)) (wm : List (Nat × (Int × Int)))
      (out : List (Int × List Nat) × List (Nat × (Int × Int))),
    (∀ cl ∈ clauses, wfClause N cl) →
    (∀ p ∈ wm, wfLit N p.2.1 ∧ wfLit N p.2.2) →
    initWatchLoop idx clauses watches wm = some out →
    ∀ p ∈ out.2, wfLit N p.2.1 ∧ wfLit N p.2.2 := by
  induction clauses with
  | nil =>
    intro idx watches wm out _ hwm h
    cases h
    exact hwm
  | cons c rest ih =>
    intro idx watches wm out hcls hwm h
    have hrest : ∀ cl ∈ rest, wfClause N cl :=
      fun cl hm => hcls cl (List.mem_cons_of_mem c hm)
    cases c with
    | nil => cases h
    | cons a r =>
      have ha : wfLit N a :=
        hcls (a :: r) (List.mem_cons_self _ _) a (List.mem_cons_self a r)
      cases r with
      | nil =>
        refine ih (idx + 1) _ _ out hrest ?_ h
        intro p hp
        rcases mem_alSet _ _ _ _ hp with hpe | hpo
        · subst hpe; exact ⟨ha, ha⟩
        · exact hwm p hpo
      | cons b r2 =>
        have hb : wfLit N b :=
          hcls (a :: b :: r2) (List.mem_cons_self _ _) b
            (List.mem_cons_of_mem a (List.mem_cons_self b r2))
        refine ih (idx + 1) _ _ out hrest ?_ h
        intro p hp
        rcases mem_alSet _ _ _ _ hp with hpe | hpo
        · subst hpe; exact ⟨ha, hb⟩
        · exact hwm p hpo

/-- `initialize_state` produces a well-formed state for a fit formula. -/
theorem initState_wf (N : Nat) (formula : Formula) (st : SolverState)
    (hf : ∀ cl ∈ formula, wfClause N cl) (h : initState formula = some st) :
    wfState N st := by
  unfold initState at h
  cases hw : initWatchLoop 0 formula [] [] with
  | none => rw [hw] at h; exact Option.noConfusion h
  | some p =>
    obtain ⟨watches, wm⟩ := p
    simp only [hw] at h
    rw [← Option.some.inj h]
    refine ⟨hf, ?_, ⟨?_, ?_⟩, ?_, ?_, ?_⟩
    · intro p hp; cases hp
    · exact List.nodup_nil
    · intro p hp; cases hp
    · exact pushFold_entries N (initVsids formula) _ (by intro q hq; cases hq)
        (initVsids_keys N formula hf)
    · exact initVsids_keys N formula hf
    · exact initWatchLoop_wm N formula 0 [] [] (watches, wm) hf
        (by intro q hq; cases hq) hw
end Cdcl

namespace Cdcl
open Fab

/-- Decision accounting of the CDCL main loop: between two
assignment-resetting events (a handled conflict or a restart) the solver
can decide at most `N` fresh variables, because every decision assigns a
fresh in-range variable and distinct in-range keys number at most `N`.
Stated as a potential inequality over one `cdclLoop` call. -/
theorem cdclLoop_decisions (N : Nat) (fuel : Nat) :
    ∀ (st : SolverState) (stats : SolverStats) (rl csr k0 : Nat)
      (res : Bool × Assignment) (st2 : SolverState) (stats2 : SolverStats) (k2 : Nat),
    wfState N st →
    cdclLoop fuel st stats rl csr k0 = some (res, st2, stats2, k2) →
    stats2.decisions + st.assignment.length + N * (stats.restarts + k0)
      ≤ stats.decisions + N + N * (stats2.restarts + k2) := by
  induction fuel with
  | zero => intro st stats rl csr k0 res st2 stats2 k2 hwf h; cases h
  | succ fuel ih =>
    intro st stats rl csr k0 res st2 stats2 k2 hwf h
    have hA : st.assignment.length ≤ N :=
      nodup_keys_bound N st.assignment hwf.2.2.1.1 hwf.2.2.1.2
    simp only [cdclLoop] at h
    cases hp : propagate (fuel + 1) st stats with
    | none => rw [hp] at h; exact Option.noConfusion h
    | some trip =>
      obtain ⟨co, st1, stats1⟩ := trip
      have hps := propLoop_stats (fuel + 1) st st.level_literals stats co st1 stats1 hp
      have hwfp := propagate_wf N (fuel + 1) st stats co st1 stats1 hwf hp
      have hwf1 : wfState N st1 := hwfp.1
      cases co with
      | none =>
        have hstats1 : stats1 = stats := hps.1 rfl
        have hmono : st.assignment.length ≤ st1.assignment.length := hwfp.2
        simp only [hp, Option.getD, Bool.false_eq_true, if_false] at h
        cases hsel : select_branch_literal st1 with
        | mk litOpt stsel =>
          rw [hsel] at h
          cases litOpt with
          | none =>
            obtain ⟨hwfsel, hsa, hsf⟩ : wfState N stsel ∧ stsel.assignment = st1.assignment ∧
                stsel.formula = st1.formula := by
              simp only [select_branch_literal] at hsel
              rcases hq : pqPop st1.queue st1.assignment with ⟨ov, q2⟩
              rw [hq] at hsel
              cases ov with
              | none =>
                have hst : _ = stsel := congrArg Prod.snd hsel
                rw [← hst]
                obtain ⟨hF, hR, hAnd2, hE, hV, hW⟩ := hwf1
                refine ⟨⟨hF, hR, hAnd2, ?_, hV, hW⟩, rfl, rfl⟩
                intro p hpm
                have hent : (pqPop st1.queue st1.assignment).2.entries
                    = st1.queue.entries :=
                  pqPopLoop_entries (st1.queue.heap.length + 1) st1.queue st1.assignment
                rw [hq] at hent
                have hpm2 : p ∈ st1.queue.entries := by
                  rw [← hent]; exact hpm
                exact hE p hpm2
              | some v => cases hsel
            have h3 := Option.some.inj h
            have hstats2 : stats1 = stats2 := congrArg (fun t => t.2.2.1) h3
            have hk2 : k0 = k2 := congrArg (fun t => t.2.2.2) h3
            rw [← hstats2, ← hk2, hstats1]
            omega
          | some literal =>
            obtain ⟨hwfsel, hvarw, hfresh, hsa, hsf⟩ :=
              select_branch_literal_some N st1 literal stsel hwf1 hsel
            have hrec := ih _ _ rl csr k0 res st2 stats2 k2
              (by
                obtain ⟨hF, hR, ⟨hAnd2, hAb2⟩, hE, hV, hW⟩ := hwfsel
                refine ⟨hF, ?_, ⟨?_, ?_⟩, hE, hV, hW⟩
                · intro p hpm
                  rcases mem_alSet _ _ _ _ hpm with hpe | hpo
                  · subst hpe
                    intro l hl
                    cases hl
                  · exact hR p hpo
                · exact alSet_nodup _ _ _ hAnd2
                · intro p hpm
                  rcases mem_alSet _ _ _ _ hpm with hpe | hpo
                  · subst hpe; exact hvarw
                  · exact hAb2 p hpo) h
            have hrec2 : stats2.decisions +
                (alSet stsel.assignment (iabs literal) (decide (literal > 0))).length +
                N * (stats1.restarts + k0)
                ≤ (stats1.decisions + 1) + N + N * (stats2.restarts + k2) := hrec
            rw [hstats1] at hrec2
            have hlen4 : (alSet stsel.assignment (iabs literal)
                (decide (literal > 0))).length = stsel.assignment.length + 1 :=
              alSet_length_none _ _ _ (by rw [hsa]; exact hfresh)
            have hsa2 : stsel.assignment.length = st1.assignment.length :=
              congrArg List.length hsa
            omega
      | some c =>
        have hcm := hps.2 c rfl
        have hstats1 : stats1 = { stats with conflicts := stats.conflicts + 1 } := hcm.1
        have hclwf : wfClause N c := hwf.1 c hcm.2
        by_cases hie : c.isEmpty
        · simp only [hp, hie, Bool.not_true, if_false, Option.getD] at h
          -- an empty conflict is treated as no conflict: same as the decide path,
          -- but it cannot arise here; handle it anyway via the same argument
          cases hsel : select_branch_literal st1 with
          | mk litOpt stsel =>
            rw [hsel] at h
            cases litOpt with
            | none =>
              obtain ⟨hwfsel, hsa, hsf⟩ : wfState N stsel ∧
                  stsel.assignment = st1.assignment ∧ stsel.formula = st1.formula := by
                simp only [select_branch_literal] at hsel
                rcases hq : pqPop st1.queue st1.assignment with ⟨ov, q2⟩
                rw [hq] at hsel
                cases ov with
                | none =>
                  have hst : _ = stsel := congrArg Prod.snd hsel
                  rw [← hst]
                  obtain ⟨hF, hR, hAnd2, hE, hV, hW⟩ := hwf1
                  refine ⟨⟨hF, hR, hAnd2, ?_, hV, hW⟩, rfl, rfl⟩
                  intro p hpm
                  have hent : (pqPop st1.queue st1.assignment).2.entries
                      = st1.queue.entries :=
                    pqPopLoop_entries (st1.queue.heap.length + 1) st1.queue st1.assignment
                  rw [hq] at hent
                  have hpm2 : p ∈ st1.queue.entries := by
                    rw [← hent]; exact hpm
                  exact hE p hpm2
                | some v => cases hsel
              have h3 := Option.some.inj h
              have hstats2 : stats1 = stats2 := congrArg (fun t => t.2.2.1) h3
              have hk2 : k0 = k2 := congrArg (fun t => t.2.2.2) h3
              have hd1 : stats1.decisions = stats.decisions := by rw [hstats1]
              have hr1 : stats1.restarts = stats.restarts := by rw [hstats1]
              have hd2 : stats1.decisions = stats2.decisions := by rw [← hstats2]
              have hr2 : stats1.restarts = stats2.restarts := by rw [← hstats2]
              rw [← hk2, ← hd2, hd1, ← hr2, hr1]
              omega
            | some literal =>
              obtain ⟨hwfsel, hvarw, hfresh, hsa, hsf⟩ :=
                select_branch_literal_some N st1 literal stsel hwf1 hsel
              have hrec := ih _ _ rl csr k0 res st2 stats2 k2
                (by
                  obtain ⟨hF, hR, ⟨hAnd2, hAb2⟩, hE, hV, hW⟩ := hwfsel
                  refine ⟨hF, ?_, ⟨?_, ?_⟩, hE, hV, hW⟩
                  · intro p hpm
                    rcases mem_alSet _ _ _ _ hpm with hpe | hpo
                    · subst hpe
                      intro l hl
                      cases hl
                    · exact hR p hpo
                  · exact alSet_nodup _ _ _ hAnd2
                  · intro p hpm
                    rcases mem_alSet _ _ _ _ hpm with hpe | hpo
                    · subst hpe; exact hvarw
                    · exact hAb2 p hpo) h
              have hd1 : stats1.decisions = stats.decisions := by rw [hstats1]
              have hr1 : stats1.restarts = stats.restarts := by rw [hstats1]
              have hrec2 : stats2.decisions +
                  (alSet stsel.assignment (iabs literal) (decide (literal > 0))).length +
                  N * (stats1.restarts + k0)
                  ≤ (stats1.decisions + 1) + N + N * (stats2.restarts + k2) := hrec
              rw [hr1, hd1] at hrec2
              have hlen4 : (alSet stsel.assignment (iabs literal)
                  (decide (literal > 0))).length = stsel.assignment.length + 1 :=
                alSet_length_none _ _ _ (by rw [hsa]; exact hfresh)
              have hsa2 : stsel.assignment.length = st1.assignment.length :=
                congrArg List.length hsa
              have hmono : st.assignment.length ≤ st1.assignment.length := hwfp.2
              omega
        · have hieF : c.isEmpty = false := by
            cases hb : c.isEmpty with
            | true => exact absurd hb hie
            | false => rfl
          simp only [hp, hieF, Bool.not_false, if_true, Option.getD] at h
          by_cases hdl : st1.decision_level = 0
          · rw [if_pos hdl] at h
            have h3 := Option.some.inj h
            have hstats2 : ({ stats1 with conflicts := stats1.conflicts + 1 } : SolverStats)
                = stats2 := congrArg (fun t => t.2.2.1) h3
            have hk2 : k0 + 1 = k2 := congrArg (fun t => t.2.2.2) h3
            have hd2 : stats1.decisions = stats2.decisions := by rw [← hstats2]
            have hr2 : stats1.restarts = stats2.restarts := by rw [← hstats2]
            have hd1 : stats1.decisions = stats.decisions := by rw [hstats1]
            have hr1 : stats1.restarts = stats.restarts := by rw [hstats1]
            have he1 : N * (stats.restarts + (k0 + 1)) = N * (stats.restarts + k0) + N := by
              ring
            rw [← hk2, ← hd2, hd1, ← hr2, hr1]
            omega
          · rw [if_neg hdl] at h
            cases han : analyze_conflict (fuel + 1) st1 c with
            | none => rw [han] at h; exact Option.noConfusion h
            | some pr =>
              obtain ⟨clause, backjump⟩ := pr
              simp only [han] at h
              have hclausewf : wfClause N clause :=
                analyze_conflict_wf N (fuel + 1) st1 c clause backjump hwf1 hclwf han
              cases hlearn : learn_clause st1 clause
                  { stats1 with conflicts := stats1.conflicts + 1 } with
              | none => simp only [hlearn] at h; exact Option.noConfusion h
              | some pl =>
                obtain ⟨stl, statsl⟩ := pl
                simp only [hlearn] at h
                have hstatsl : statsl = { { stats1 with conflicts := stats1.conflicts + 1 } with
                    learned_clauses := stats1.learned_clauses + 1 } :=
                  learn_clause_stats st1 clause _ stl statsl hlearn
                have hwfl : wfState N stl :=
                  learn_clause_wf N st1 clause _ stl statsl hwf1 hclausewf hlearn
                have hwf5 : wfState N (applyAssert (decay_scores (backtrack stl backjump))
                    clause (clause.find? (fun l =>
                      alGet stl.decision_levels (iabs l) = some stl.decision_level))) := by
                  apply applyAssert_wf
                  · exact decay_scores_wf N _ (backtrack_wf N stl backjump hwfl)
                  · exact hclausewf
                  · intro lit hl
                    exact List.mem_of_find?_eq_some hl
                by_cases hrs : csr + 1 ≥ rl
                · rw [if_pos hrs] at h
                  have hrec := ih _ _ _ 0 (k0 + 1) res st2 stats2 k2
                    (backtrack_wf N _ 0 hwf5) h
                  simp only [hstatsl, hstats1] at hrec
                  have he1 : N * ((stats.restarts + 1) + (k0 + 1))
                      = N * (stats.restarts + k0) + 2 * N := by ring
                  omega
                · rw [if_neg hrs] at h
                  have hrec := ih _ _ _ (csr + 1) (k0 + 1) res st2 stats2 k2 hwf5 h
                  simp only [hstatsl, hstats1] at hrec
                  have he1 : N * (stats.restarts + (k0 + 1))
                      = N * (stats.restarts + k0) + N := by ring
                  omega

end Cdcl

namespace Cdcl
open Fab

/-- Counter bounds of a full CDCL run, for inputs whose literals fit the
header's variable count: `learned_clauses ≤ conflicts` and
`decisions ≤ N · (restarts + conflicts + 1)` where `N` is the parsed
`num_vars`. -/
theorem runSolverG_bounds (lines : List PLine) (fuel : Nat) (rec : Dpll.Record) (k : Nat)
    (hwfin : ∀ cl ∈ (parseDimacs lines).clauses, ∀ l ∈ cl,
      l ≠ 0 ∧ iabs l ≤ (parseDimacs lines).num_vars)
    (h : runSolverG lines fuel = some (rec, k)) :
    ∃ d cf lr rs : Nat,
      recGet rec "decisions" = some (Dpll.RVal.n (d : Int)) ∧
      recGet rec "conflicts" = some (Dpll.RVal.n (cf : Int)) ∧
      recGet rec "learned_clauses" = some (Dpll.RVal.n (lr : Int)) ∧
      recGet rec "restarts" = some (Dpll.RVal.n (rs : Int)) ∧
      lr ≤ cf ∧
      d ≤ (parseDimacs lines).num_vars.toNat * (rs + cf + 1) := by
  set N := (parseDimacs lines).num_vars.toNat with hN
  have hwfN : ∀ cl ∈ (parseDimacs lines).clauses, wfClause N cl := by
    intro cl hcl l hl
    have hw := hwfin cl hcl l hl
    refine ⟨hw.1, ?_⟩
    have h1 : (parseDimacs lines).num_vars ≤ (N : Int) := Int.self_le_toNat _
    omega
  simp only [runSolverG] at h
  cases hin : initState (parseDimacs lines).clauses with
  | none => rw [hin] at h; exact Option.noConfusion h
  | some st =>
    simp only [hin] at h
    have hwfst : wfState N st := initState_wf N _ st hwfN hin
    have hstf : st.formula = (parseDimacs lines).clauses :=
      initState_formula (parseDimacs lines).clauses st hin
    cases hpre : preUnit st.formula st with
    | none =>
      simp only [hpre] at h
      have h3 := Option.some.inj h
      have hrec : unsatRecord st.formula.length = rec := congrArg Prod.fst h3
      rw [← hrec]
      exact ⟨0, 0, 0, 0, rfl, rfl, rfl, rfl, le_refl _, by omega⟩
    | some st1 =>
      simp only [hpre] at h
      have hwf1 : wfState N st1 := preUnit_wf N st.formula st st1
        (by rw [hstf]; exact hwfN) hwfst hpre
      cases hprop : propagate fuel st1 stats0 with
      | none => rw [hprop] at h; exact Option.noConfusion h
      | some trip =>
        obtain ⟨co, st2, stats1⟩ := trip
        simp only [hprop] at h
        have hwf2 : wfState N st2 := (propagate_wf N fuel st1 stats0 co st2 stats1 hwf1
          hprop).1
        cases co with
        | some c =>
          have h3 := Option.some.inj h
          have hrec : unsatRecord st2.formula.length = rec := congrArg Prod.fst h3
          rw [← hrec]
          exact ⟨0, 0, 0, 0, rfl, rfl, rfl, rfl, le_refl _, by omega⟩
        | none =>
          cases hcd : cdcl fuel st2 stats1 with
          | none => rw [hcd] at h; exact Option.noConfusion h
          | some q =>
            obtain ⟨res, st3, stats2, k3⟩ := q
            obtain ⟨sat, a⟩ := res
            simp only [hcd] at h
            have hstats1 : stats1 = stats0 :=
              (propLoop_stats fuel st1 st1.level_literals stats0 none st2 stats1 hprop).1 rfl
            have hne2 : [] ∉ st2.formula := by
              have e1 : st2.formula = st1.formula :=
                propagate_formula fuel st1 stats0 none st2 stats1 hprop
              have e2 : st1.formula = st.formula := preUnit_formula st.formula st st1 hpre
              rw [e1, e2, hstf]
              exact parseDimacs_no_empty_clause lines
            have hmain := cdclLoop_main fuel st2 stats1 100 0 0 (sat, a) st3 stats2 k3
              hne2 hcd
            have hdec := cdclLoop_decisions N fuel st2 stats1 100 0 0 (sat, a) st3 stats2 k3
              hwf2 hcd
            rw [hstats1] at hmain hdec
            have hconf : stats2.conflicts = 2 * k3 := by
              have := hmain.2.2.1
              simpa [stats0] using this
            have hlearn : stats2.learned_clauses ≤ k3 := by
              have := hmain.2.2.2.2.1
              simpa [stats0] using this
            have hdec2 : stats2.decisions + st2.assignment.length + N * (0 + 0)
                ≤ 0 + N + N * (stats2.restarts + k3) := hdec
            have h3 := Option.some.inj h
            injection h3 with hrec hk
            subst hrec
            refine ⟨stats2.decisions, stats2.conflicts, stats2.learned_clauses,
              stats2.restarts, rfl, rfl, rfl, rfl, by omega, ?_⟩
            have he2 : N * (stats2.restarts + 2 * k3 + 1)
                = N * (stats2.restarts + k3) + N + N * k3 := by ring
            have he3 : N * (0 + 0) = 0 := by ring
            rw [hconf]
            omega
end Cdcl

open Fab in
/-- C2 amended: for every terminating CDCL run on an input whose clause
literals are non-zero with magnitude at most the header's `num_vars`, the
returned counters satisfy `learned_clauses ≤ conflicts` and
`decisions ≤ num_vars · (restarts + conflicts + 1)` (the original bound
`num_vars · (restarts + 1) + conflicts` is refuted by
the 7-variable counterexample: backjumps to level 0 un-assign filler
variables, which are then decided once more per conflict). -/
theorem c2_counter_bounds (lines : List PLine) (fuel : Nat) (p : Dpll.Record × Nat)
    (hwfin : ∀ cl ∈ (parseDimacs lines).clauses, ∀ l ∈ cl,
      l ≠ 0 ∧ iabs l ≤ (parseDimacs lines).num_vars)
    (h : Cdcl.runSolverG lines fuel = some p) :
    ∃ d cf lr rs : Nat,
      recGet p.1 "decisions" = some (Dpll.RVal.n (d : Int)) ∧
      recGet p.1 "conflicts" = some (Dpll.RVal.n (cf : Int)) ∧
      recGet p.1 "learned_clauses" = some (Dpll.RVal.n (lr : Int)) ∧
      recGet p.1 "restarts" = some (Dpll.RVal.n (rs : Int)) ∧
      lr ≤ cf ∧
      d ≤ (parseDimacs lines).num_vars.toNat * (rs + cf + 1) :=
  Cdcl.runSolverG_bounds lines fuel p.1 p.2 hwfin (by rw [h])

open Fab in
/-- C2 amended, witness: the XOR fixture run (2 variables; the record
reports decisions 1, conflicts 4, learned 1, restarts 0, and
`1 ≤ 4 ∧ 1 ≤ 2 · (0 + 4 + 1)`). -/
theorem c2_counter_bounds_witness :
    (∀ cl ∈ (parseDimacs xorLines).clauses, ∀ l ∈ cl,
      l ≠ 0 ∧ iabs l ≤ (parseDimacs xorLines).num_vars) ∧
    (Cdcl.runSolverG xorLines 50 = some ((Cdcl.runSolverG xorLines 50).getD ([], 0))) ∧
    (∃ d cf lr rs : Nat,
      recGet ((Cdcl.runSolverG xorLines 50).getD ([], 0)).1 "decisions"
          = some (Dpll.RVal.n (d : Int)) ∧
      recGet ((Cdcl.runSolverG xorLines 50).getD ([], 0)).1 "conflicts"
          = some (Dpll.RVal.n (cf : Int)) ∧
      recGet ((Cdcl.runSolverG xorLines 50).getD ([], 0)).1 "learned_clauses"
          = some (Dpll.RVal.n (lr : Int)) ∧
      recGet ((Cdcl.runSolverG xorLines 50).getD ([], 0)).1 "restarts"
          = some (Dpll.RVal.n (rs : Int)) ∧
      lr ≤ cf ∧
      d ≤ (parseDimacs xorLines).num_vars.toNat * (rs + cf + 1)) := by
  refine ⟨by decide, rfl, ?_⟩
  exact c2_counter_bounds xorLines 50 ((Cdcl.runSolverG xorLines 50).getD ([], 0))
    (by decide) rfl

namespace Fab
variable {α β : Type} [DecidableEq α]

/-- Lookup after updating the same key. -/
theorem alGet_alSet_self (m : List (α × β)) (k : α) (v : β) :
    alGet (alSet m k v) k = some v := by
  induction m with
  | nil => simp [alSet, alGet]
  | cons q rest ih =>
    obtain ⟨k2, v2⟩ := q
    simp only [alSet]
    by_cases he : k2 = k
    · rw [if_pos he]
      simp only [alGet]
      rw [if_pos he]
    · rw [if_neg he]
      simp only [alGet]
      rw [if_neg he]
      exact ih

/-- Lookup after updating another key. -/
theorem alGet_alSet_ne (m : List (α × β)) (k k2 : α) (v : β) (h : k ≠ k2) :
    alGet (alSet m k v) k2 = alGet m k2 := by
  induction m with
  | nil => simp [alSet, alGet, h]
  | cons q rest ih =>
    obtain ⟨k3, v3⟩ := q
    simp only [alSet]
    by_cases he : k3 = k
    · rw [if_pos he]
      simp only [alGet]
      rw [if_neg (he ▸ h), if_neg (he ▸ h)]
    · rw [if_neg he]
      simp only [alGet]
      by_cases he2 : k3 = k2
      · rw [if_pos he2, if_pos he2]
      · rw [if_neg he2, if_neg he2]
        exact ih

/-- A satisfied literal stays satisfied under any extension of the
assignment. -/
theorem litSat_mono (a a2 : Assignment) (l : Int)
    (hext : ∀ v b, alGet a v = some b → alGet a2 v = some b)
    (h : litSat a l = true) : litSat a2 l = true := by
  unfold litSat at h ⊢
  cases hg : alGet a (iabs l) with
  | none => rw [hg] at h; cases h
  | some v =>
    rw [hg] at h
    rw [hext (iabs l) v hg]
    exact h

/-- A satisfied clause stays satisfied under any extension. -/
theorem clauseSat_mono (a a2 : Assignment) (c : Clause)
    (hext : ∀ v b, alGet a v = some b → alGet a2 v = some b)
    (h : clauseSat a c = true) : clauseSat a2 c = true := by
  unfold clauseSat at h ⊢
  obtain ⟨l, hm, hs⟩ := List.any_eq_true.mp h
  exact List.any_eq_true.mpr ⟨l, hm, litSat_mono a a2 l hext hs⟩

/-- A member literal satisfies its clause. -/
theorem clauseSat_of_mem (a : Assignment) (c : Clause) (l : Int)
    (hm : l ∈ c) (h : litSat a l = true) : clauseSat a c = true :=
  List.any_eq_true.mpr ⟨l, hm, h⟩

/-- Assigning a non-zero literal's polarity satisfies the literal. -/
theorem litSat_assign (a : Assignment) (l : Int) (h0 : l ≠ 0) :
    litSat (alSet a (iabs l) (decide (l > 0))) l = true := by
  unfold litSat
  rw [alGet_alSet_self]
  rcases lt_trichotomy l 0 with hneg | hz | hpos
  · have h1 : decide (l > 0) = false := by simp; omega
    have h2 : decide (l < 0) = true := by simp; omega
    rw [h1, h2]
    rfl
  · exact absurd hz h0
  · have h1 : decide (l > 0) = true := by simp; omega
    rw [h1]
    rfl

end Fab

namespace Dpll
open Fab

/-- Clauses accumulated by the reduction survive to the output. -/
theorem reduceGo_acc_sub (literal : Int) (clauses : Formula) :
    ∀ (acc out : Formula), reduceGo literal clauses acc = some out →
    ∀ c ∈ acc, c ∈ out := by
  induction clauses with
  | nil =>
    intro acc out h c hm
    simp only [reduceGo] at h
    rw [← Option.some.inj h]
    exact hm
  | cons c0 rest ih =>
    intro acc out h c hm
    simp only [reduceGo] at h
    by_cases h1 : literal ∈ c0
    · rw [if_pos h1] at h
      exact ih acc out h c hm
    · rw [if_neg h1] at h
      by_cases h2 : (-literal) ∈ c0
      · rw [if_pos h2] at h
        by_cases h3 : (c0.filter (fun l => l ≠ -literal)).isEmpty
        · rw [if_pos h3] at h; exact Option.noConfusion h
        · rw [if_neg h3] at h
          exact ih _ out h c (List.mem_append.mpr (Or.inl hm))
      · rw [if_neg h2] at h
        exact ih _ out h c (List.mem_append.mpr (Or.inl hm))

/-- Every input clause either contains the assigned literal, survives
reduced (its negated-literal occurrences removed), or survives unchanged. -/
theorem reduceGo_cover (literal : Int) (clauses : Formula) :
    ∀ (acc out : Formula), reduceGo literal clauses acc = some out →
    ∀ c ∈ clauses, literal ∈ c ∨ c.filter (fun l => l ≠ -literal) ∈ out ∨ c ∈ out := by
  induction clauses with
  | nil => intro acc out h c hm; cases hm
  | cons c0 rest ih =>
    intro acc out h c hm
    simp only [reduceGo] at h
    rcases List.mem_cons.mp hm with hc | hc
    · subst hc
      by_cases h1 : literal ∈ c
      · exact Or.inl h1
      · rw [if_neg h1] at h
        by_cases h2 : (-literal) ∈ c
        · rw [if_pos h2] at h
          by_cases h3 : (c.filter (fun l => l ≠ -literal)).isEmpty
          · rw [if_pos h3] at h; exact Option.noConfusion h
          · rw [if_neg h3] at h
            refine Or.inr (Or.inl ?_)
            exact reduceGo_acc_sub literal rest _ out h _
              (List.mem_append.mpr (Or.inr (List.mem_singleton.mpr rfl)))
        · rw [if_neg h2] at h
          refine Or.inr (Or.inr ?_)
          exact reduceGo_acc_sub literal rest _ out h _
            (List.mem_append.mpr (Or.inr (List.mem_singleton.mpr rfl)))
    · by_cases h1 : literal ∈ c0
      · rw [if_pos h1] at h
        exact ih acc out h c hc
      · rw [if_neg h1] at h
        by_cases h2 : (-literal) ∈ c0
        · rw [if_pos h2] at h
          by_cases h3 : (c0.filter (fun l => l ≠ -literal)).isEmpty
          · rw [if_pos h3] at h; exact Option.noConfusion h
          · rw [if_neg h3] at h
            exact ih _ out h c hc
        · rw [if_neg h2] at h
          exact ih _ out h c hc

/-- Every literal of an output clause comes from the accumulator or from
an input clause. -/
theorem reduceGo_lits (literal : Int) (clauses : Formula) :
    ∀ (acc out : Formula), reduceGo literal clauses acc = some out →
    ∀ c ∈ out, ∀ l ∈ c, (∃ c0 ∈ acc, l ∈ c0) ∨ ∃ c0 ∈ clauses, l ∈ c0 := by
  induction clauses with
  | nil =>
    intro acc out h c hm l hl
    simp only [reduceGo] at h
    rw [← Option.some.inj h] at hm
    exact Or.inl ⟨c, hm, hl⟩
  | cons c0 rest ih =>
    intro acc out h c hm l hl
    simp only [reduceGo] at h
    by_cases h1 : literal ∈ c0
    · rw [if_pos h1] at h
      rcases ih acc out h c hm l hl with hacc | hrest
      · exact Or.inl hacc
      · obtain ⟨c1, hc1, hlc1⟩ := hrest
        exact Or.inr ⟨c1, List.mem_cons_of_mem c0 hc1, hlc1⟩
    · rw [if_neg h1] at h
      by_cases h2 : (-literal) ∈ c0
      · rw [if_pos h2] at h
        by_cases h3 : (c0.filter (fun l => l ≠ -literal)).isEmpty
        · rw [if_pos h3] at h; exact Option.noConfusion h
        · rw [if_neg h3] at h
          rcases ih _ out h c hm l hl with hacc | hrest
          · obtain ⟨c1, hc1, hlc1⟩ := hacc
            rcases List.mem_append.mp hc1 with ha | ha
            · exact Or.inl ⟨c1, ha, hlc1⟩
            · have : c1 = c0.filter (fun l => l ≠ -literal) := List.mem_singleton.mp ha
              subst this
              exact Or.inr ⟨c0, List.mem_cons_self _ _, List.mem_of_mem_filter hlc1⟩
          · obtain ⟨c1, hc1, hlc1⟩ := hrest
            exact Or.inr ⟨c1, List.mem_cons_of_mem c0 hc1, hlc1⟩
      · rw [if_neg h2] at h
        rcases ih _ out h c hm l hl with hacc | hrest
        · obtain ⟨c1, hc1, hlc1⟩ := hacc
          rcases List.mem_append.mp hc1 with ha | ha
          · exact Or.inl ⟨c1, ha, hlc1⟩
          · have he : c1 = c0 := List.mem_singleton.mp ha
            rw [he] at hlc1
            exact Or.inr ⟨c0, List.mem_cons_self _ _, hlc1⟩
        · obtain ⟨c1, hc1, hlc1⟩ := hrest
          exact Or.inr ⟨c1, List.mem_cons_of_mem c0 hc1, hlc1⟩

/-- Specification of a successful (non-conflict) `assign_literal`. -/
theorem assign_literal_spec (clauses : Formula) (a : Assignment) (literal : Int)
    (out : Formula) (a2 : Assignment)
    (h : assign_literal clauses a literal = (out, false, a2)) :
    reduceGo literal clauses [] = some out ∧
    a2 = alSet a (iabs literal) (decide (literal > 0)) ∧
    (∀ v b, alGet a v = some b → alGet a2 v = some b) := by
  simp only [assign_literal] at h
  cases hg : alGet a (iabs literal) with
  | some existing =>
    simp only [hg] at h
    by_cases hne : existing ≠ decide (literal > 0)
    · rw [if_pos hne] at h
      have : (false : Bool) = true := (congrArg (fun t => t.2.1) h).symm
      cases this
    · rw [if_neg hne] at h
      simp only [Ne, not_not] at hne
      cases hr : reduceGo literal clauses [] with
      | none =>
        rw [hr] at h
        have : (false : Bool) = true := (congrArg (fun t => t.2.1) h).symm
        cases this
      | some updated =>
        rw [hr] at h
        have hout : updated = out := congrArg Prod.fst h
        have ha2 : alSet a (iabs literal) (decide (literal > 0)) = a2 :=
          congrArg (fun t => t.2.2) h
        subst hout
        refine ⟨rfl, ha2.symm, ?_⟩
        intro v b hb
        rw [← ha2]
        by_cases hv : iabs literal = v
        · subst hv
          rw [alGet_alSet_self]
          rw [hg] at hb
          rw [← hne, hb]
        · rw [alGet_alSet_ne a _ v _ hv]
          exact hb
  | none =>
    simp only [hg] at h
    cases hr : reduceGo literal clauses [] with
    | none =>
      rw [hr] at h
      have : (false : Bool) = true := (congrArg (fun t => t.2.1) h).symm
      cases this
    | some updated =>
      rw [hr] at h
      have hout : updated = out := congrArg Prod.fst h
      have ha2 : alSet a (iabs literal) (decide (literal > 0)) = a2 :=
        congrArg (fun t => t.2.2) h
      subst hout
      refine ⟨rfl, ha2.symm, ?_⟩
      intro v b hb
      rw [← ha2]
      by_cases hv : iabs literal = v
      · subst hv
        rw [hg] at hb
        exact Option.noConfusion hb
      · rw [alGet_alSet_ne a _ v _ hv]
        exact hb

/-- Soundness of a successful `assign_literal`: any extension of the new
assignment that satisfies the reduced formula satisfies the original. -/
theorem assign_literal_sound (clauses : Formula) (a : Assignment) (literal : Int)
    (out : Formula) (a2 : Assignment) (a3 : Assignment)
    (h : assign_literal clauses a literal = (out, false, a2)) (h0 : literal ≠ 0)
    (hext : ∀ v b, alGet a2 v = some b → alGet a3 v = some b)
    (hsat : ∀ c ∈ out, clauseSat a3 c = true) :
    ∀ c ∈ clauses, clauseSat a3 c = true := by
  obtain ⟨hred, ha2, _⟩ := assign_literal_spec clauses a literal out a2 h
  intro c hm
  rcases reduceGo_cover literal clauses [] out hred c hm with hin | hf | hc
  · have hl2 : litSat a2 literal = true := by
      rw [ha2]
      exact litSat_assign a literal h0
    exact clauseSat_of_mem a3 c literal hin (litSat_mono a2 a3 literal hext hl2)
  · have hcs := hsat _ hf
    obtain ⟨l, hlm, hls⟩ := List.any_eq_true.mp hcs
    exact clauseSat_of_mem a3 c l (List.mem_of_mem_filter hlm) hls
  · exact hsat c hc
end Dpll

namespace Dpll
open Fab

/-- Undecided literals collected by the clause scan come from the
accumulator or the clause. -/
theorem clauseScan_sub (a : Assignment) (c : Clause) :
    ∀ (und res : List Int), clauseScan a c und = some res →
    ∀ l ∈ res, l ∈ und ∨ l ∈ c := by
  induction c with
  | nil =>
    intro und res h l hl
    simp only [clauseScan] at h
    rw [← Option.some.inj h] at hl
    exact Or.inl hl
  | cons x rest ih =>
    intro und res h l hl
    simp only [clauseScan] at h
    by_cases h1 : litUndecided a x
    · rw [if_pos h1] at h
      rcases ih _ res h l hl with hu | hc
      · rcases List.mem_append.mp hu with hu2 | hu2
        · exact Or.inl hu2
        · exact Or.inr (List.mem_cons.mpr (Or.inl (List.mem_singleton.mp hu2)))
      · exact Or.inr (List.mem_cons_of_mem x hc)
    · rw [if_neg h1] at h
      by_cases h2 : litSat a x
      · rw [if_pos h2] at h
        exact Option.noConfusion h
      · rw [if_neg h2] at h
        rcases ih _ res h l hl with hu | hc
        · exact Or.inl hu
        · exact Or.inr (List.mem_cons_of_mem x hc)

/-- A unit literal found by the scan occurs in some clause. -/
theorem findUnit_mem (a : Assignment) (clauses : Formula) (l : Int)
    (h : findUnit a clauses = ScanRes.unitFound l) :
    ∃ c ∈ clauses, l ∈ c := by
  induction clauses with
  | nil => cases h
  | cons c rest ih =>
    simp only [findUnit] at h
    cases hs : clauseScan a c [] with
    | none =>
      rw [hs] at h
      obtain ⟨c1, hc1, hl1⟩ := ih h
      exact ⟨c1, List.mem_cons_of_mem c hc1, hl1⟩
    | some und =>
      rw [hs] at h
      match und, h with
      | [l2], h =>
        have : l2 = l := by
          have := ScanRes.unitFound.inj h
          exact this
        subst this
        rcases clauseScan_sub a c [] [l2] hs l2 (List.mem_singleton.mpr rfl) with h0 | hc
        · cases h0
        · exact ⟨c, List.mem_cons_self _ _, hc⟩
      | [], h => cases h
      | x :: y :: r, h =>
        obtain ⟨c1, hc1, hl1⟩ := ih h
        exact ⟨c1, List.mem_cons_of_mem c hc1, hl1⟩

/-- Soundness of unit propagation without conflict: the assignment only
grows, output literals are input literals, and satisfaction of the output
formula transfers back. -/
theorem unit_propagate_sound (fuel : Nat) :
    ∀ (clauses : Formula) (a : Assignment) (ups : Nat) (current : Formula)
      (a1 : Assignment) (ups2 : Nat),
    (∀ c ∈ clauses, ∀ l ∈ c, l ≠ 0) →
    unit_propagate fuel clauses a ups = some (current, false, a1, ups2) →
    (∀ c ∈ current, ∀ l ∈ c, l ≠ 0) ∧
    (∀ v b, alGet a v = some b → alGet a1 v = some b) ∧
    ∀ a2, (∀ v b, alGet a1 v = some b → alGet a2 v = some b) →
      (∀ c ∈ current, clauseSat a2 c = true) → ∀ c ∈ clauses, clauseSat a2 c = true := by
  induction fuel with
  | zero => intro clauses a ups current a1 ups2 h0 h; cases h
  | succ fuel ih =>
    intro clauses a ups current a1 ups2 h0 h
    simp only [unit_propagate] at h
    cases hf : findUnit a clauses with
    | conflictFound =>
      rw [hf] at h
      have : (true : Bool) = false := congrArg (fun t => t.2.1) (Option.some.inj h)
      cases this
    | noneFound =>
      rw [hf] at h
      have h3 := Option.some.inj h
      have hcl : clauses = current := congrArg Prod.fst h3
      have ha : a = a1 := congrArg (fun t => t.2.2.1) h3
      subst hcl
      subst ha
      exact ⟨h0, fun v b hb => hb, fun a2 hext hsat => hsat⟩
    | unitFound l =>
      simp only [hf] at h
      rcases hr : assign_literal clauses a l with ⟨out1, conf1, a3⟩
      rw [hr] at h
      have hl0 : l ≠ 0 := by
        obtain ⟨c, hc, hlc⟩ := findUnit_mem a clauses l hf
        exact h0 c hc l hlc
      cases conf1 with
      | true =>
        simp only [if_true] at h
        have : (true : Bool) = false := congrArg (fun t => t.2.1) (Option.some.inj h)
        cases this
      | false =>
        simp only [if_false, Bool.false_eq_true] at h
        have hspec := assign_literal_spec clauses a l out1 a3 hr
        have hlits : ∀ c ∈ out1, ∀ l2 ∈ c, l2 ≠ 0 := by
          intro c hc l2 hl2
          rcases reduceGo_lits l clauses [] out1 hspec.1 c hc l2 hl2 with hacc | hcl
          · obtain ⟨c0, hc0, _⟩ := hacc
            cases hc0
          · obtain ⟨c0, hc0, hlc0⟩ := hcl
            exact h0 c0 hc0 l2 hlc0
        have hrec := ih out1 a3 (ups + 1) current a1 ups2 hlits h
        refine ⟨hrec.1, ?_, ?_⟩
        · intro v b hb
          exact hrec.2.1 v b (hspec.2.2 v b hb)
        · intro a2 hext hsat
          have hout1 : ∀ c ∈ out1, clauseSat a2 c = true := hrec.2.2 a2 hext hsat
          exact assign_literal_sound clauses a l out1 a3 a2 hr hl0
            (fun v b hb => hrec.2.1 v b hb |> hext _ _) hout1

/-- Keys counted over one clause come from the accumulator or the clause. -/
theorem countClause_keys (a : Assignment) (c : Clause) :
    ∀ (counts : List (Int × Nat)) (k : Int),
    k ∈ (countClause a c counts).map Prod.fst →
    k ∈ counts.map Prod.fst ∨ k ∈ c := by
  induction c with
  | nil => intro counts k h; exact Or.inl h
  | cons x rest ih =>
    intro counts k h
    simp only [countClause] at h
    by_cases h1 : litUndecided a x
    · rw [if_pos h1] at h
      rcases ih _ k h with hm | hc
      · obtain ⟨p, hp, hpk⟩ := List.mem_map.mp hm
        rcases mem_alSet _ _ _ _ hp with hpe | hpo
        · subst hpe
          exact Or.inr (List.mem_cons.mpr (Or.inl hpk.symm))
        · exact Or.inl (List.mem_map.mpr ⟨p, hpo, hpk⟩)
      · exact Or.inr (List.mem_cons_of_mem x hc)
    · rw [if_neg h1] at h
      by_cases h2 : litSat a x
      · rw [if_pos h2] at h
        exact Or.inl h
      · rw [if_neg h2] at h
        rcases ih _ k h with hm | hc
        · exact Or.inl hm
        · exact Or.inr (List.mem_cons_of_mem x hc)

/-- Counted keys come from the formula's literals. -/
theorem countLits_keys (a : Assignment) (clauses : Formula) (k : Int)
    (h : k ∈ (countLits a clauses).map Prod.fst) : ∃ c ∈ clauses, k ∈ c := by
  unfold countLits at h
  have haux : ∀ (cls : Formula) (counts : List (Int × Nat)),
      k ∈ ((cls.foldl (fun counts c => countClause a c counts) counts).map Prod.fst) →
      k ∈ counts.map Prod.fst ∨ ∃ c ∈ cls, k ∈ c := by
    intro cls
    induction cls with
    | nil => intro counts h2; exact Or.inl h2
    | cons c rest ih =>
      intro counts h2
      rcases ih _ h2 with hm | hex
      · rcases countClause_keys a c counts k hm with hm2 | hc
        · exact Or.inl hm2
        · exact Or.inr ⟨c, List.mem_cons_self _ _, hc⟩
      · obtain ⟨c1, hc1, hk1⟩ := hex
        exact Or.inr ⟨c1, List.mem_cons_of_mem c hc1, hk1⟩
  rcases haux clauses [] h with hm | hex
  · cases hm
  · exact hex

/-- Soundness of the pure-literal assigning loop without conflict. -/
theorem assignPures_sound :
    ∀ (pures : List Int) (clauses : Formula) (a : Assignment) (pes : Nat)
      (out : Formula) (a2 : Assignment) (pes2 : Nat),
    (∀ c ∈ clauses, ∀ l ∈ c, l ≠ 0) → (∀ l ∈ pures, l ≠ 0) →
    assignPures pures clauses a pes = (out, false, a2, pes2) →
    (∀ c ∈ out, ∀ l ∈ c, l ≠ 0) ∧
    (∀ v b, alGet a v = some b → alGet a2 v = some b) ∧
    ∀ a3, (∀ v b, alGet a2 v = some b → alGet a3 v = some b) →
      (∀ c ∈ out, clauseSat a3 c = true) → ∀ c ∈ clauses, clauseSat a3 c = true := by
  intro pures
  induction pures with
  | nil =>
    intro clauses a pes out a2 pes2 h0 hp h
    simp only [assignPures] at h
    have hcl : clauses = out := congrArg Prod.fst h
    have ha : a = a2 := congrArg (fun t => t.2.2.1) h
    subst hcl
    subst ha
    exact ⟨h0, fun v b hb => hb, fun a3 hext hsat => hsat⟩
  | cons l rest ih =>
    intro clauses a pes out a2 pes2 h0 hp h
    simp only [assignPures] at h
    rcases hr : assign_literal clauses a l with ⟨out1, conf1, a3⟩
    rw [hr] at h
    have hl0 : l ≠ 0 := hp l (List.mem_cons_self l rest)
    cases conf1 with
    | true =>
      simp only [if_true] at h
      have : (true : Bool) = false := congrArg (fun t => t.2.1) h
      cases this
    | false =>
      simp only [if_false, Bool.false_eq_true] at h
      have hspec := assign_literal_spec clauses a l out1 a3 hr
      have hlits : ∀ c ∈ out1, ∀ l2 ∈ c, l2 ≠ 0 := by
        intro c hc l2 hl2
        rcases reduceGo_lits l clauses [] out1 hspec.1 c hc l2 hl2 with hacc | hcl
        · obtain ⟨c0, hc0, _⟩ := hacc
          cases hc0
        · obtain ⟨c0, hc0, hlc0⟩ := hcl
          exact h0 c0 hc0 l2 hlc0
      have hrec := ih out1 a3 (pes + 1) out a2 pes2 hlits
        (fun l2 hl2 => hp l2 (List.mem_cons_of_mem l hl2)) h
      refine ⟨hrec.1, ?_, ?_⟩
      · intro v b hb
        exact hrec.2.1 v b (hspec.2.2 v b hb)
      · intro a4 hext hsat
        have hout1 : ∀ c ∈ out1, clauseSat a4 c = true := hrec.2.2 a4 hext hsat
        exact assign_literal_sound clauses a l out1 a3 a4 hr hl0
          (fun v b hb => hrec.2.1 v b hb |> hext _ _) hout1

/-- Soundness of `pure_literal_elimination` without conflict. -/
theorem pure_literal_elimination_sound (clauses : Formula) (a : Assignment) (pes : Nat)
    (out : Formula) (a2 : Assignment) (pes2 : Nat)
    (h0 : ∀ c ∈ clauses, ∀ l ∈ c, l ≠ 0)
    (h : pure_literal_elimination clauses a pes = (out, false, a2, pes2)) :
    (∀ c ∈ out, ∀ l ∈ c, l ≠ 0) ∧
    (∀ v b, alGet a v = some b → alGet a2 v = some b) ∧
    ∀ a3, (∀ v b, alGet a2 v = some b → alGet a3 v = some b) →
      (∀ c ∈ out, clauseSat a3 c = true) → ∀ c ∈ clauses, clauseSat a3 c = true := by
  simp only [pure_literal_elimination] at h
  by_cases he : (((countLits a clauses).map Prod.fst).filter
      (fun l => !(alHas (countLits a clauses) (-l)))).isEmpty
  · rw [if_pos he] at h
    have hcl : clauses = out := congrArg Prod.fst h
    have ha : a = a2 := congrArg (fun t => t.2.2.1) h
    subst hcl
    subst ha
    exact ⟨h0, fun v b hb => hb, fun a3 hext hsat => hsat⟩
  · rw [if_neg he] at h
    refine assignPures_sound _ clauses a pes out a2 pes2 h0 ?_ h
    intro l hl
    have hk : l ∈ (countLits a clauses).map Prod.fst := List.mem_of_mem_filter hl
    obtain ⟨c, hc, hlc⟩ := countLits_keys a clauses l hk
    exact h0 c hc l hlc
end Dpll

namespace Dpll
open Fab

/-- Scored keys come from the accumulator or the clause. -/
theorem scoreClause_keys (a : Assignment) (w : Q) (c : Clause) :
    ∀ (scores : List (Int × Q)) (k : Int),
    k ∈ (scoreClause a w c scores).map Prod.fst →
    k ∈ scores.map Prod.fst ∨ k ∈ c := by
  induction c with
  | nil => intro scores k h; exact Or.inl h
  | cons x rest ih =>
    intro scores k h
    simp only [scoreClause] at h
    by_cases h1 : litUndecided a x
    · rw [if_pos h1] at h
      rcases ih _ k h with hm | hc
      · obtain ⟨p, hp, hpk⟩ := List.mem_map.mp hm
        rcases mem_alSet _ _ _ _ hp with hpe | hpo
        · subst hpe
          exact Or.inr (List.mem_cons.mpr (Or.inl hpk.symm))
        · exact Or.inl (List.mem_map.mpr ⟨p, hpo, hpk⟩)
      · exact Or.inr (List.mem_cons_of_mem x hc)
    · rw [if_neg h1] at h
      by_cases h2 : litSat a x
      · rw [if_pos h2] at h
        exact Or.inl h
      · rw [if_neg h2] at h
        rcases ih _ k h with hm | hc
        · exact Or.inl hm
        · exact Or.inr (List.mem_cons_of_mem x hc)

/-- Scored keys come from the formula's literals. -/
theorem scoreLits_keys (a : Assignment) (clauses : Formula) (k : Int)
    (h : k ∈ (scoreLits a clauses).map Prod.fst) : ∃ c ∈ clauses, k ∈ c := by
  unfold scoreLits at h
  have haux : ∀ (cls : Formula) (scores : List (Int × Q)),
      k ∈ ((cls.foldl (fun scores c => scoreClause a (jwWeight c) c scores) scores).map
        Prod.fst) →
      k ∈ scores.map Prod.fst ∨ ∃ c ∈ cls, k ∈ c := by
    intro cls
    induction cls with
    | nil => intro scores h2; exact Or.inl h2
    | cons c rest ih =>
      intro scores h2
      rcases ih _ h2 with hm | hex
      · rcases scoreClause_keys a (jwWeight c) c scores k hm with hm2 | hc
        · exact Or.inl hm2
        · exact Or.inr ⟨c, List.mem_cons_self _ _, hc⟩
      · obtain ⟨c1, hc1, hk1⟩ := hex
        exact Or.inr ⟨c1, List.mem_cons_of_mem c hc1, hk1⟩
  rcases haux clauses [] h with hm | hex
  · cases hm
  · exact hex

/-- The maximum scan returns the seed key or a listed key. -/
theorem maxByScore_mem : ∀ (l : List (Int × Q)) (best : Int × Q),
    maxByScore best l = best.1 ∨ maxByScore best l ∈ l.map Prod.fst := by
  intro l
  induction l with
  | nil => intro best; exact Or.inl rfl
  | cons p rest ih =>
    intro best
    obtain ⟨k, s⟩ := p
    simp only [maxByScore]
    by_cases hb : Q.blt best.2 s
    · rw [if_pos hb]
      rcases ih (k, s) with he | hm
      · exact Or.inr (List.mem_cons.mpr (Or.inl he))
      · exact Or.inr (List.mem_cons_of_mem _ hm)
    · rw [if_neg hb]
      rcases ih best with he | hm
      · exact Or.inl he
      · exact Or.inr (List.mem_cons_of_mem _ hm)

/-- The fallback scan returns a clause literal. -/
theorem fallbackLit_mem (a : Assignment) : ∀ (clauses : Formula) (l : Int),
    fallbackLit a clauses = some l → ∃ c ∈ clauses, l ∈ c := by
  intro clauses
  induction clauses with
  | nil => intro l h; cases h
  | cons c rest ih =>
    intro l h
    simp only [fallbackLit] at h
    cases hf : c.find? (fun l => !(alHas a (iabs l))) with
    | some l2 =>
      rw [hf] at h
      have : l2 = l := Option.some.inj h
      subst this
      exact ⟨c, List.mem_cons_self _ _, List.mem_of_find?_eq_some hf⟩
    | none =>
      rw [hf] at h
      obtain ⟨c1, hc1, hl1⟩ := ih l h
      exact ⟨c1, List.mem_cons_of_mem c hc1, hl1⟩

/-- A picked literal occurs in the formula. -/
theorem pick_literal_mem (clauses : Formula) (a : Assignment) (l : Int)
    (h : pick_literal clauses a = some l) : ∃ c ∈ clauses, l ∈ c := by
  unfold pick_literal at h
  cases hs : scoreLits a clauses with
  | nil =>
    rw [hs] at h
    exact fallbackLit_mem a clauses l h
  | cons e rest =>
    rw [hs] at h
    have hl : maxByScore e rest = l := Option.some.inj h
    rcases maxByScore_mem rest e with he | hm
    · refine scoreLits_keys a clauses l ?_
      rw [hs, ← hl, he]
      exact List.mem_cons.mpr (Or.inl rfl)
    · refine scoreLits_keys a clauses l ?_
      rw [hs, ← hl]
      exact List.mem_cons_of_mem _ hm

/-- A non-zero literal's magnitude is non-zero. -/
theorem iabs_ne_zero (l : Int) (h : l ≠ 0) : iabs l ≠ 0 := by
  unfold iabs
  by_cases hn : l < 0
  · rw [if_pos hn]; omega
  · rw [if_neg hn]; exact h

/-- Literal preservation of a successful `assign_literal`. -/
theorem assign_literal_lits (clauses : Formula) (a : Assignment) (literal : Int)
    (out : Formula) (a2 : Assignment)
    (h : assign_literal clauses a literal = (out, false, a2))
    (h0 : ∀ c ∈ clauses, ∀ l ∈ c, l ≠ 0) :
    ∀ c ∈ out, ∀ l ∈ c, l ≠ 0 := by
  intro c hc l hl
  rcases reduceGo_lits literal clauses [] out
      (assign_literal_spec clauses a literal out a2 h).1 c hc l hl with hacc | hcl
  · obtain ⟨c0, hc0, _⟩ := hacc
    cases hc0
  · obtain ⟨c0, hc0, hlc0⟩ := hcl
    exact h0 c0 hc0 l hlc0

/-- Soundness of the DPLL-JW search: a `True` result's assignment extends
the input assignment and satisfies every input clause (for formulas with
non-zero literals, as the parser guarantees). -/
theorem dpll_sound (fuel : Nat) :
    ∀ (clauses : Formula) (a : Assignment) (stats : SolverStats)
      (fa : Assignment) (fst : SolverStats),
    (∀ c ∈ clauses, ∀ l ∈ c, l ≠ 0) →
    dpll fuel clauses a stats = some (true, fa, fst) →
    (∀ v b, alGet a v = some b → alGet fa v = some b) ∧
    ∀ c ∈ clauses, clauseSat fa c = true := by
  induction fuel with
  | zero => intro clauses a stats fa fst h0 h; cases h
  | succ fuel ih =>
    intro clauses a stats fa fst h0 h
    simp only [dpll] at h
    cases hup : unit_propagate (fuel + 1) clauses a stats.unit_propagations with
    | none => rw [hup] at h; exact Option.noConfusion h
    | some quad =>
      obtain ⟨current, conflict, a1, ups⟩ := quad
      simp only [hup] at h
      cases conflict with
      | true =>
        simp only [if_true] at h
        have : (false : Bool) = true := congrArg (fun t => t.1) (Option.some.inj h)
        cases this
      | false =>
        simp only [if_false, Bool.false_eq_true] at h
        have hus := unit_propagate_sound (fuel + 1) clauses a stats.unit_propagations
          current a1 ups h0 hup
        rcases hpe : pure_literal_elimination current a1
            ({ stats with unit_propagations := ups } : SolverStats).pure_eliminations with
          ⟨current2, conflict2, a2, pes⟩
        rw [hpe] at h
        cases conflict2 with
        | true =>
          simp only [if_true] at h
          have : (false : Bool) = true := congrArg (fun t => t.1) (Option.some.inj h)
          cases this
        | false =>
          simp only [if_false, Bool.false_eq_true] at h
          have hps := pure_literal_elimination_sound current a1 _ current2 a2 pes
            hus.1 hpe
          by_cases hcur : current2.isEmpty
          · rw [if_pos hcur] at h
            have h3 := Option.some.inj h
            have hfa : a2 = fa := congrArg (fun t => t.2.1) h3
            subst hfa
            have hemp : current2 = [] := by
              cases hc2 : current2 with
              | nil => rfl
              | cons x xs => rw [hc2] at hcur; cases hcur
            have hsat2 : ∀ c ∈ current, clauseSat a2 c = true := by
              refine hps.2.2 a2 (fun v b hb => hb) ?_
              intro c hc
              rw [hemp] at hc
              cases hc
            have hsat : ∀ c ∈ clauses, clauseSat a2 c = true :=
              hus.2.2 a2 (fun v b hb => hps.2.1 v b hb) hsat2
            exact ⟨fun v b hb => hps.2.1 v b (hus.2.1 v b hb), hsat⟩
          · rw [if_neg hcur] at h
            cases hpl : pick_literal current2 a2 with
            | none => rw [hpl] at h; exact Option.noConfusion h
            | some literal =>
              simp only [hpl] at h
              have hl0 : literal ≠ 0 := by
                obtain ⟨c, hc, hlc⟩ := pick_literal_mem current2 a2 literal hpl
                exact hps.1 c hc literal hlc
              have hvar0 : iabs literal ≠ 0 := iabs_ne_zero literal hl0
              have hnvar0 : -(iabs literal) ≠ 0 := by
                intro hx
                exact hvar0 (by omega)
              have hfalse : ∀ (st5 : SolverStats),
                  (if (assign_literal current2 a2 (-(iabs literal))).2.1 = true then
                      some (false, a2, st5)
                    else
                      match dpll fuel (assign_literal current2 a2 (-(iabs literal))).1
                          (assign_literal current2 a2 (-(iabs literal))).2.2 st5 with
                      | none => none
                      | some (true, fa2, fst2) => some (true, fa2, fst2)
                      | some (false, _, fst2) => some (false, a2, fst2))
                    = some (true, fa, fst) →
                  (∀ v b, alGet a v = some b → alGet fa v = some b) ∧
                  ∀ c ∈ clauses, clauseSat fa c = true := by
                intro st5 hh
                rcases hr2 : assign_literal current2 a2 (-(iabs literal)) with
                  ⟨out2, conf2, a4⟩
                simp only [hr2] at hh
                cases conf2 with
                | true =>
                  have hftt : (false : Bool) = true :=
                    congrArg (fun t => t.1) (Option.some.inj hh)
                  cases hftt
                | false =>
                  cases hd2 : dpll fuel out2 a4 st5 with
                  | none =>
                    rw [hd2] at hh
                    exact Option.noConfusion hh
                  | some trip =>
                    obtain ⟨b2, fa2, fst2⟩ := trip
                    rw [hd2] at hh
                    cases b2 with
                    | false =>
                      have hftt : (false : Bool) = true :=
                        congrArg (fun t => t.1) (Option.some.inj hh)
                      cases hftt
                    | true =>
                      have h3 := Option.some.inj hh
                      have hfa : fa2 = fa := congrArg (fun t => t.2.1) h3
                      subst hfa
                      have hrec := ih out2 a4 st5 fa2 fst2
                        (assign_literal_lits current2 a2 _ out2 a4 hr2 hps.1) hd2
                      have hsat2 : ∀ c ∈ current2, clauseSat fa2 c = true :=
                        assign_literal_sound current2 a2 _ out2 a4 fa2 hr2 hnvar0
                          hrec.1 hrec.2
                      have hext24 : ∀ v b, alGet a2 v = some b → alGet fa2 v = some b :=
                        fun v b hb =>
                          hrec.1 v b ((assign_literal_spec current2 a2 _ out2 a4 hr2).2.2
                            v b hb)
                      have hsatc : ∀ c ∈ current, clauseSat fa2 c = true :=
                        hps.2.2 fa2 hext24 hsat2
                      have hsat0 : ∀ c ∈ clauses, clauseSat fa2 c = true :=
                        hus.2.2 fa2 (fun v b hb => hext24 v b (hps.2.1 v b hb)) hsatc
                      exact ⟨fun v b hb =>
                        hext24 v b (hps.2.1 v b (hus.2.1 v b hb)), hsat0⟩
              rcases hr1 : assign_literal current2 a2 (iabs literal) with ⟨out1, conf1, a3⟩
              simp only [hr1] at h
              cases conf1 with
              | true =>
                exact hfalse _ h
              | false =>
                cases hd1 : dpll fuel out1 a3
                    { decisions := stats.decisions + 1, unit_propagations := ups,
                      pure_eliminations := pes } with
                | none =>
                  rw [hd1] at h
                  exact Option.noConfusion h
                | some trip =>
                  obtain ⟨b1, fa1, fst1⟩ := trip
                  rw [hd1] at h
                  cases b1 with
                  | true =>
                    have h3 := Option.some.inj h
                    have hfa : fa1 = fa := congrArg (fun t => t.2.1) h3
                    subst hfa
                    have hrec := ih out1 a3 _ fa1 fst1
                      (assign_literal_lits current2 a2 _ out1 a3 hr1 hps.1) hd1
                    have hsat2 : ∀ c ∈ current2, clauseSat fa1 c = true :=
                      assign_literal_sound current2 a2 _ out1 a3 fa1 hr1 hvar0
                        hrec.1 hrec.2
                    have hext24 : ∀ v b, alGet a2 v = some b → alGet fa1 v = some b :=
                      fun v b hb =>
                        hrec.1 v b ((assign_literal_spec current2 a2 _ out1 a3 hr1).2.2
                          v b hb)
                    have hsatc : ∀ c ∈ current, clauseSat fa1 c = true :=
                      hps.2.2 fa1 hext24 hsat2
                    have hsat0 : ∀ c ∈ clauses, clauseSat fa1 c = true :=
                      hus.2.2 fa1 (fun v b hb => hext24 v b (hps.2.1 v b hb)) hsatc
                    exact ⟨fun v b hb =>
                      hext24 v b (hps.2.1 v b (hus.2.1 v b hb)), hsat0⟩
                  | false =>
                    exact hfalse _ h

end Dpll

namespace Fab

/-- The parser's clause accumulator never gains a zero literal. -/
theorem parseStep_no_zero (acc : Formula × Int × Int) (l : PLine)
    (h : ∀ c ∈ acc.1, ∀ x ∈ c, x ≠ 0) :
    ∀ c ∈ (parseStep acc l).1, ∀ x ∈ c, x ≠ 0 := by
  cases l with
  | comment => exact h
  | headerBad => exact h
  | header nv nc => exact h
  | lits toks =>
    show ∀ c ∈ (if (toks.filter (fun t => t ≠ 0)).isEmpty then acc
               else (acc.1 ++ [toks.filter (fun t => t ≠ 0)], acc.2.1, acc.2.2)).1,
        ∀ x ∈ c, x ≠ 0
    by_cases he : (toks.filter (fun t => t ≠ 0)).isEmpty
    · rw [if_pos he]; exact h
    · rw [if_neg he]
      intro c hmem x hx
      rcases List.mem_append.mp hmem with hm | hm
      · exact h c hm x hx
      · have : c = toks.filter (fun t => t ≠ 0) := List.mem_singleton.mp hm
        rw [this] at hx
        simpa using (List.of_mem_filter hx)

theorem parseFold_no_zero (lines : List PLine) (acc : Formula × Int × Int)
    (h : ∀ c ∈ acc.1, ∀ x ∈ c, x ≠ 0) :
    ∀ c ∈ (lines.foldl parseStep acc).1, ∀ x ∈ c, x ≠ 0 := by
  induction lines generalizing acc with
  | nil => exact h
  | cons l rest ih => exact ih _ (parseStep_no_zero acc l h)

/-- `parse_dimacs` strips the `0` terminators: parsed clauses hold only
non-zero literals. -/
theorem parseDimacs_no_zero_lit (lines : List PLine) :
    ∀ c ∈ (parseDimacs lines).clauses, ∀ x ∈ c, x ≠ 0 := by
  simpa [parseDimacs] using parseFold_no_zero lines ([], 0, 0) (by simp)

end Fab

namespace Dpll
open Fab

/-- Soundness of the DPLL-JW entry point: a record reporting `SAT` carries
an assignment under which every parsed input clause has a satisfied
literal. -/
theorem run_solver_sound (lines : List PLine) (fuel : Nat) (rec : Record)
    (h : run_solver lines fuel = some rec)
    (hst : recGet rec "status" = some (RVal.s "SAT")) :
    ∃ asn, recGet rec "assignment" = some (RVal.asn asn) ∧
      ∀ c ∈ (parseDimacs lines).clauses, clauseSat asn c = true := by
  simp only [run_solver] at h
  cases hd : dpll fuel (parseDimacs lines).clauses [] stats0 with
  | none => rw [hd] at h; exact Option.noConfusion h
  | some trip =>
    obtain ⟨sat, assignment, stats⟩ := trip
    simp only [hd] at h
    have hrec : _ = rec := Option.some.inj h
    cases sat with
    | false =>
      exfalso
      rw [← hrec] at hst
      have : RVal.s "UNSAT" = RVal.s "SAT" := Option.some.inj hst
      have h2 : "UNSAT" = "SAT" := RVal.s.inj this
      exact absurd h2 (by decide)
    | true =>
      refine ⟨assignment, ?_, ?_⟩
      · rw [← hrec]
        rfl
      · exact (dpll_sound fuel (parseDimacs lines).clauses [] stats0 assignment stats
          (parseDimacs_no_zero_lit lines) hd).2
end Dpll
